import Mathlib

/-!
Verification development for the skeleton-morphology module `pymaid/morpho.py`.

The Python module manipulates a single neuron's reconstructed skeleton: a rooted
tree of treenodes (each with an integer id, an optional parent id, 3D position
and radius), a list of connectors (synapses attached to treenodes), and a tag
mapping.  This file gives a shallow embedding of the data model and of the
operations `generate_list_of_childs`, `classify_nodes`, `downsample_neuron`,
`reroot_neuron`, `cut_neuron`, `_cut_neuron`, `calc_cable`,
`calc_strahler_index`, `_calc_dist` and `_walk_to_root`, and proves or refutes
the specification claims about them.

Machine floats of the source are modelled as exact reals (coordinates are kept
rational so that all control flow stays decidable; only the derived Euclidean
lengths live in `ℝ`).  Python dicts are modelled as insertion-ordered
association lists with last-write-wins update, matching Python 3.7+ semantics.
Loops are modelled with explicit fuel; a crash (uncaught `KeyError`,
`IndexError`, missing data) or non-termination of the Python code is modelled
as `none`.
-/

/-- The four roles `classify_nodes` can assign in the `type` column (`leaf`
stands for the source's `'end'` string, which is a reserved word here). -/
inductive NodeRole where
  | root | slab | branch | leaf
deriving DecidableEq, Repr

/-- A treenode row from the skeleton node table: id, parent id (absent exactly
at the root), 3D position, radius, and the two derived columns `type` and
`has_synapses` (absent until `classify_nodes` fills them). -/
structure Node where
  treenode_id : Nat
  parent_id : Option Nat
  x : Rat
  y : Rat
  z : Rat
  radius : Rat
  ntype : Option NodeRole := none
  has_synapses : Option Bool := none
deriving DecidableEq, Repr

/-- A connector (synapse) row: connector id and the treenode it attaches to. -/
structure Connector where
  connector_id : Nat
  treenode_id : Nat
deriving DecidableEq, Repr

/-- A single-neuron skeleton: name, id, node table, connector table and tags. -/
structure Skeleton where
  neuron_name : String
  skeleton_id : Nat
  nodes : List Node
  connectors : List Connector
  tags : List (String × List Nat)
deriving DecidableEq, Repr

/-- The list of treenode ids, in node-table order. -/
def nodeIds (s : Skeleton) : List Nat :=
  s.nodes.map (fun n => n.treenode_id)

/-- Row lookup by treenode id (first matching row, as a pandas label lookup
on a table with unique ids). -/
def findNode (s : Skeleton) (t : Nat) : Option Node :=
  s.nodes.find? (fun n => n.treenode_id = t)

/-- The parent id of a treenode (`none` when the row is missing or the node is
the root). -/
def parentOf (s : Skeleton) (t : Nat) : Option Nat :=
  (findNode s t).bind (fun n => n.parent_id)

/-- Embedding of `generate_list_of_childs` (morpho.py lines 41-76): the
children of `p`, in node-table order.  The Python builds a dict keyed by every
treenode id and appends each node to its parent's entry; a node whose parent id
is not a key raises and is dropped (and a `None ↦ [None]` marker entry is
added).  This function agrees with that dict at every key the module ever
queries (treenode ids); the `None` marker is handled separately where needed
(`calc_strahler_index`). -/
def generate_list_of_childs (s : Skeleton) (p : Nat) : List Nat :=
  (s.nodes.filter (fun n => n.parent_id = some p)).map (fun n => n.treenode_id)

/-- The ids of the nodes whose `parent_id` is absent (pandas
`nodes[nodes.parent_id.isnull()]`), in node-table order. -/
def rootsOf (s : Skeleton) : List Nat :=
  (s.nodes.filter (fun n => n.parent_id = none)).map (fun n => n.treenode_id)

/-- The treenode ids that carry a synapse (appear in the connector table). -/
def synapseNodeIds (s : Skeleton) : List Nat :=
  s.connectors.map (fun c => c.treenode_id)

/-- The role `classify_nodes` (lines 78-122) computes for treenode `t`: the
classes dict starts as `slab` for every id, is overwritten by `end` for ids
with no children, by `branch` for ids with more than one child, and finally by
`root` for ids with absent parent; since the three count-based classes are
mutually exclusive the final content is this conditional. -/
def classOf (s : Skeleton) (t : Nat) : NodeRole :=
  if t ∈ rootsOf s then NodeRole.root
  else if 1 < (generate_list_of_childs s t).length then NodeRole.branch
  else if (generate_list_of_childs s t).length = 0 then NodeRole.leaf
  else NodeRole.slab

/-- Embedding of `classify_nodes` (lines 78-122, single-neuron branch): fills
the `type` column from `classOf` and the `has_synapses` column from connector
membership; all other data is untouched. -/
def classify_nodes (s : Skeleton) : Skeleton :=
  { s with nodes := s.nodes.map (fun n =>
      { n with ntype := some (classOf s n.treenode_id),
               has_synapses := some (decide (n.treenode_id ∈ synapseNodeIds s)) }) }

/-- Ancestor chain of `t`: `[t, parent t, grandparent t, …, root]`, computed by
iterating `parent_id` with explicit fuel; `none` when fuel runs out (a cycle)
or a parent id is dangling. -/
def chainAux (s : Skeleton) : Nat → Nat → Option (List Nat)
  | 0, _ => none
  | fuel + 1, t =>
    match findNode s t with
    | none => none
    | some n =>
      match n.parent_id with
      | none => some [t]
      | some p => (chainAux s fuel p).map (fun l => t :: l)

/-- Ancestor chain with the canonical fuel (one more than the node count). -/
def chainOf (s : Skeleton) (t : Nat) : Option (List Nat) :=
  chainAux s (s.nodes.length + 1) t

/-- Well-formed single-neuron skeleton, as the spec's §3 invariants demand:
unique node ids, exactly one root, every parent reference resolves, every
node's parent walk reaches the root (acyclicity), and the derived columns are
still unset (the skeleton is as constructed from raw data; the operations under
test fill them in). -/
def WF (s : Skeleton) : Prop :=
  (nodeIds s).Nodup ∧
  (rootsOf s).length = 1 ∧
  (∀ n ∈ s.nodes, ∀ p, n.parent_id = some p → p ∈ nodeIds s) ∧
  (∀ n ∈ s.nodes, (chainOf s n.treenode_id).isSome = true) ∧
  (∀ n ∈ s.nodes, n.ntype = none ∧ n.has_synapses = none)

instance (s : Skeleton) : Decidable (WF s) := by
  unfold WF
  exact inferInstance

/-! ### Ancestor-chain theory

`PChain s t l` is the proposition that `l` is the (finite) parent walk
`[t, parent t, …, root]` starting at `t`.  It is the graph of `chainAux`;
all tree reasoning below happens through it. -/

/-- The parent walk from `t` to a parentless node, as an inductive predicate. -/
inductive PChain (s : Skeleton) : Nat → List Nat → Prop
  | root (t : Nat) (n : Node) (hf : findNode s t = some n) (hp : n.parent_id = none) :
      PChain s t [t]
  | step (t p : Nat) (l : List Nat) (n : Node) (hf : findNode s t = some n)
      (hp : n.parent_id = some p) (hc : PChain s p l) : PChain s t (t :: l)

theorem pchain_of_chainAux {s : Skeleton} {f t : Nat} {l : List Nat}
    (h : chainAux s f t = some l) : PChain s t l := by
  induction f generalizing t l with
  | zero => simp [chainAux] at h
  | succ f ih =>
    rw [chainAux] at h
    split at h
    · exact absurd h (by simp)
    · rename_i n hf
      split at h
      · rename_i hp
        simp only [Option.some_inj] at h
        exact h ▸ PChain.root t n hf hp
      · rename_i p hp
        rcases hrec : chainAux s f p with _ | l'
        · rw [hrec] at h; exact absurd h (by simp)
        · rw [hrec] at h
          simp only [Option.map_some', Option.some_inj] at h
          exact h ▸ PChain.step t p l' n hf hp (ih hrec)

theorem chainAux_of_pchain {s : Skeleton} {t : Nat} {l : List Nat}
    (h : PChain s t l) : ∀ f, l.length ≤ f → chainAux s f t = some l := by
  induction h with
  | root t n hf hp =>
    intro f hle
    match f, hle with
    | f + 1, _ => rw [chainAux, hf]; simp only [hp]
  | step t p l n hf hp _ ih =>
    intro f hle
    match f, hle with
    | f + 1, hle =>
      rw [chainAux, hf]
      simp only [hp]
      rw [ih f (by simpa using hle)]
      rfl

theorem pchain_deterministic {s : Skeleton} {t : Nat} {l l' : List Nat}
    (h : PChain s t l) (h' : PChain s t l') : l = l' := by
  induction h generalizing l' with
  | root t n hf hp =>
    cases h' with
    | root => rfl
    | step t' p' l'' n' hf' hp' =>
      rw [hf] at hf'; cases hf'; rw [hp] at hp'; cases hp'
  | step t p l n hf hp hc ih =>
    cases h' with
    | root t' n' hf' hp' =>
      rw [hf] at hf'; cases hf'; rw [hp] at hp'; cases hp'
    | step t' p' l'' n' hf' hp' hc' =>
      rw [hf] at hf'; cases hf'; rw [hp] at hp'; cases hp'
      rw [ih hc']

theorem pchain_head {s : Skeleton} {t : Nat} {l : List Nat} (h : PChain s t l) :
    ∃ l', l = t :: l' := by
  cases h with
  | root => exact ⟨[], rfl⟩
  | step t p l => exact ⟨l, rfl⟩

theorem pchain_ne_nil {s : Skeleton} {t : Nat} {l : List Nat} (h : PChain s t l) :
    l ≠ [] := by
  obtain ⟨l', rfl⟩ := pchain_head h; simp

theorem pchain_mem_self {s : Skeleton} {t : Nat} {l : List Nat} (h : PChain s t l) :
    t ∈ l := by
  obtain ⟨l', rfl⟩ := pchain_head h; simp

theorem pchain_mem_ids {s : Skeleton} {t : Nat} {l : List Nat} (h : PChain s t l) :
    ∀ a ∈ l, a ∈ nodeIds s := by
  induction h with
  | root t n hf hp =>
    intro a ha
    simp only [List.mem_singleton] at ha
    subst ha
    have := List.mem_of_find?_eq_some hf
    have heq := List.find?_some hf
    simp only [decide_eq_true_eq] at heq
    exact heq ▸ List.mem_map_of_mem (fun n => n.treenode_id) this
  | step t p l n hf hp hc ih =>
    intro a ha
    rcases List.mem_cons.mp ha with rfl | ha'
    · have := List.mem_of_find?_eq_some hf
      have heq := List.find?_some hf
      simp only [decide_eq_true_eq] at heq
      exact heq ▸ List.mem_map_of_mem (fun n => n.treenode_id) this
    · exact ih a ha'

/-- Every member of a chain starts its own chain, a suffix of the original. -/
theorem pchain_suffix {s : Skeleton} {t : Nat} {l : List Nat} (h : PChain s t l) :
    ∀ a ∈ l, ∃ l₁ l₂, l = l₁ ++ a :: l₂ ∧ PChain s a (a :: l₂) := by
  induction h with
  | root t n hf hp =>
    intro a ha
    simp only [List.mem_singleton] at ha
    subst ha
    exact ⟨[], [], rfl, PChain.root a n hf hp⟩
  | step t p l n hf hp hc ih =>
    intro a ha
    rcases List.mem_cons.mp ha with rfl | ha'
    · exact ⟨[], l, rfl, PChain.step a p l n hf hp hc⟩
    · obtain ⟨l₁, l₂, heq, hch⟩ := ih a ha'
      exact ⟨t :: l₁, l₂, by rw [heq]; rfl, hch⟩

theorem pchain_nodup {s : Skeleton} {t : Nat} {l : List Nat} (h : PChain s t l) :
    l.Nodup := by
  induction h with
  | root => simp
  | step t p l n hf hp hc ih =>
    refine List.nodup_cons.mpr ⟨?_, ih⟩
    intro hmem
    obtain ⟨l₁, l₂, heq, hch⟩ := pchain_suffix hc t hmem
    have h1 : PChain s t (t :: l) := PChain.step t p l n hf hp hc
    have h2 := pchain_deterministic h1 hch
    have : (t :: l).length = (t :: l₂).length := by rw [h2]
    simp only [List.length_cons, Nat.succ_inj'] at this
    have : l₂.length < l.length := by
      have : l.length = l₁.length + (l₂.length + 1) := by
        have := congrArg List.length heq; simpa using this
      omega
    omega

theorem pchain_length_le {s : Skeleton} {t : Nat} {l : List Nat} (h : PChain s t l)
    (hids : (nodeIds s).Nodup) : l.length ≤ s.nodes.length := by
  have h1 : l.toFinset.card = l.length := List.toFinset_card_of_nodup (pchain_nodup h)
  have h2 : l.toFinset ⊆ (nodeIds s).toFinset := by
    intro a ha
    simp only [List.mem_toFinset] at ha ⊢
    exact pchain_mem_ids h a ha
  have h3 : (nodeIds s).toFinset.card = (nodeIds s).length :=
    List.toFinset_card_of_nodup hids
  have h4 : (nodeIds s).length = s.nodes.length := by simp [nodeIds]
  calc l.length = l.toFinset.card := h1.symm
    _ ≤ (nodeIds s).toFinset.card := Finset.card_le_card h2
    _ = s.nodes.length := by rw [h3, h4]

/-- With the canonical fuel, `chainOf` computes exactly `PChain`. -/
theorem chainOf_eq_some_iff {s : Skeleton} (hids : (nodeIds s).Nodup) {t : Nat}
    {l : List Nat} : chainOf s t = some l ↔ PChain s t l := by
  constructor
  · exact pchain_of_chainAux
  · intro h
    exact chainAux_of_pchain h _ (Nat.le_succ_of_le (pchain_length_le h hids))

/-- With unique ids, two node rows with the same id are the same row. -/
theorem node_id_inj {s : Skeleton} (hids : (nodeIds s).Nodup) {m m' : Node}
    (hm : m ∈ s.nodes) (hm' : m' ∈ s.nodes) (h : m.treenode_id = m'.treenode_id) :
    m = m' :=
  List.inj_on_of_nodup_map hids hm hm' h

/-- With unique ids, `findNode` is characterised by membership. -/
theorem findNode_eq_some_iff {s : Skeleton} (hids : (nodeIds s).Nodup) {t : Nat}
    {n : Node} : findNode s t = some n ↔ n ∈ s.nodes ∧ n.treenode_id = t := by
  constructor
  · intro h
    refine ⟨List.mem_of_find?_eq_some h, ?_⟩
    have := List.find?_some h
    simpa using this
  · rintro ⟨hmem, rfl⟩
    rcases hf : findNode s n.treenode_id with _ | m
    · exact absurd (List.find?_eq_none.mp hf n hmem) (by simp)
    · have hm := List.mem_of_find?_eq_some hf
      have heq : m.treenode_id = n.treenode_id := by
        have := List.find?_some hf; simpa using this
      rw [node_id_inj hids hm hmem heq]

theorem findNode_isSome_of_mem_ids {s : Skeleton} {t : Nat} (h : t ∈ nodeIds s) :
    ∃ n, findNode s t = some n ∧ n.treenode_id = t := by
  rcases hf : findNode s t with _ | m
  · obtain ⟨n, hn, rfl⟩ := List.mem_map.mp h
    exact absurd (List.find?_eq_none.mp hf n hn) (by simp)
  · have := List.find?_some hf
    simp only [decide_eq_true_eq] at this
    exact ⟨m, rfl, this⟩

/-- With unique ids, membership in the children list is a parent-link fact. -/
theorem mem_childs_iff {s : Skeleton} (hids : (nodeIds s).Nodup) {c t : Nat} :
    c ∈ generate_list_of_childs s t ↔ parentOf s c = some t := by
  unfold generate_list_of_childs parentOf
  constructor
  · intro h
    obtain ⟨m, hm, rfl⟩ := List.mem_map.mp h
    have hmem := (List.mem_filter.mp hm).1
    have hpar := (List.mem_filter.mp hm).2
    simp only [decide_eq_true_eq] at hpar
    rw [(findNode_eq_some_iff hids).mpr ⟨hmem, rfl⟩]
    simpa using hpar
  · intro h
    rcases hf : findNode s c with _ | m
    · rw [hf] at h; simp at h
    · rw [hf] at h
      simp only [Option.some_bind] at h
      obtain ⟨hmem, hid⟩ := (findNode_eq_some_iff hids).mp hf
      refine List.mem_map.mpr ⟨m, List.mem_filter.mpr ⟨hmem, by simpa using h⟩, hid⟩

/-- Ancestor-or-self relation: `a` lies on the parent walk of `t`. -/
def Anc (s : Skeleton) (a t : Nat) : Prop :=
  ∃ l, PChain s t l ∧ a ∈ l

theorem anc_refl {s : Skeleton} {t : Nat} {l : List Nat} (h : PChain s t l) :
    Anc s t t :=
  ⟨l, h, pchain_mem_self h⟩

theorem anc_of_mem_chain {s : Skeleton} {t a : Nat} {l : List Nat}
    (h : PChain s t l) (ha : a ∈ l) : Anc s a t :=
  ⟨l, h, ha⟩

theorem mem_chain_of_anc {s : Skeleton} {t a : Nat} {l : List Nat}
    (h : PChain s t l) (ha : Anc s a t) : a ∈ l := by
  obtain ⟨l', hl', hmem⟩ := ha
  rwa [pchain_deterministic h hl']

theorem anc_trans {s : Skeleton} {a b c : Nat} (h1 : Anc s a b) (h2 : Anc s b c) :
    Anc s a c := by
  obtain ⟨lb, hlb, hab⟩ := h1
  obtain ⟨lc, hlc, hbc⟩ := h2
  obtain ⟨l₁, l₂, heq, hch⟩ := pchain_suffix hlc b hbc
  have : a ∈ b :: l₂ := mem_chain_of_anc hch ⟨lb, hlb, hab⟩
  exact ⟨lc, hlc, by rw [heq]; exact List.mem_append_right _ this⟩

theorem anc_antisymm {s : Skeleton} {a b : Nat} (h1 : Anc s a b) (h2 : Anc s b a) :
    a = b := by
  obtain ⟨lb, hlb, hab⟩ := h1
  obtain ⟨l₁, l₂, heq, hch⟩ := pchain_suffix hlb a hab
  have hba : b ∈ a :: l₂ := mem_chain_of_anc hch h2
  rcases List.mem_cons.mp hba with rfl | hmem
  · rfl
  · obtain ⟨lb', rfl⟩ := pchain_head hlb
    have hnd := pchain_nodup hlb
    rcases l₁ with _ | ⟨x, l₁'⟩
    · simp only [List.nil_append, List.cons.injEq] at heq
      exact (heq.1).symm
    · have hx : b = x := by
        have := congrArg (fun l => l.head?) heq
        simpa using this
      subst hx
      have : b ∉ lb' := (List.nodup_cons.mp hnd).1
      have hmem' : b ∈ lb' := by
        have h2' : b ∈ l₁' ++ a :: l₂ := List.mem_append_right _ (List.mem_cons_of_mem a hmem)
        have : b :: lb' = b :: (l₁' ++ a :: l₂) := heq
        simp only [List.cons.injEq, true_and] at this
        rw [this]
        exact h2'
      exact absurd hmem' this

theorem pchain_child {s : Skeleton} {c t : Nat} {l : List Nat}
    (hp : parentOf s c = some t) (h : PChain s t l) : PChain s c (c :: l) := by
  unfold parentOf at hp
  rcases hf : findNode s c with _ | n
  · rw [hf] at hp; simp at hp
  · rw [hf] at hp
    simp only [Option.some_bind] at hp
    exact PChain.step c t l n hf hp h

/-- A node is not an ancestor of its own parent (no cycles along chains). -/
theorem not_mem_parent_chain {s : Skeleton} {c t : Nat} {l : List Nat}
    (hp : parentOf s c = some t) (h : PChain s t l) : c ∉ l := by
  intro hmem
  have hch := pchain_child hp h
  exact (List.nodup_cons.mp (pchain_nodup hch)).1 hmem

/-- Two members of one chain are comparable by ancestry. -/
theorem pchain_mem_comparable {s : Skeleton} {t : Nat} {l : List Nat}
    (h : PChain s t l) {a b : Nat} (ha : a ∈ l) (hb : b ∈ l) :
    Anc s a b ∨ Anc s b a := by
  induction h with
  | root t n hf hp =>
    simp only [List.mem_singleton] at ha hb
    subst ha; subst hb
    exact Or.inl (anc_refl (PChain.root b n hf hp))
  | step t p l n hf hp hc ih =>
    rcases List.mem_cons.mp ha with rfl | ha'
    · exact Or.inr (anc_of_mem_chain (PChain.step a p l n hf hp hc) hb)
    · rcases List.mem_cons.mp hb with rfl | hb'
      · exact Or.inl (anc_of_mem_chain (PChain.step b p l n hf hp hc) (List.mem_cons_of_mem b ha'))
      · exact ih ha' hb'

/-- The root id of a well-formed skeleton (head of the parentless-node list). -/
def rootId (s : Skeleton) : Nat := (rootsOf s).headI

theorem rootsOf_eq_single {s : Skeleton} (h1 : (rootsOf s).length = 1) :
    rootsOf s = [rootId s] := by
  rcases h : rootsOf s with _ | ⟨a, l⟩
  · rw [h] at h1; simp at h1
  · rcases l with _ | ⟨b, l'⟩
    · unfold rootId; rw [h]; rfl
    · rw [h] at h1; simp at h1

theorem mem_rootsOf_iff {s : Skeleton} (hids : (nodeIds s).Nodup) {r : Nat} :
    r ∈ rootsOf s ↔ ∃ n, findNode s r = some n ∧ n.parent_id = none := by
  unfold rootsOf
  constructor
  · intro h
    obtain ⟨m, hm, rfl⟩ := List.mem_map.mp h
    have hmem := (List.mem_filter.mp hm).1
    have hpar := (List.mem_filter.mp hm).2
    simp only [decide_eq_true_eq] at hpar
    exact ⟨m, (findNode_eq_some_iff hids).mpr ⟨hmem, rfl⟩, hpar⟩
  · rintro ⟨n, hf, hp⟩
    obtain ⟨hmem, rfl⟩ := (findNode_eq_some_iff hids).mp hf
    exact List.mem_map.mpr ⟨n, List.mem_filter.mpr ⟨hmem, by simpa using hp⟩, rfl⟩

theorem eq_rootId {s : Skeleton} (hids : (nodeIds s).Nodup)
    (h1 : (rootsOf s).length = 1) {r : Nat} {n : Node}
    (hf : findNode s r = some n) (hp : n.parent_id = none) : r = rootId s := by
  have : r ∈ rootsOf s := (mem_rootsOf_iff hids).mpr ⟨n, hf, hp⟩
  rw [rootsOf_eq_single h1] at this
  simpa using this

theorem pchain_last_parentless {s : Skeleton} {t : Nat} {l : List Nat}
    (h : PChain s t l) :
    ∃ r n, l.getLast? = some r ∧ findNode s r = some n ∧ n.parent_id = none := by
  induction h with
  | root t n hf hp => exact ⟨t, n, rfl, hf, hp⟩
  | step t p l n hf hp hc ih =>
    obtain ⟨r, m, hlast, hfm, hpm⟩ := ih
    refine ⟨r, m, ?_, hfm, hpm⟩
    rw [List.getLast?_cons, hlast]
    cases l with
    | nil => exact absurd hlast (by simp)
    | cons a l' => simp [List.getLast?_cons]

theorem rootId_mem_pchain {s : Skeleton} (hids : (nodeIds s).Nodup)
    (h1 : (rootsOf s).length = 1) {t : Nat} {l : List Nat} (h : PChain s t l) :
    rootId s ∈ l := by
  obtain ⟨r, n, hlast, hf, hp⟩ := pchain_last_parentless h
  have := eq_rootId hids h1 hf hp
  subst this
  have hx : rootId s ∈ l.getLast? := Option.mem_def.mpr hlast
  obtain ⟨hne, heq⟩ := List.mem_getLast?_eq_getLast hx
  rw [heq]
  exact List.getLast_mem hne

theorem pchain_exists_of_mem {s : Skeleton} (hwf : WF s) {t : Nat}
    (ht : t ∈ nodeIds s) : ∃ l, PChain s t l := by
  obtain ⟨m, hm, rfl⟩ := List.mem_map.mp ht
  have h4 := hwf.2.2.2.1 m hm
  rcases hc : chainOf s m.treenode_id with _ | l
  · rw [hc] at h4; simp at h4
  · exact ⟨l, pchain_of_chainAux hc⟩

theorem anc_rootId {s : Skeleton} (hwf : WF s) {t : Nat} (ht : t ∈ nodeIds s) :
    Anc s (rootId s) t := by
  obtain ⟨l, hl⟩ := pchain_exists_of_mem hwf ht
  exact ⟨l, hl, rootId_mem_pchain hwf.1 hwf.2.1 hl⟩

theorem parentOf_rootId {s : Skeleton} (hids : (nodeIds s).Nodup)
    (h1 : (rootsOf s).length = 1) : parentOf s (rootId s) = none := by
  have : rootId s ∈ rootsOf s := by rw [rootsOf_eq_single h1]; simp
  obtain ⟨n, hf, hp⟩ := (mem_rootsOf_iff hids).mp this
  unfold parentOf
  rw [hf, Option.some_bind, hp]

theorem pchain_rootId {s : Skeleton} (hids : (nodeIds s).Nodup)
    (h1 : (rootsOf s).length = 1) : PChain s (rootId s) [rootId s] := by
  have : rootId s ∈ rootsOf s := by rw [rootsOf_eq_single h1]; simp
  obtain ⟨n, hf, hp⟩ := (mem_rootsOf_iff hids).mp this
  exact PChain.root _ n hf hp

/-- Every node has a childless descendant (walk down any child links; the
walk is finite because chains grow strictly and are bounded by the node
count). -/
theorem exists_childless_descendant {s : Skeleton} (hwf : WF s) :
    ∀ k t, t ∈ nodeIds s → ∀ l, PChain s t l → s.nodes.length + 1 - l.length ≤ k →
    ∃ m, m ∈ nodeIds s ∧ Anc s t m ∧ generate_list_of_childs s m = [] := by
  intro k
  induction k with
  | zero =>
    intro t ht l hl hk
    have := pchain_length_le hl hwf.1
    omega
  | succ k ih =>
    intro t ht l hl hk
    rcases hcs : generate_list_of_childs s t with _ | ⟨c, cs⟩
    · exact ⟨t, ht, anc_refl hl, hcs⟩
    · have hc : c ∈ generate_list_of_childs s t := by rw [hcs]; simp
      have hpar : parentOf s c = some t := (mem_childs_iff hwf.1).mp hc
      have hcl : PChain s c (c :: l) := pchain_child hpar hl
      have hcm : c ∈ nodeIds s := pchain_mem_ids hcl c (by simp)
      have hlen := pchain_length_le hcl hwf.1
      obtain ⟨m, hm1, hm2, hm3⟩ := ih c hcm (c :: l) hcl (by simp only [List.length_cons]; omega)
      refine ⟨m, hm1, anc_trans ?_ hm2, hm3⟩
      exact ⟨c :: l, hcl, List.mem_cons_of_mem c (pchain_mem_self hl)⟩

theorem exists_childless_descendant' {s : Skeleton} (hwf : WF s) {t : Nat}
    (ht : t ∈ nodeIds s) :
    ∃ m, m ∈ nodeIds s ∧ Anc s t m ∧ generate_list_of_childs s m = [] := by
  obtain ⟨l, hl⟩ := pchain_exists_of_mem hwf ht
  exact exists_childless_descendant hwf (s.nodes.length + 1 - l.length) t ht l hl le_rfl

theorem mem_rootsOf_iff_parent_none {s : Skeleton} (hids : (nodeIds s).Nodup)
    {n : Node} (hn : n ∈ s.nodes) :
    n.treenode_id ∈ rootsOf s ↔ n.parent_id = none := by
  constructor
  · intro h
    obtain ⟨m, hf, hp⟩ := (mem_rootsOf_iff hids).mp h
    obtain ⟨hm, hid⟩ := (findNode_eq_some_iff hids).mp hf
    rwa [node_id_inj hids hn hm hid.symm]
  · intro h
    exact (mem_rootsOf_iff hids).mpr ⟨n, (findNode_eq_some_iff hids).mpr ⟨hn, rfl⟩, h⟩

/-- C8: `classify_nodes` assigns role `end` to every node with no children,
`slab` to every node with exactly one child, `branch` to every node with two
or more children, and `root` to the node with absent parent, the root
designation overriding the child-count rule; on a well-formed skeleton exactly
one node is classified `root`. -/
theorem classify_nodes_role_spec (s : Skeleton) (hwf : WF s) :
    (∀ n ∈ (classify_nodes s).nodes,
      (n.parent_id = none → n.ntype = some NodeRole.root) ∧
      (n.parent_id ≠ none →
        n.ntype = some (if (generate_list_of_childs s n.treenode_id).length = 0
          then NodeRole.leaf
          else if (generate_list_of_childs s n.treenode_id).length = 1
          then NodeRole.slab
          else NodeRole.branch))) ∧
    ((classify_nodes s).nodes.filter
      (fun n => n.ntype = some NodeRole.root)).length = 1 := by
  obtain ⟨hids, hroot, -, -, -⟩ := hwf
  constructor
  · intro n hn
    unfold classify_nodes at hn
    simp only [List.mem_map] at hn
    obtain ⟨m, hm, rfl⟩ := hn
    simp only []
    constructor
    · intro hp
      have : m.treenode_id ∈ rootsOf s := (mem_rootsOf_iff_parent_none hids hm).mpr hp
      simp [classOf, this]
    · intro hp
      have : m.treenode_id ∉ rootsOf s := fun h =>
        hp ((mem_rootsOf_iff_parent_none hids hm).mp h)
      simp only [classOf, this, if_false, Option.some_inj]
      rcases hlen : (generate_list_of_childs s m.treenode_id).length with _ | _ | k
      · simp
      · simp
      · have h2 : 1 < k + 1 + 1 := by omega
        simp [h2, Nat.succ_ne_zero]
  · have key : (classify_nodes s).nodes.filter (fun n => n.ntype = some NodeRole.root)
        = (s.nodes.filter (fun m => m.parent_id = none)).map (fun n =>
            { n with ntype := some (classOf s n.treenode_id),
                     has_synapses := some (decide (n.treenode_id ∈ synapseNodeIds s)) }) := by
      unfold classify_nodes
      simp only []
      rw [List.filter_map]
      congr 1
      apply List.filter_congr
      intro m hm
      show (decide (some (classOf s m.treenode_id) = some NodeRole.root))
          = decide (m.parent_id = none)
      rcases hr : m.parent_id with _ | p
      · have hmem : m.treenode_id ∈ rootsOf s := (mem_rootsOf_iff_parent_none hids hm).mpr hr
        simp [classOf, hmem]
      · have hmem : m.treenode_id ∉ rootsOf s := fun h => by
          have := (mem_rootsOf_iff_parent_none hids hm).mp h
          rw [this] at hr; cases hr
        simp only [classOf, if_neg hmem]
        split_ifs <;> rfl
    rw [key, List.length_map]
    have : (s.nodes.filter (fun m => m.parent_id = none)).length = (rootsOf s).length := by
      rw [rootsOf, List.length_map]
    rw [this, hroot]

/-- Node-row constructor for concrete test fixtures. -/
def mkNode (t : Nat) (p : Option Nat) (x y z : Rat) : Node :=
  { treenode_id := t, parent_id := p, x := x, y := y, z := z, radius := 1 }

/-- The 7-line example tree of spec §8: root 1, slab 2, branch 3, ends 4 and 5. -/
def skEx5 : Skeleton :=
  { neuron_name := "ex",
    skeleton_id := 16,
    nodes := [mkNode 1 none 0 0 0, mkNode 2 (some 1) 0 0 10,
              mkNode 3 (some 2) 0 0 20, mkNode 4 (some 3) 0 0 30,
              mkNode 5 (some 3) 10 0 20],
    connectors := [],
    tags := [] }

/-- Witness for the C8 theorem: the spec §8 example tree is well-formed and the
classification rules hold on it. -/
theorem classify_nodes_role_spec_witness :
    WF skEx5 ∧
    ((∀ n ∈ (classify_nodes skEx5).nodes,
      (n.parent_id = none → n.ntype = some NodeRole.root) ∧
      (n.parent_id ≠ none →
        n.ntype = some (if (generate_list_of_childs skEx5 n.treenode_id).length = 0
          then NodeRole.leaf
          else if (generate_list_of_childs skEx5 n.treenode_id).length = 1
          then NodeRole.slab
          else NodeRole.branch))) ∧
    ((classify_nodes skEx5).nodes.filter
      (fun n => n.ntype = some NodeRole.root)).length = 1) :=
  ⟨by decide, classify_nodes_role_spec skEx5 (by decide)⟩

/-! ### Rerooting -/

/-- Python-dict update on an insertion-ordered association list: replace the
value in place when the key exists, append otherwise (Python 3.7+ dict
semantics). -/
def dictInsert {α : Type} (d : List (Nat × α)) (k : Nat) (v : α) : List (Nat × α) :=
  match d with
  | [] => [(k, v)]
  | kv :: rest => if kv.1 = k then (k, v) :: rest else kv :: dictInsert rest k v

/-- Dict lookup. -/
def dictGet {α : Type} (d : List (Nat × α)) (k : Nat) : Option α :=
  (d.find? (fun kv => kv.1 = k)).map (fun kv => kv.2)

/-- Dict key-membership test. -/
def dictHasKey {α : Type} (d : List (Nat × α)) (k : Nat) : Bool :=
  d.any (fun kv => kv.1 = k)

/-- Length of the longest common suffix of two lists. -/
def commonSuffixLen (l1 l2 : List Nat) : Nat :=
  ((l1.reverse.zip l2.reverse).takeWhile (fun ab => ab.1 = ab.2)).length

/-- Modelled from the spec: the unique undirected shortest path from `a` to
`b` in the skeleton tree.  `reroot_neuron` obtains these paths from
`igraph_catmaid.igraph_from_skeleton` plus igraph's `get_shortest_paths`
(`mode='ALL'`), which are not part of the analysed source; spec §4.3 specifies
them as the unique undirected tree paths.  The path descends the two root
chains to their lowest common ancestor: `a`'s chain strictly above the common
suffix, then the reversed portion of `b`'s chain from the meeting point down
to `b`. -/
def pathBetween (s : Skeleton) (a b : Nat) : Option (List Nat) :=
  match chainOf s a, chainOf s b with
  | some ca, some cb =>
    let k := commonSuffixLen ca cb
    some (ca.take (ca.length - k) ++ (cb.take (cb.length - k + 1)).reverse)
  | _, _ => none

/-- The oriented parent pairs contributed by one shortest path (source line
367, `{ p[-i] : p[-i-1] for i in range(1, len(p)) }`): for consecutive path
members `u, v` with `u` nearer the path's source, `v`'s new parent is `u`.
The Python dict comprehension enumerates the keys from the far end of the
path; only the resulting key-value function matters downstream, so the pairs
are listed here in path order. -/
def pathPairs (p : List Nat) : List (Nat × Nat) :=
  (p.zip p.tail).map (fun uv => (uv.2, uv.1))

/-- The accumulated `new_parents` dict of `reroot_neuron` (lines 364-368 plus
the line-374 overwrite): all oriented pairs of all paths, then the new root's
parent forced to absent (the placeholder `0` of line 368 is immediately
retyped and overwritten by `None` at line 374). -/
def buildNewParents (paths : List (List Nat)) (new_root : Nat) :
    List (Nat × Option Nat) :=
  let d := paths.foldl (fun d p =>
    (pathPairs p).foldl (fun d kv => dictInsert d kv.1 (some kv.2)) d) []
  dictInsert d new_root none

/-- Whether the `type` column is present (a pandas frame-level column is
modelled as every row carrying a value; `classify_nodes` fills whole
columns). -/
def hasTypeCol (s : Skeleton) : Bool :=
  s.nodes.all (fun n => n.ntype.isSome)

/-- Embedding of `reroot_neuron` (lines 274-382), addressed by node id (the
tag-resolution branch, lines 308-316, is not exercised by any claim).  If the
resolved target is already the root the source logs an error and returns the
input unchanged (lines 318-320).  A missing id returns `None` (lines
342-348), modelled as `none`.  Otherwise the nodes are classified if the
`type` column is absent (lines 350-351; an existing column is reused as-is,
even when stale), the undirected shortest paths from the new root to every
`end`-typed node are collected (lines 353-362, paths of length 1 dropped),
every traversed edge is oriented towards the new root, and the parent column
is rewritten from the resulting mapping (lines 364-375; a node lying on no
path makes the line-371 list comprehension raise `KeyError`, modelled as
`none`). -/
def reroot_neuron (s : Skeleton) (new_root : Nat) : Option Skeleton :=
  match findNode s new_root with
  | none => none
  | some nn =>
    if nn.parent_id = none then some s
    else
      let df := if hasTypeCol s then s else classify_nodes s
      let leaf_nodes := (df.nodes.filter
        (fun n => n.ntype = some NodeRole.leaf)).map (fun n => n.treenode_id)
      match leaf_nodes.mapM (fun ln => pathBetween df new_root ln) with
      | none => none
      | some shortest_paths =>
        let new_paths := shortest_paths.filter (fun p => 1 < p.length)
        let np := buildNewParents new_paths new_root
        if df.nodes.all (fun n => dictHasKey np n.treenode_id) then
          some { df with nodes := df.nodes.map (fun n =>
            { n with parent_id := (dictGet np n.treenode_id).join }) }
        else none

/-- C5 (amended): when the resolved target node is already the root,
`reroot_neuron` does not fail; it logs an error and returns the input
skeleton unchanged (source lines 318-320 `return df` before any copy is
taken). -/
theorem reroot_neuron_at_root_returns_input (s : Skeleton) (t : Nat) (n : Node)
    (hf : findNode s t = some n) (hp : n.parent_id = none) :
    reroot_neuron s t = some s := by
  unfold reroot_neuron
  rw [hf]
  simp [hp]

/-- Witness for the C5 theorem: rerooting the spec §8 example tree at its
current root returns the input unchanged. -/
theorem reroot_neuron_at_root_returns_input_witness :
    (findNode skEx5 1 = some (mkNode 1 none 0 0 0) ∧
      (mkNode 1 none 0 0 0).parent_id = none) ∧
    reroot_neuron skEx5 1 = some skEx5 :=
  ⟨⟨by decide, by decide⟩,
    reroot_neuron_at_root_returns_input skEx5 1 (mkNode 1 none 0 0 0)
      (by decide) (by decide)⟩

/-- Counterexample to C5 as stated: rerooting to the current root does not
raise an error instead of returning a result; it returns the unchanged input
skeleton as a normal result. -/
theorem reroot_neuron_at_root_counterexample :
    reroot_neuron skEx5 1 = some skEx5 ∧ (reroot_neuron skEx5 1).isSome = true := by
  constructor
  · decide
  · decide

/-! ### Dict lemmas and classification-preservation lemmas -/

theorem dictGet_dictInsert {α : Type} (d : List (Nat × α)) (k : Nat) (v : α)
    (k' : Nat) :
    dictGet (dictInsert d k v) k' = if k' = k then some v else dictGet d k' := by
  induction d with
  | nil =>
    unfold dictInsert dictGet
    by_cases h : k' = k
    · subst h; simp
    · simp [List.find?, Ne.symm h, h]
  | cons kv rest ih =>
    unfold dictInsert
    by_cases hkv : kv.1 = k
    · rw [if_pos hkv]
      unfold dictGet
      by_cases h : k' = k
      · subst h; simp [List.find?]
      · simp only [List.find?]
        have h1 : (decide ((k, v).1 = k')) = false := by simpa using Ne.symm h
        have h2 : (decide (kv.1 = k')) = false := by
          simp only [decide_eq_false_iff_not]
          rw [hkv]; exact Ne.symm h
        rw [h1, h2, if_neg h]
    · rw [if_neg hkv]
      by_cases h : kv.1 = k'
      · unfold dictGet
        simp only [List.find?, h, decide_true_eq_true]
        have : k' ≠ k := by rw [← h]; exact hkv
        simp [this, decide_eq_true_eq, h]
      · unfold dictGet
        simp only [List.find?]
        have hb : (decide (kv.1 = k')) = false := by simpa using h
        rw [hb]
        exact ih

theorem dictHasKey_eq_isSome {α : Type} (d : List (Nat × α)) (k : Nat) :
    dictHasKey d k = (dictGet d k).isSome := by
  induction d with
  | nil => rfl
  | cons kv rest ih =>
    unfold dictHasKey dictGet
    simp only [List.any_cons, List.find?]
    by_cases h : kv.1 = k
    · simp [h]
    · have hb : (decide (kv.1 = k)) = false := by simpa using h
      rw [hb]
      simpa [dictHasKey, dictGet] using ih

/-- The row update performed by `classify_nodes`. -/
def classifyRow (s : Skeleton) (n : Node) : Node :=
  { n with ntype := some (classOf s n.treenode_id),
           has_synapses := some (decide (n.treenode_id ∈ synapseNodeIds s)) }

theorem classify_nodes_eq_map (s : Skeleton) :
    (classify_nodes s).nodes = s.nodes.map (classifyRow s) := rfl

theorem nodeIds_classify (s : Skeleton) : nodeIds (classify_nodes s) = nodeIds s := by
  unfold nodeIds
  rw [classify_nodes_eq_map, List.map_map]
  rfl

theorem findNode_classify (s : Skeleton) (t : Nat) :
    findNode (classify_nodes s) t = (findNode s t).map (classifyRow s) := by
  unfold findNode
  rw [classify_nodes_eq_map, List.find?_map]
  rfl

theorem parentOf_classify (s : Skeleton) (t : Nat) :
    parentOf (classify_nodes s) t = parentOf s t := by
  unfold parentOf
  rw [findNode_classify]
  rcases findNode s t with _ | n <;> rfl

theorem length_nodes_classify (s : Skeleton) :
    (classify_nodes s).nodes.length = s.nodes.length := by
  rw [classify_nodes_eq_map, List.length_map]

theorem chainAux_classify (s : Skeleton) (f t : Nat) :
    chainAux (classify_nodes s) f t = chainAux s f t := by
  induction f generalizing t with
  | zero => rfl
  | succ f ih =>
    rw [chainAux, chainAux, findNode_classify]
    rcases findNode s t with _ | n
    · rfl
    · simp only [Option.map_some']
      show (match (classifyRow s n).parent_id with
        | none => some [t]
        | some p => (chainAux (classify_nodes s) f p).map (fun l => t :: l)) = _
      have hps : (classifyRow s n).parent_id = n.parent_id := rfl
      rw [hps]
      rcases n.parent_id with _ | p
      · rfl
      · dsimp only
        rw [ih]

theorem chainOf_classify (s : Skeleton) (t : Nat) :
    chainOf (classify_nodes s) t = chainOf s t := by
  unfold chainOf
  rw [length_nodes_classify, chainAux_classify]

theorem pchain_classify_iff (s : Skeleton) (t : Nat) (l : List Nat) :
    PChain (classify_nodes s) t l ↔ PChain s t l := by
  constructor
  · intro h
    have := chainAux_of_pchain h (l.length) le_rfl
    rw [chainAux_classify] at this
    exact pchain_of_chainAux this
  · intro h
    have := chainAux_of_pchain h (l.length) le_rfl
    rw [← chainAux_classify (s := s)] at this
    exact pchain_of_chainAux this

theorem rootsOf_classify (s : Skeleton) : rootsOf (classify_nodes s) = rootsOf s := by
  unfold rootsOf
  rw [classify_nodes_eq_map, List.filter_map, List.map_map]
  rfl

theorem childs_classify (s : Skeleton) (p : Nat) :
    generate_list_of_childs (classify_nodes s) p = generate_list_of_childs s p := by
  unfold generate_list_of_childs
  rw [classify_nodes_eq_map, List.filter_map, List.map_map]
  rfl

theorem synapseNodeIds_classify (s : Skeleton) :
    synapseNodeIds (classify_nodes s) = synapseNodeIds s := rfl

/-- Characterisation of the `end` role in the classified table. -/
theorem classOf_eq_leaf_iff {s : Skeleton} (hids : (nodeIds s).Nodup) {n : Node}
    (hn : n ∈ s.nodes) :
    classOf s n.treenode_id = NodeRole.leaf ↔
      n.parent_id ≠ none ∧ generate_list_of_childs s n.treenode_id = [] := by
  unfold classOf
  by_cases hr : n.treenode_id ∈ rootsOf s
  · have := (mem_rootsOf_iff_parent_none hids hn).mp hr
    simp [hr, this]
  · have hpar : n.parent_id ≠ none := fun h =>
      hr ((mem_rootsOf_iff_parent_none hids hn).mpr h)
    rw [if_neg hr]
    simp only [hpar, ne_eq, not_false_iff, true_and, ← List.length_eq_zero]
    rcases hl : (generate_list_of_childs s n.treenode_id).length with _ | k
    · simp
    · rcases k with _ | k'
      · simp
      · have h2 : 1 < k' + 1 + 1 := by omega
        simp [h2]

/-- Characterisation of the `branch` role in the classified table. -/
theorem classOf_eq_branch_iff {s : Skeleton} (hids : (nodeIds s).Nodup) {n : Node}
    (hn : n ∈ s.nodes) :
    classOf s n.treenode_id = NodeRole.branch ↔
      n.parent_id ≠ none ∧ 1 < (generate_list_of_childs s n.treenode_id).length := by
  unfold classOf
  by_cases hr : n.treenode_id ∈ rootsOf s
  · have := (mem_rootsOf_iff_parent_none hids hn).mp hr
    simp [hr, this]
  · have hpar : n.parent_id ≠ none := fun h =>
      hr ((mem_rootsOf_iff_parent_none hids hn).mpr h)
    rw [if_neg hr]
    simp only [hpar, ne_eq, not_false_iff, true_and]
    rcases hl : (generate_list_of_childs s n.treenode_id).length with _ | k
    · simp
    · rcases k with _ | k'
      · simp
      · have h2 : 1 < k' + 1 + 1 := by omega
        simp [h2]

/-- Characterisation of the `slab` role in the classified table. -/
theorem classOf_eq_slab_iff {s : Skeleton} (hids : (nodeIds s).Nodup) {n : Node}
    (hn : n ∈ s.nodes) :
    classOf s n.treenode_id = NodeRole.slab ↔
      n.parent_id ≠ none ∧ (generate_list_of_childs s n.treenode_id).length = 1 := by
  unfold classOf
  by_cases hr : n.treenode_id ∈ rootsOf s
  · have := (mem_rootsOf_iff_parent_none hids hn).mp hr
    simp [hr, this]
  · have hpar : n.parent_id ≠ none := fun h =>
      hr ((mem_rootsOf_iff_parent_none hids hn).mpr h)
    rw [if_neg hr]
    simp only [hpar, ne_eq, not_false_iff, true_and]
    rcases hl : (generate_list_of_childs s n.treenode_id).length with _ | k
    · simp
    · rcases k with _ | k'
      · simp
      · have h2 : 1 < k' + 1 + 1 := by omega
        simp [h2]

/-- Characterisation of the `root` role in the classified table. -/
theorem classOf_eq_root_iff {s : Skeleton} (hids : (nodeIds s).Nodup) {n : Node}
    (hn : n ∈ s.nodes) :
    classOf s n.treenode_id = NodeRole.root ↔ n.parent_id = none := by
  unfold classOf
  by_cases hr : n.treenode_id ∈ rootsOf s
  · have := (mem_rootsOf_iff_parent_none hids hn).mp hr
    simp [hr, this]
  · have hpar : n.parent_id ≠ none := fun h =>
      hr ((mem_rootsOf_iff_parent_none hids hn).mpr h)
    rw [if_neg hr]
    split_ifs <;> simp [hpar]

/-! ### Downsampling -/

/-- One pass of the inner `for i in range(resampling_factor)` scan of
`downsample_neuron` (lines 187-193): starting from the current node's parent,
test up to `factor` successive ancestors for being fixed points, advancing one
parent per failed test.  `Sum.inl fp` means a fixed point `fp` was found (the
walk stops there); `Sum.inr landing` means the scan budget ran out and the
walk continues from `landing`.  A missing key or an absent parent encountered
mid-scan is a Python `KeyError` on the following dict access, modelled as
`none`. -/
def downsampleScan (lop : Nat → Option (Option Nat)) (fix : List Nat) :
    Nat → Nat → Option (Sum Nat Nat)
  | 0, np => some (Sum.inr np)
  | i + 1, np =>
    if np ∈ fix then some (Sum.inl np)
    else
      match lop np with
      | none => none
      | some none => none
      | some (some q) => downsampleScan lop fix i q

/-- The outer `while True` walk of `downsample_neuron` (lines 183-202) from
one fixed point, threading the `new_parents` dict. -/
def downsampleWalk (lop : Nat → Option (Option Nat)) (fix : List Nat)
    (factor : Nat) :
    Nat → Nat → List (Nat × Option Nat) → Option (List (Nat × Option Nat))
  | 0, _, _ => none
  | fuel + 1, this, d =>
    match lop this with
    | none => none
    | some none => some (dictInsert d this none)
    | some (some p) =>
      match downsampleScan lop fix factor p with
      | none => none
      | some (Sum.inl fp) => some (dictInsert d this (some fp))
      | some (Sum.inr landing) =>
        downsampleWalk lop fix factor fuel landing (dictInsert d this (some landing))

/-- Embedding of `downsample_neuron` (lines 124-214, single-neuron branch).
An empty node table is returned unchanged (line 163-165).  Otherwise the
nodes are classified if the `type` column is absent, the fixed points are the
non-`slab` or synapse-bearing nodes (line 174), each fixed point's rootward
walk records reattachment targets in `new_parents`, and the node table is
restricted to the recorded keys with the parent column rewritten (lines
204-209). -/
def downsample_neuron (s : Skeleton) (resampling_factor : Nat) : Option Skeleton :=
  if s.nodes.length = 0 then some s
  else
    let df := if hasTypeCol s then s else classify_nodes s
    let lop : Nat → Option (Option Nat) := fun t =>
      (findNode df t).map (fun n => n.parent_id)
    let fix_points := (df.nodes.filter (fun n =>
      decide (n.ntype ≠ some NodeRole.slab ∨ n.has_synapses = some true))).map
        (fun n => n.treenode_id)
    match fix_points.foldlM (fun d en =>
        downsampleWalk lop fix_points resampling_factor (df.nodes.length + 1) en d) [] with
    | none => none
    | some new_parents =>
      some { df with nodes := (df.nodes.filter
          (fun n => dictHasKey new_parents n.treenode_id)).map (fun n =>
            { n with parent_id := (dictGet new_parents n.treenode_id).join }) }

/-- A four-node unbranched chain: 1 → 2 → 3 → 4 (1 the root, 2 and 3 slabs,
4 the end node). -/
def skChain4 : Skeleton :=
  { neuron_name := "chain4",
    skeleton_id := 4,
    nodes := [mkNode 1 none 0 0 0, mkNode 2 (some 1) 0 0 10,
              mkNode 3 (some 2) 0 0 20, mkNode 4 (some 3) 0 0 30],
    connectors := [],
    tags := [] }

/-- Counterexample to C6 as stated: downsampling the well-formed chain
1 → 2 → 3 → 4 with resampling factor 1 is not the identity: slab node 3 is
dropped and node 4 is reattached to node 2 (the inner scan of lines 187-193
checks the direct parent and then already advances past it, so factor 1 skips
one slab node per hop). -/
theorem downsample_neuron_factor1_counterexample :
    WF skChain4 ∧
    (downsample_neuron skChain4 1).map nodeIds = some [1, 2, 4] ∧
    nodeIds skChain4 = [1, 2, 3, 4] := by
  refine ⟨by decide, by decide, by decide⟩

theorem findNode_eq_none_of_not_mem {s : Skeleton} {t : Nat}
    (h : t ∉ nodeIds s) : findNode s t = none := by
  rcases hf : findNode s t with _ | n
  · rfl
  · obtain ⟨hm, hid⟩ : n ∈ s.nodes ∧ n.treenode_id = t := by
      refine ⟨List.mem_of_find?_eq_some hf, ?_⟩
      have := List.find?_some hf; simpa using this
    exact absurd (hid ▸ List.mem_map_of_mem (fun n => n.treenode_id) hm) h

theorem parentOf_eq_of_findNode {s : Skeleton} {t : Nat} {n : Node}
    (hf : findNode s t = some n) : parentOf s t = n.parent_id := by
  unfold parentOf; rw [hf]; rfl

theorem mem_ids_of_findNode {s : Skeleton} {t : Nat} {n : Node}
    (hf : findNode s t = some n) : t ∈ nodeIds s := by
  have hm := List.mem_of_find?_eq_some hf
  have hid : n.treenode_id = t := by
    have := List.find?_some hf; simpa using this
  exact hid ▸ List.mem_map_of_mem (fun n => n.treenode_id) hm

/-- With resampling factor 0 the inner scan never runs: a walk step always
lands on the direct parent, so a walk from `t` records every chain member's
own parent. -/
theorem downsampleWalk_factor0 {s : Skeleton} {lop : Nat → Option (Option Nat)}
    (hlop : ∀ u ∈ nodeIds s, lop u = some (parentOf s u)) (fix : List Nat) :
    ∀ {t : Nat} {l : List Nat}, PChain s t l → ∀ fuel, l.length ≤ fuel →
    ∀ d, ∃ d', downsampleWalk lop fix 0 fuel t d = some d' ∧
      ∀ k, dictGet d' k = if k ∈ l then some (parentOf s k) else dictGet d k := by
  intro t l h
  induction h with
  | root t n hf hp =>
    intro fuel hle d
    match fuel, hle with
    | f + 1, _ =>
      have ht : t ∈ nodeIds s := mem_ids_of_findNode hf
      have hpt : parentOf s t = none := by
        rw [parentOf_eq_of_findNode hf, hp]
      refine ⟨dictInsert d t none, ?_, ?_⟩
      · rw [downsampleWalk, hlop t ht, hpt]
      · intro k
        rw [dictGet_dictInsert]
        by_cases hk : k = t
        · subst hk; simp [hpt]
        · simp [hk]
  | step t p l n hf hp hc ih =>
    intro fuel hle d
    match fuel, hle with
    | f + 1, hle =>
      have ht : t ∈ nodeIds s := mem_ids_of_findNode hf
      have hpt : parentOf s t = some p := by
        rw [parentOf_eq_of_findNode hf, hp]
      obtain ⟨d', hrun, hget⟩ := ih f (by simpa using hle) (dictInsert d t (some p))
      refine ⟨d', ?_, ?_⟩
      · rw [downsampleWalk, hlop t ht, hpt]
        show downsampleWalk lop fix 0 f p (dictInsert d t (some p)) = some d'
        exact hrun
      · intro k
        rw [hget k, dictGet_dictInsert]
        by_cases hk1 : k ∈ l
        · simp [hk1, List.mem_cons_of_mem]
        · by_cases hk2 : k = t
          · subst hk2
            simp [hk1, hpt]
          · simp [hk1, hk2]

/-- Folding factor-0 walks over a start list records the correct parent for
every node lying on a start's chain and never corrupts other entries. -/
theorem downsampleFold_factor0 {s : Skeleton} (hwf : WF s)
    {lop : Nat → Option (Option Nat)}
    (hlop : ∀ u ∈ nodeIds s, lop u = some (parentOf s u)) (fix : List Nat)
    {fuel : Nat} (hfuel : s.nodes.length ≤ fuel) :
    ∀ fs : List Nat, (∀ f ∈ fs, f ∈ nodeIds s) → ∀ d : List (Nat × Option Nat),
    ∃ d', fs.foldlM (fun d en => downsampleWalk lop fix 0 fuel en d) d = some d' ∧
      (∀ k, dictGet d' k = some (parentOf s k) ∨ dictGet d' k = dictGet d k) ∧
      (∀ k, (∃ f ∈ fs, Anc s k f) → dictGet d' k = some (parentOf s k)) := by
  intro fs
  induction fs with
  | nil =>
    intro _ d
    exact ⟨d, rfl, fun k => Or.inr rfl, fun k hk => by
      obtain ⟨f, hf, -⟩ := hk; cases hf⟩
  | cons f fs ih =>
    intro hmem d
    have hfid : f ∈ nodeIds s := hmem f (by simp)
    obtain ⟨lf, hlf⟩ := pchain_exists_of_mem hwf hfid
    have hlen : lf.length ≤ fuel := le_trans (pchain_length_le hlf hwf.1) hfuel
    obtain ⟨d₁, hrun₁, hget₁⟩ := downsampleWalk_factor0 hlop fix hlf fuel hlen d
    obtain ⟨d', hrun', hA, hB⟩ := ih (fun g hg => hmem g (List.mem_cons_of_mem f hg)) d₁
    refine ⟨d', ?_, ?_, ?_⟩
    · rw [List.foldlM_cons, hrun₁]
      exact hrun'
    · intro k
      rcases hA k with h | h
      · exact Or.inl h
      · rw [h, hget₁ k]
        by_cases hk : k ∈ lf
        · simp [hk]
        · simp [hk]
    · intro k hk
      obtain ⟨g, hg, hanc⟩ := hk
      rcases List.mem_cons.mp hg with rfl | hg'
      · have hkmem : k ∈ lf := mem_chain_of_anc hlf hanc
        rcases hA k with h | h
        · exact h
        · rw [h, hget₁ k, if_pos hkmem]
      · exact hB k ⟨g, hg', hanc⟩

theorem nodeIds_mk_update (s0 : Skeleton) (nodes' : List Node) :
    nodeIds { s0 with nodes := nodes' } = nodes'.map (fun n => n.treenode_id) := rfl

theorem findNode_mk_update (s0 : Skeleton) (nodes' : List Node) (t : Nat) :
    findNode { s0 with nodes := nodes' } t
      = nodes'.find? (fun n => n.treenode_id = t) := rfl

theorem findNode_map_parent_update (l : List Node) (g : Node → Option Nat) (t : Nat) :
    (l.map (fun n => { n with parent_id := g n })).find? (fun n => n.treenode_id = t)
      = (l.find? (fun n => n.treenode_id = t)).map (fun n => { n with parent_id := g n }) := by
  rw [List.find?_map]
  rfl

/-- C6 (amended): downsampling with resampling factor 0 — not factor 1 — is
the identity transform on the node-identifier set and the parent assignment
(the inner scan of lines 187-193 consumes one test-and-advance per unit of
factor, so factor 0 reattaches every walked node to its own parent and keeps
every node, while factor 1 already skips one slab node per hop). -/
theorem downsample_neuron_factor0_identity (s : Skeleton) (hwf : WF s) :
    ∃ s', downsample_neuron s 0 = some s' ∧ nodeIds s' = nodeIds s ∧
      ∀ t, parentOf s' t = parentOf s t := by
  classical
  have hids := hwf.1
  have hroot := hwf.2.1
  have hcols := hwf.2.2.2.2
  have hne : s.nodes ≠ [] := by
    intro h
    have hr0 : rootsOf s = [] := by unfold rootsOf; rw [h]; rfl
    rw [hr0] at hroot
    simp at hroot
  have htc : hasTypeCol s = false := by
    unfold hasTypeCol
    rcases hnodes : s.nodes with _ | ⟨n0, rest⟩
    · exact absurd hnodes hne
    · have h0 : n0.ntype = none := (hcols n0 (by rw [hnodes]; simp)).1
      simp [List.all_cons, h0]
  have hlen0 : ¬ s.nodes.length = 0 := fun h => hne (List.length_eq_zero.mp h)
  have hlop : ∀ u ∈ nodeIds s,
      (fun t => (findNode (classify_nodes s) t).map (fun n => n.parent_id)) u
        = some (parentOf s u) := by
    intro u hu
    obtain ⟨n, hf, hid⟩ := findNode_isSome_of_mem_ids hu
    simp only [findNode_classify, hf, Option.map_some']
    rw [parentOf_eq_of_findNode hf]
    rfl
  have hFsub : ∀ f ∈ ((classify_nodes s).nodes.filter (fun n =>
      decide (n.ntype ≠ some NodeRole.slab ∨ n.has_synapses = some true))).map
        (fun n => n.treenode_id), f ∈ nodeIds s := by
    intro f hf
    obtain ⟨n, hn, rfl⟩ := List.mem_map.mp hf
    have := (List.mem_filter.mp hn).1
    rw [← nodeIds_classify s]
    exact List.mem_map_of_mem (fun n => n.treenode_id) this
  have hcover : ∀ k ∈ nodeIds s, ∃ f ∈ ((classify_nodes s).nodes.filter (fun n =>
      decide (n.ntype ≠ some NodeRole.slab ∨ n.has_synapses = some true))).map
        (fun n => n.treenode_id), Anc s k f := by
    intro k hk
    obtain ⟨m, hmids, hanc, hml⟩ := exists_childless_descendant' hwf hk
    refine ⟨m, ?_, hanc⟩
    obtain ⟨n, hf, hid⟩ := findNode_isSome_of_mem_ids hmids
    have hnmem : n ∈ s.nodes := List.mem_of_find?_eq_some hf
    have hclass : classOf s n.treenode_id ≠ NodeRole.slab := by
      intro hcl
      have h2 := ((classOf_eq_slab_iff hids hnmem).mp hcl).2
      rw [hid, hml] at h2
      simp at h2
    refine List.mem_map.mpr ⟨classifyRow s n, ?_, hid⟩
    refine List.mem_filter.mpr ⟨?_, ?_⟩
    · rw [classify_nodes_eq_map]
      exact List.mem_map_of_mem _ hnmem
    · simp only [classifyRow, ne_eq, decide_eq_true_eq]
      exact Or.inl (by simpa using hclass)
  have hfuel : s.nodes.length ≤ (classify_nodes s).nodes.length + 1 := by
    rw [length_nodes_classify]; omega
  obtain ⟨d', hrun, hA, hB⟩ := downsampleFold_factor0 hwf hlop
    (((classify_nodes s).nodes.filter (fun n =>
      decide (n.ntype ≠ some NodeRole.slab ∨ n.has_synapses = some true))).map
        (fun n => n.treenode_id)) hfuel
    (((classify_nodes s).nodes.filter (fun n =>
      decide (n.ntype ≠ some NodeRole.slab ∨ n.has_synapses = some true))).map
        (fun n => n.treenode_id)) hFsub []
  have hall : ∀ n ∈ (classify_nodes s).nodes, dictHasKey d' n.treenode_id = true := by
    intro n hn
    have hk : n.treenode_id ∈ nodeIds s := by
      rw [← nodeIds_classify s]
      exact List.mem_map_of_mem (fun n => n.treenode_id) hn
    have := hB n.treenode_id (hcover _ hk)
    rw [dictHasKey_eq_isSome, this]
    rfl
  have hfilter : (classify_nodes s).nodes.filter
      (fun n => dictHasKey d' n.treenode_id) = (classify_nodes s).nodes :=
    List.filter_eq_self.mpr hall
  refine ⟨{ classify_nodes s with nodes := ((classify_nodes s).nodes.filter
      (fun n => dictHasKey d' n.treenode_id)).map (fun n =>
        { n with parent_id := (dictGet d' n.treenode_id).join }) }, ?_, ?_, ?_⟩
  · unfold downsample_neuron
    rw [if_neg hlen0]
    simp only [htc, Bool.false_eq_true, if_false]
    rw [hrun]
  · rw [nodeIds_mk_update, hfilter, List.map_map, ← nodeIds_classify s]
    exact List.map_congr_left (fun a ha => rfl)
  · intro t
    have hfind : findNode { classify_nodes s with nodes := ((classify_nodes s).nodes.filter
        (fun n => dictHasKey d' n.treenode_id)).map (fun n =>
          { n with parent_id := (dictGet d' n.treenode_id).join }) } t
        = ((classify_nodes s).nodes.find? (fun n => n.treenode_id = t)).map (fun n =>
          { n with parent_id := (dictGet d' n.treenode_id).join }) := by
      rw [findNode_mk_update, hfilter, findNode_map_parent_update]
    by_cases ht : t ∈ nodeIds s
    · obtain ⟨n, hf, hid⟩ := findNode_isSome_of_mem_ids ht
      have hfc : (classify_nodes s).nodes.find? (fun n => n.treenode_id = t)
          = some (classifyRow s n) := by
        have h3 := findNode_classify s t
        unfold findNode at h3
        unfold findNode at hf
        rw [h3, hf]
        rfl
      rw [parentOf, hfind, hfc]
      simp only [Option.map_some', Option.some_bind]
      show (dictGet d' ((classifyRow s n).treenode_id)).join = parentOf s t
      have hidc : (classifyRow s n).treenode_id = t := hid
      rw [hidc, hB t (hcover t ht)]
      rfl
    · have h2 : (classify_nodes s).nodes.find? (fun n => n.treenode_id = t) = none := by
        have h3 := findNode_eq_none_of_not_mem (s := classify_nodes s) (t := t)
          (by rw [nodeIds_classify]; exact ht)
        unfold findNode at h3
        exact h3
      rw [parentOf, hfind, h2, parentOf, findNode_eq_none_of_not_mem ht]
      rfl

/-- Witness for the C6 theorem: factor-0 downsampling of the chain fixture is
the identity on ids and parents. -/
theorem downsample_neuron_factor0_identity_witness :
    WF skChain4 ∧
    (∃ s', downsample_neuron skChain4 0 = some s' ∧ nodeIds s' = nodeIds skChain4 ∧
      ∀ t, parentOf s' t = parentOf skChain4 t) :=
  ⟨by decide, downsample_neuron_factor0_identity skChain4 (by decide)⟩

/-! ### Strahler index -/

/-- The children dict of `generate_list_of_childs` including its `None ↦
[None]` marker entry, as queried by `calc_strahler_index` at an optional key
(the marker entry exists whenever some node has an absent or dangling parent,
which holds for every rooted skeleton). -/
def childsWithMarker (s : Skeleton) : Option Nat → List (Option Nat)
  | some p => (generate_list_of_childs s p).map some
  | none => [none]

/-- The branch-index rule of `calc_strahler_index` (lines 911-923): no
children gives 1, a single child passes its (possibly still missing) order
through, otherwise the maximum child order, incremented when it is attained
at least twice.  A missing child order inside `max` is the Python `TypeError`
of comparing `None` with `int`, modelled as `none`. -/
def strahlerIndexOf (prev : List (Option Nat)) : Option (Option Nat) :=
  match prev with
  | [] => some (some 1)
  | [x] => some x
  | _ =>
    match prev.mapM id with
    | none => none
    | some vs =>
      let m := vs.foldl max 0
      if 2 ≤ vs.count m then some (some (m + 1)) else some (some m)

/-- The spine walk of `calc_strahler_index` (lines 930-947): climb parents
while the parent is neither a branch node nor absent, accumulating the spine;
a failed row lookup behaves like the `except: break` (the walk ends with an
absent parent).  Returns the accumulated spine and the final parent. -/
def strahlerSpine (pl : Nat → Option Nat) (branch_nodes : List Nat) :
    Nat → List Nat → Option Nat → Option (List Nat × Option Nat)
  | 0, _, _ => none
  | fuel + 1, spine, parent =>
    match parent with
    | none => some (spine, none)
    | some q =>
      if q ∈ branch_nodes then some (spine, some q)
      else strahlerSpine pl branch_nodes fuel (spine ++ [q]) (pl q)

/-- Processing of one starting point (lines 906-959): read the children's
orders, compute the branch index, walk the spine assigning it, and queue the
terminating branch node when all of its children are processed. -/
def strahlerPoint (s : Skeleton) (branch_nodes : List Nat) (pl : Nat → Option Nat)
    (spineFuel : Nat)
    (st : List (Nat × Option Nat) × List Nat × List Nat) (en : Nat) :
    Option (List (Nat × Option Nat) × List Nat × List Nat) :=
  match (generate_list_of_childs s en).mapM (fun c => dictGet st.1 c) with
  | none => none
  | some prev =>
    match strahlerIndexOf prev with
    | none => none
    | some idx =>
      match strahlerSpine pl branch_nodes spineFuel [en] (pl en) with
      | none => none
      | some (spine, parentFinal) =>
        let si1 := spine.foldl (fun d k => dictInsert d k idx) st.1
        let processed2 := (st.2.1 ++ [en]) ++ spine.tail
        let ready := (childsWithMarker s parentFinal).all (fun c =>
          match c with
          | some k => decide (k ∈ processed2)
          | none => false)
        let newpts := match parentFinal with
          | some q => if ready then st.2.2 ++ [q] else st.2.2
          | none => st.2.2
        some (si1, processed2, newpts)

/-- The wavefront loop of `calc_strahler_index` (lines 901-966): process every
current starting point, then continue with the freshly queued ones; the
processed points are removed, so each wave's queue is exactly the new
points. -/
def strahlerWaves (s : Skeleton) (branch_nodes : List Nat) (pl : Nat → Option Nat)
    (spineFuel : Nat) :
    Nat → List (Nat × Option Nat) → List Nat → List Nat →
    Option (List (Nat × Option Nat))
  | 0, _, _, _ => none
  | fuel + 1, si, processed, pts =>
    match pts with
    | [] => some si
    | _ =>
      match pts.foldlM (strahlerPoint s branch_nodes pl spineFuel) (si, processed, []) with
      | none => none
      | some (si', processed', newpts) =>
        strahlerWaves s branch_nodes pl spineFuel fuel si' processed' newpts

/-- Embedding of `calc_strahler_index` (lines 843-977, single-neuron branch),
returning the `strahler_index` dict (whose values also populate the returned
`strahler_index` column): classify if the `type` column is absent, seed every
node id with a missing order, start the wavefront at the `end` nodes. -/
def calc_strahler_index (s : Skeleton) : Option (List (Nat × Option Nat)) :=
  let df := if hasTypeCol s then s else classify_nodes s
  let end_nodes := (df.nodes.filter
    (fun n => n.ntype = some NodeRole.leaf)).map (fun n => n.treenode_id)
  let branch_nodes := (df.nodes.filter
    (fun n => n.ntype = some NodeRole.branch)).map (fun n => n.treenode_id)
  let pl : Nat → Option Nat := fun q => ((findNode df q).map (fun n => n.parent_id)).join
  let si0 := (nodeIds df).map (fun t => (t, (none : Option Nat)))
  strahlerWaves s branch_nodes pl (df.nodes.length + 1) (df.nodes.length + 1)
    si0 [] end_nodes

/-- A 15-node fixture: the root's two subtrees have Strahler orders 3 (under
node 2, two branch tiers deep) and 2 (under node 9, three branch tiers deep,
so its spine is processed in a later wave). -/
def skStr : Skeleton :=
  { neuron_name := "strahler",
    skeleton_id := 15,
    nodes := [mkNode 1 none 0 0 0,
              mkNode 2 (some 1) 1 0 0, mkNode 3 (some 2) 2 0 0,
              mkNode 4 (some 2) 3 0 0, mkNode 5 (some 3) 4 0 0,
              mkNode 6 (some 3) 5 0 0, mkNode 7 (some 4) 6 0 0,
              mkNode 8 (some 4) 7 0 0,
              mkNode 9 (some 1) 8 0 0, mkNode 10 (some 9) 9 0 0,
              mkNode 11 (some 9) 10 0 0, mkNode 12 (some 11) 11 0 0,
              mkNode 13 (some 11) 12 0 0, mkNode 14 (some 13) 13 0 0,
              mkNode 15 (some 13) 14 0 0],
    connectors := [],
    tags := [] }

/-- C7: evaluation of `calc_strahler_index` on the well-formed fixture
`skStr`.  The root (node 1) has children 2 and 9 whose computed orders are 3
and 2 — a unique maximum of 3 — yet the root's final order is 2: because the
root is classified `root` rather than `branch`, every subtree's last spine
walks through it (lines 935-949) and overwrites its order, so the later,
lower-order subtree wins.  This contradicts the claimed children-order rule
at the root and the claim that the root's order is at least every
descendant's (node 2 has order 3 > 2). -/
theorem calc_strahler_index_root_overwrite :
    WF skStr ∧
    (calc_strahler_index skStr).map (fun si =>
      (dictGet si 1, dictGet si 2, dictGet si 9))
      = some (some (some 2), some (some 3), some (some 2)) :=
  ⟨by decide, by decide⟩

/-! ### Metrics: cable length and distance-to-root walks -/

/-- Embedding of `_calc_dist` (lines 770-771): the Euclidean distance between
two coordinate triples (machine floats modelled as exact reals). -/
noncomputable def _calc_dist (v1 v2 : Rat × Rat × Rat) : ℝ :=
  Real.sqrt (((v1.1 - v2.1 : Rat) : ℝ) ^ 2 + ((v1.2.1 - v2.2.1 : Rat) : ℝ) ^ 2
    + ((v1.2.2 - v2.2.2 : Rat) : ℝ) ^ 2)

/-- The per-row entry of the distance vector `w` of `calc_cable` (lines
828-832): the rowwise Euclidean norm of the node-minus-parent coordinate
difference; an absent parent (the root) or an unresolvable parent row yields
a NaN entry, modelled as `none` (it is dropped from the final sum by the
`isnan` filter of line 841). -/
noncomputable def nodeDistToParent (s : Skeleton) (n : Node) : Option ℝ :=
  match n.parent_id with
  | none => none
  | some p =>
    match findNode s p with
    | none => none
    | some pn => some (_calc_dist (n.x, n.y, n.z) (pn.x, pn.y, pn.z))

/-- Embedding of `calc_cable` (lines 773-841) for a single neuron with the
default smoothing 1 (line 821 skips downsampling unless smoothing exceeds 1)
and `return_skdata = False`: the NaN-filtered sum of the distance vector,
divided by 1000 (nanometre coordinates to a micrometre result). -/
noncomputable def calc_cable (s : Skeleton) : ℝ :=
  ((s.nodes.map (nodeDistToParent s)).reduceOption).sum / 1000

/-- The spec formula for total cable length (spec §4.6): the sum over all
nodes of the Euclidean distance to the parent's position, where the root
(absent parent) contributes zero, divided by 1000 to convert nanometre input
coordinates to a micrometre result. -/
noncomputable def cableSpec (s : Skeleton) : ℝ :=
  (s.nodes.map (fun n =>
    match n.parent_id with
    | none => 0
    | some p =>
      match findNode s p with
      | none => 0
      | some pn => _calc_dist (n.x, n.y, n.z) (pn.x, pn.y, pn.z))).sum / 1000

theorem reduceOption_sum_eq {l : List Node} {f : Node → Option ℝ} {g : Node → ℝ}
    (h : ∀ n ∈ l, (f n).getD 0 = g n) :
    ((l.map f).reduceOption).sum = (l.map g).sum := by
  induction l with
  | nil => rfl
  | cons n rest ih =>
    have hn := h n (by simp)
    have hrest := ih (fun m hm => h m (List.mem_cons_of_mem n hm))
    rcases hf : f n with _ | x
    · rw [hf] at hn
      simp only [List.map_cons, hf, List.reduceOption_cons_of_none, List.sum_cons]
      rw [hrest, ← hn]
      simp
    · rw [hf] at hn
      simp only [List.map_cons, hf, List.reduceOption_cons_of_some, List.sum_cons]
      rw [hrest, ← hn]
      simp

/-- C9: for every well-formed single-neuron skeleton the total cable length
returned by `calc_cable` equals the sum, over all non-root nodes, of the
Euclidean distance between the node's position and its parent's position (the
root contributes zero), divided by 1000 to convert nanometre coordinates to a
micrometre result. -/
theorem calc_cable_eq_cableSpec (s : Skeleton) (hwf : WF s) :
    calc_cable s = cableSpec s := by
  unfold calc_cable cableSpec
  congr 1
  apply reduceOption_sum_eq
  intro n hn
  unfold nodeDistToParent
  rcases hp : n.parent_id with _ | p
  · rfl
  · rcases hf : findNode s p with _ | pn
    · simp [hf]
    · simp [hf]

/-- Witness for the C9 theorem at the spec §8 example tree. -/
theorem calc_cable_eq_cableSpec_witness :
    WF skEx5 ∧ calc_cable skEx5 = cableSpec skEx5 :=
  ⟨by decide, calc_cable_eq_cableSpec skEx5 (by decide)⟩

/-- Python 3 `round` to an integer: nearest integer, ties to the even one
(banker's rounding). -/
noncomputable def pythonRound (x : ℝ) : ℤ :=
  if (x - ⌊x⌋ : ℝ) < 1 / 2 then ⌊x⌋
  else if (1 / 2 : ℝ) < x - ⌊x⌋ then ⌊x⌋ + 1
  else if Even ⌊x⌋ then ⌊x⌋ else ⌊x⌋ + 1

/-- Python's `round` lands within one half of its argument. -/
theorem abs_pythonRound_sub_le (x : ℝ) : |(pythonRound x : ℝ) - x| ≤ 1 / 2 := by
  have h0 : (0 : ℝ) ≤ x - ⌊x⌋ := by
    have := Int.floor_le x
    linarith
  have h1 : x - ⌊x⌋ < 1 := by
    have := Int.lt_floor_add_one x
    push_cast at this ⊢
    linarith
  unfold pythonRound
  split_ifs with hlt hgt heven
  · rw [abs_sub_comm, abs_of_nonneg h0]
    linarith
  · push_cast
    rw [abs_of_nonneg (by linarith)]
    linarith
  · have : x - ⌊x⌋ = 1 / 2 := le_antisymm (not_lt.mp hgt) (not_lt.mp hlt)
    rw [abs_sub_comm, abs_of_nonneg h0, this]
  · have : x - ⌊x⌋ = 1 / 2 := le_antisymm (not_lt.mp hgt) (not_lt.mp hlt)
    push_cast
    rw [abs_of_nonneg (by linarith)]
    linarith

/-- Python's `round` is the identity on integers. -/
theorem pythonRound_intCast (n : ℤ) : pythonRound (n : ℝ) = n := by
  unfold pythonRound
  rw [Int.floor_intCast]
  rw [if_pos (by norm_num)]

/-- The walking loop of `_walk_to_root` (lines 1002-1014), accumulating
`distances_traveled`.  The travelling tuple `this` is `(node id, x, y, z)`;
the parents dict stores, under each node id, the node's parent id next to the
node's own coordinates, and the loop assigns `this_node = parent`, so the
carried coordinates lag one node behind (the first accumulated distance is 0
and the edge into the root is never accumulated — faithfully mirrored here).
On a cache hit for the parent id the cached value is appended as if it were
an edge length and the loop breaks.  `none` models a `KeyError` or a
non-terminating parent structure. -/
noncomputable def walkDistances (lop : List (Nat × (Option Nat × Rat × Rat × Rat)))
    (visited : List (Nat × ℝ)) :
    Nat → (Nat × Rat × Rat × Rat) → List ℝ → Option (List ℝ)
  | 0, _, _ => none
  | fuel + 1, this, acc =>
    match dictGet lop this.1 with
    | none => none
    | some pv =>
      match pv.1 with
      | none => some acc
      | some pidv =>
        match dictGet visited pidv with
        | none =>
          walkDistances lop visited fuel (pidv, pv.2.1, pv.2.2.1, pv.2.2.2)
            (acc ++ [_calc_dist (this.2.1, this.2.2.1, this.2.2.2)
              (pv.2.1, pv.2.2.1, pv.2.2.2)])
        | some dcached => some (acc ++ [dcached])

/-- The cache update of `_walk_to_root` (line 1017): each already-present
cache key, at its insertion position `i`, is remapped to the sum of the
just-walked distance list from index `i` on; no new keys are added, because
the comprehension enumerates `visited_nodes` itself rather than the nodes
seen on the walk. -/
noncomputable def walkCacheUpdate (visited : List (Nat × ℝ)) (ds : List ℝ) :
    List (Nat × ℝ) :=
  visited.enum.map (fun iv => (iv.2.1, (ds.drop iv.1).sum))

/-- Embedding of `_walk_to_root` (lines 979-1019): walk, then return the
rounded distance sum together with the updated cache. -/
noncomputable def _walk_to_root (start : Nat × Rat × Rat × Rat)
    (lop : List (Nat × (Option Nat × Rat × Rat × Rat)))
    (visited : List (Nat × ℝ)) : Option (ℤ × List (Nat × ℝ)) :=
  match walkDistances lop visited (lop.length + 1) start [] with
  | none => none
  | some ds => some (pythonRound ds.sum, walkCacheUpdate visited ds)

/-- Modelled from the spec: the exact geodesic distance from a node to the
root along parent links (the sum of the Euclidean edge lengths), the quantity
that spec §4.6 requires every cache entry to equal. -/
noncomputable def rootDistSpec (lop : List (Nat × (Option Nat × Rat × Rat × Rat))) :
    Nat → Nat → Option ℝ
  | 0, _ => none
  | fuel + 1, t =>
    match dictGet lop t with
    | none => none
    | some pv =>
      match pv.1 with
      | none => some 0
      | some p =>
        match dictGet lop p with
        | none => none
        | some qv =>
          (rootDistSpec lop fuel p).map (fun d =>
            d + _calc_dist (pv.2.1, pv.2.2.1, pv.2.2.2) (qv.2.1, qv.2.2.1, qv.2.2.2))

/-- C10: whenever the walk terminates, `_walk_to_root` returns as its
distance component not the raw real path sum but that sum rounded to the
nearest integer (Python `round`, ties to even, hence within one half of the
raw sum) — so each per-synapse distance that `synapse_root_distances` stores
is an integer nanometre value. -/
theorem _walk_to_root_returns_rounded_sum
    (start : Nat × Rat × Rat × Rat)
    (lop : List (Nat × (Option Nat × Rat × Rat × Rat)))
    (visited : List (Nat × ℝ)) (ds : List ℝ)
    (h : walkDistances lop visited (lop.length + 1) start [] = some ds) :
    _walk_to_root start lop visited
      = some (pythonRound ds.sum, walkCacheUpdate visited ds) ∧
    |(pythonRound ds.sum : ℝ) - ds.sum| ≤ 1 / 2 := by
  constructor
  · unfold _walk_to_root
    rw [h]
  · exact abs_pythonRound_sub_le _

/-- Parents dict for a three-node chain 1 ← 2 ← 3 laid out on the x axis at
0, 10 and 30 nanometres (each key maps to the parent id and the node's own
coordinates, as built by `synapse_root_distances` at line 734). -/
def lopW : List (Nat × (Option Nat × Rat × Rat × Rat)) :=
  [(1, (none, 0, 0, 0)), (2, (some 1, 10, 0, 0)), (3, (some 2, 30, 0, 0))]

theorem dist_30_30 : _calc_dist ((30 : Rat), 0, 0) ((30 : Rat), 0, 0) = 0 := by
  unfold _calc_dist
  norm_num

theorem dist_30_10 : _calc_dist ((30 : Rat), 0, 0) ((10 : Rat), 0, 0) = 20 := by
  unfold _calc_dist
  norm_num
  rw [show (400 : ℝ) = 20 ^ 2 by norm_num]
  exact Real.sqrt_sq (by norm_num)

theorem dist_7_0 : _calc_dist ((7 : Rat), 0, 0) ((0 : Rat), 0, 0) = 7 := by
  unfold _calc_dist
  norm_num
  rw [show (49 : ℝ) = 7 ^ 2 by norm_num]
  exact Real.sqrt_sq (by norm_num)

/-- Witness for the C10 theorem: the walk from node 3 of the chain fixture
terminates with distances `[0, 20]` and the returned value is their rounded
sum. -/
theorem _walk_to_root_returns_rounded_sum_witness :
    walkDistances lopW [] (lopW.length + 1) (3, 30, 0, 0) [] = some [(0 : ℝ), 20] ∧
    (_walk_to_root (3, 30, 0, 0) lopW []
        = some (pythonRound (([(0 : ℝ), 20]).sum), walkCacheUpdate [] [(0 : ℝ), 20]) ∧
      |(pythonRound (([(0 : ℝ), 20]).sum) : ℝ) - ([(0 : ℝ), 20]).sum| ≤ 1 / 2) := by
  have heval : walkDistances lopW [] (lopW.length + 1) (3, 30, 0, 0) [] = some [(0 : ℝ), 20] := by
    rw [show walkDistances lopW [] (lopW.length + 1) (3, 30, 0, 0) []
        = some [_calc_dist ((30 : Rat), 0, 0) ((30 : Rat), 0, 0),
                _calc_dist ((30 : Rat), 0, 0) ((10 : Rat), 0, 0)] from rfl,
      dist_30_30, dist_30_10]
  exact ⟨heval, _walk_to_root_returns_rounded_sum (3, 30, 0, 0) lopW [] [(0 : ℝ), 20] heval⟩

/-- Parents dict of a skeleton with root 1 at the origin, chain 1 ← 2 ← 3 on
the x axis at 10 and 30, and a separate child 5 of the root at x = 7. -/
def lopC3 : List (Nat × (Option Nat × Rat × Rat × Rat)) :=
  [(1, (none, 0, 0, 0)), (2, (some 1, 10, 0, 0)), (3, (some 2, 30, 0, 0)),
   (5, (some 1, 7, 0, 0))]

/-- C3: the memoization cache invariant is broken by the line-1017 update.
With the cache correctly holding node 5's exact distance to the root (7), a
walk from node 3 — whose path never touches node 5 — rewrites the cached
entry for 5 to the full length of that unrelated walk (20), because the
update comprehension enumerates the existing cache keys and assigns each the
walked-distance suffix sum at its position.  Afterwards the cached entry (20)
no longer equals node 5's distance to the root (7), so a later query hitting
the cache returns a different distance than a fresh walk would. -/
theorem _walk_to_root_cache_invariant_broken :
    rootDistSpec lopC3 (lopC3.length + 1) 5 = some 7 ∧
    _walk_to_root (3, 30, 0, 0) lopC3 [(5, (7 : ℝ))] = some (20, [(5, (20 : ℝ))]) ∧
    (20 : ℝ) ≠ 7 := by
  refine ⟨?_, ?_, by norm_num⟩
  · rw [show rootDistSpec lopC3 (lopC3.length + 1) 5
        = some (0 + _calc_dist ((7 : Rat), 0, 0) ((0 : Rat), 0, 0)) from rfl, dist_7_0]
    norm_num
  · unfold _walk_to_root
    rw [show walkDistances lopC3 [(5, (7 : ℝ))] (lopC3.length + 1) (3, 30, 0, 0) []
        = some [_calc_dist ((30 : Rat), 0, 0) ((30 : Rat), 0, 0),
                _calc_dist ((30 : Rat), 0, 0) ((10 : Rat), 0, 0)] from rfl,
      dist_30_30, dist_30_10]
    dsimp only
    rw [show walkCacheUpdate [(5, (7 : ℝ))] [(0 : ℝ), 20]
        = [(5, ([(0 : ℝ), 20]).sum)] from rfl]
    have hsum : ([(0 : ℝ), 20]).sum = ((20 : ℤ) : ℝ) := by norm_num
    rw [hsum, pythonRound_intCast]
    norm_num

/-! ### Cutting: the leaf-walk splitter and the edge-cut splitter -/

theorem pchain_parent_some {s : Skeleton} {x q : Nat} {l : List Nat}
    (h : PChain s x l) (hp : parentOf s x = some q) :
    ∃ l', l = x :: l' ∧ PChain s q l' := by
  cases h with
  | root x n hf hpn =>
    rw [parentOf, hf, Option.some_bind, hpn] at hp
    cases hp
  | step x p l n hf hpn hc =>
    rw [parentOf, hf, Option.some_bind, hpn] at hp
    cases hp
    exact ⟨l, rfl, hc⟩

theorem pchain_parent_none {s : Skeleton} {x : Nat} {l : List Nat}
    (h : PChain s x l) (hp : parentOf s x = none) : l = [x] := by
  cases h with
  | root => rfl
  | step x p l n hf hpn hc =>
    rw [parentOf, hf, Option.some_bind, hpn] at hp
    cases hp

theorem parentOf_ne_none_of_ne_root {s : Skeleton} (hwf : WF s) {x : Nat}
    (hx : x ∈ nodeIds s) (hne : x ≠ rootId s) : parentOf s x ≠ none := by
  intro h
  obtain ⟨n, hf, hid⟩ := findNode_isSome_of_mem_ids hx
  rw [parentOf, hf, Option.some_bind] at h
  exact hne (eq_rootId hwf.1 hwf.2.1 hf h)

/-- The accumulated `nodes_walked` list of a cut walk: a parent-linked
segment from the start `e` up to the current node `x`. -/
inductive Seg (s : Skeleton) (e : Nat) : Nat → List Nat → Prop
  | base : Seg s e e [e]
  | snoc (x y : Nat) (w : List Nat) (hseg : Seg s e x w)
      (hp : parentOf s x = some y) : Seg s e y (w ++ [y])

theorem seg_mem_last {s : Skeleton} {e x : Nat} {w : List Nat}
    (h : Seg s e x w) : x ∈ w := by
  induction h with
  | base => simp
  | snoc x y w hseg hp ih => simp

theorem seg_mem_head {s : Skeleton} {e x : Nat} {w : List Nat}
    (h : Seg s e x w) : e ∈ w := by
  induction h with
  | base => simp
  | snoc x y w hseg hp ih => exact List.mem_append_left _ ih

/-- Every walked element's chain is the walked remainder followed by the
current node's chain. -/
theorem seg_chain_decomp_aux {s : Skeleton} {e x : Nat} {w : List Nat}
    (h : Seg s e x w) :
    ∀ lx, PChain s x lx → ∀ t ∈ w, ∃ l₁, PChain s t (l₁ ++ lx) ∧ ∀ u ∈ l₁, u ∈ w := by
  induction h with
  | base =>
    intro lx hx t ht
    simp only [List.mem_singleton] at ht
    subst ht
    exact ⟨[], by simpa using hx, by simp⟩
  | snoc x y w hseg hp ih =>
    intro lx hx t ht
    have hxchain : PChain s x (x :: lx) := pchain_child hp hx
    rcases List.mem_append.mp ht with htw | hty
    · obtain ⟨l₁, hl₁, hsub⟩ := ih (x :: lx) hxchain t htw
      refine ⟨l₁ ++ [x], by simpa using hl₁, ?_⟩
      intro u hu
      rcases List.mem_append.mp hu with h1 | h2
      · exact List.mem_append_left _ (hsub u h1)
      · simp only [List.mem_singleton] at h2
        subst h2
        exact List.mem_append_left _ (seg_mem_last hseg)
    · simp only [List.mem_singleton] at hty
      subst hty
      exact ⟨[], by simpa using hx, by simp⟩

theorem seg_chain_decomp {s : Skeleton} {e x : Nat} {w lx : List Nat}
    (h : Seg s e x w) (hx : PChain s x lx) :
    ∀ t ∈ w, ∃ l₁, PChain s t (l₁ ++ lx) ∧ ∀ u ∈ l₁, u ∈ w :=
  seg_chain_decomp_aux h lx hx

/-- Every walked element other than the current node has its parent in the
walked list. -/
theorem seg_closure {s : Skeleton} {e x : Nat} {w : List Nat}
    (h : Seg s e x w) : ∀ t ∈ w, t ≠ x → ∃ q, parentOf s t = some q ∧ q ∈ w := by
  induction h with
  | base =>
    intro t ht hne
    simp only [List.mem_singleton] at ht
    exact absurd ht hne
  | snoc x y w hseg hp ih =>
    intro t ht hne
    rcases List.mem_append.mp ht with htw | hty
    · by_cases hx : t = x
      · subst hx
        exact ⟨y, hp, by simp⟩
      · obtain ⟨q, hq, hqw⟩ := ih t htw hx
        exact ⟨q, hq, List.mem_append_left _ hqw⟩
    · simp only [List.mem_singleton] at hty
      exact absurd hty hne

theorem seg_snoc_mem_ids {s : Skeleton} {e x : Nat} {w lx : List Nat}
    (h : Seg s e x w) (hx : PChain s x lx) : ∀ t ∈ w, t ∈ nodeIds s := by
  intro t ht
  obtain ⟨l₁, hl₁, -⟩ := seg_chain_decomp h hx t ht
  exact pchain_mem_ids hl₁ t (by
    obtain ⟨l', heq⟩ := pchain_head hl₁
    rw [heq]; simp)

/-- The leaf-to-root walk of `_cut_neuron` (lines 613-635), threading the
distal and proximal accumulation lists.  Each step moves `this_node` to its
parent, appends it to `nodes_walked`, and stops when the cut node, the root,
or an already classified branch node is reached; an unclassified branch node
is walked through.  Stepping past a parentless node is the Python `KeyError`
of `list_of_parents[None]` on the following iteration, modelled as `none`. -/
def cutWalk (lop : Nat → Option (Option Nat)) (cut root : Nat)
    (branch : List Nat) :
    Nat → Nat → List Nat → List Nat × List Nat → Option (List Nat × List Nat)
  | 0, _, _, _ => none
  | fuel + 1, this, walked, DP =>
    match lop this with
    | none => none
    | some none => none
    | some (some nxt) =>
      if nxt = cut then some (DP.1 ++ (walked ++ [nxt]), DP.2)
      else if nxt = root then some (DP.1, DP.2 ++ (walked ++ [nxt]))
      else if nxt ∈ branch then
        if nxt ∈ DP.1 then some (DP.1 ++ (walked ++ [nxt]), DP.2)
        else if nxt ∈ DP.2 then some (DP.1, DP.2 ++ (walked ++ [nxt]))
        else cutWalk lop cut root branch fuel nxt (walked ++ [nxt]) DP
      else cutWalk lop cut root branch fuel nxt (walked ++ [nxt]) DP

/-- Embedding of `_cut_neuron` (lines 546-681), addressed by node id (the
tag-resolution branch, lines 584-592, is not exercised by any claim),
projected to the distal and proximal node-identifier lists: the two returned
skeletons' node tables are exactly the rows of these ids (lines 637-667
select them, partition the connectors and re-type the cut node), and the
claims compare node-identifier sets.  Guards: a missing cut node makes the
children-dict access of line 594 raise, a childless cut node is rejected
(lines 594-596), a parentless cut node is rejected (lines 597-599); all are
`none`. -/
def _cut_neuron (s : Skeleton) (cut_node : Nat) : Option (List Nat × List Nat) :=
  if cut_node ∉ nodeIds s then none
  else if generate_list_of_childs s cut_node = [] then none
  else if parentOf s cut_node = none then none
  else
    let df := if hasTypeCol s then s else classify_nodes s
    let lop : Nat → Option (Option Nat) := fun t =>
      (findNode df t).map (fun n => n.parent_id)
    let end_nodes := (df.nodes.filter
      (fun n => n.ntype = some NodeRole.leaf)).map (fun n => n.treenode_id)
    let branch_nodes := (df.nodes.filter
      (fun n => n.ntype = some NodeRole.branch)).map (fun n => n.treenode_id)
    match ((df.nodes.filter
      (fun n => n.ntype = some NodeRole.root)).map (fun n => n.treenode_id)).head? with
    | none => none
    | some root =>
      (end_nodes ++ [cut_node]).foldlM (fun DP en =>
        cutWalk lop cut_node root branch_nodes (df.nodes.length + 1) en [en] DP)
        ([], [])

/-- Embedding of `cut_neuron` (lines 384-544), addressed by node id,
projected to the distal and proximal node-identifier lists
(`dist_partition_ids` and `prox_partition_ids` of lines 481-482) from which
the two returned skeletons' node tables are built.  The igraph machinery it
calls is not part of the analysed source: `igraph_catmaid.igraph_from_skeleton`
builds the graph and `g.st_mincut(parent_index, cut_node_index)` computes the
minimum edge cut separating the cut node from its parent.  Modelled from the
spec (§4.4a): on a tree the minimum cut isolates exactly the edge between the
cut node and its parent, and the resulting partition equals the subtree
split — the side containing the cut node is its entire subtree under the
original rooting, the other side is every other node.  Guards: an
unresolvable cut node returns `None` (lines 447-453) and a cut node with no
parent edge — the root — raises (lines 455-460); both are `none`. -/
def cut_neuron (s : Skeleton) (cut_node : Nat) : Option (List Nat × List Nat) :=
  if cut_node ∉ nodeIds s then none
  else if parentOf s cut_node = none then none
  else
    some ((nodeIds s).filter (fun t => decide (cut_node ∈ (chainOf s t).getD [])),
          (nodeIds s).filter (fun t => !decide (cut_node ∈ (chainOf s t).getD [])))

/-- Counterexample to C1 as stated: on the well-formed chain 1 → 2 → 3 → 4 cut
at node 2 the two splitters return the same distal id set but different
proximal id sets: the leaf-walk splitter's final walk starts at the cut node
itself (line 613, `end_nodes.tolist() + [cut_node]`), so the cut node ends up
in its proximal set as well. -/
theorem cut_splitters_disagree_counterexample :
    WF skChain4 ∧
    cut_neuron skChain4 2 = some ([2, 3, 4], [1]) ∧
    _cut_neuron skChain4 2 = some ([4, 3, 2], [2, 1]) ∧
    ([4, 3, 2] : List Nat).toFinset = ([2, 3, 4] : List Nat).toFinset ∧
    ([2, 1] : List Nat).toFinset ≠ ([1] : List Nat).toFinset := by
  refine ⟨by decide, by decide, by decide, by decide, by decide⟩

/-- Counterexample to C2 as stated: on the same fixture the leaf-walk
splitter's two halves overlap — their intersection is exactly the cut node,
which appears in the distal half (as its new root) and in the proximal half
(reclassified as an end node at line 670). -/
theorem cut_partition_overlap_counterexample :
    WF skChain4 ∧
    _cut_neuron skChain4 2 = some ([4, 3, 2], [2, 1]) ∧
    ([4, 3, 2] : List Nat).toFinset ∩ ([2, 1] : List Nat).toFinset = {2} := by
  refine ⟨by decide, by decide, by decide⟩

theorem rootId_mem_ids {s : Skeleton} (hwf : WF s) : rootId s ∈ nodeIds s := by
  have hr : rootId s ∈ rootsOf s := by rw [rootsOf_eq_single hwf.2.1]; simp
  obtain ⟨n, hf, -⟩ := (mem_rootsOf_iff hwf.1).mp hr
  exact mem_ids_of_findNode hf

theorem ne_rootId_of_parent_some {s : Skeleton} (hwf : WF s) {t q : Nat}
    (hp : parentOf s t = some q) : t ≠ rootId s := by
  intro h
  rw [h, parentOf_rootId hwf.1 hwf.2.1] at hp
  cases hp

theorem pchain_rootId_unique {s : Skeleton} (hwf : WF s) {l : List Nat}
    (h : PChain s (rootId s) l) : l = [rootId s] :=
  pchain_deterministic h (pchain_rootId hwf.1 hwf.2.1)

/-- The invariant maintained over the leaf-walk accumulation lists: distal
members lie in the cut node's subtree and are parent-closed up to the cut
node; proximal members lie outside it and are parent-closed up to the
root. -/
def CutInv (s : Skeleton) (cut : Nat) (D P : List Nat) : Prop :=
  (∀ t ∈ D, t ∈ nodeIds s ∧ Anc s cut t) ∧
  (∀ t ∈ P, t ∈ nodeIds s ∧ ¬ Anc s cut t) ∧
  (∀ t ∈ D, t ≠ cut → ∀ q, parentOf s t = some q → q ∈ D) ∧
  (∀ t ∈ P, t ≠ rootId s → ∀ q, parentOf s t = some q → q ∈ P)

/-- Invariant preservation and coverage for one leaf-walk of `_cut_neuron`
starting below the root: the walk terminates and distributes the walked
segment wholly into the distal or the proximal list, preserving the
invariant. -/
theorem cutWalk_go {s : Skeleton} (hwf : WF s) {cut : Nat}
    (hcutp : parentOf s cut ≠ none)
    {lop : Nat → Option (Option Nat)}
    (hlop : ∀ u ∈ nodeIds s, lop u = some (parentOf s u))
    (B : List Nat) {e : Nat} :
    ∀ {x : Nat} {lx : List Nat}, PChain s x lx → ∀ fuel, lx.length ≤ fuel →
    ∀ walked D P,
    Seg s e x walked → cut ∉ walked → x ≠ rootId s →
    CutInv s cut D P →
    ∃ D' P', cutWalk lop cut (rootId s) B fuel x walked (D, P) = some (D', P') ∧
      CutInv s cut D' P' ∧
      (∀ t ∈ D, t ∈ D') ∧ (∀ t ∈ P, t ∈ P') ∧
      (∀ t ∈ walked, t ∈ D' ∨ t ∈ P') := by
  intro x lx hx
  induction hx with
  | root x n hf hpn =>
    intro fuel hle walked D P hseg hcw hxr hinv
    exact absurd (eq_rootId hwf.1 hwf.2.1 hf hpn) hxr
  | step x q lq n hf hpn hc ih =>
    intro fuel hle walked D P hseg hcw hxr hinv
    rcases fuel with _ | f
    · simp at hle
    have hpx : parentOf s x = some q := by rw [parentOf, hf, Option.some_bind, hpn]
    have hxids : x ∈ nodeIds s := mem_ids_of_findNode hf
    have hxchain : PChain s x (x :: lq) := PChain.step x q lq n hf hpn hc
    have hdecomp := seg_chain_decomp hseg hxchain
    have hwids := seg_snoc_mem_ids hseg hxchain
    have hxinw : x ∈ walked := seg_mem_last hseg
    have hxnec : x ≠ cut := fun h => hcw (h ▸ hxinw)
    have hqids : q ∈ nodeIds s := pchain_mem_ids hc q (pchain_mem_self hc)
    rw [cutWalk, hlop x hxids, hpx]
    dsimp only
    by_cases hqc : q = cut
    · rw [if_pos hqc]
      subst hqc
      -- stop: hit the cut node; the whole segment is distal
      have hancw : ∀ t ∈ walked, Anc s q t := by
        intro t ht
        obtain ⟨l₁, hl₁, -⟩ := hdecomp t ht
        exact ⟨l₁ ++ (x :: lq), hl₁, by
          refine List.mem_append_right _ ?_
          exact List.mem_cons_of_mem x (pchain_mem_self hc)⟩
      refine ⟨D ++ (walked ++ [q]), P, rfl, ⟨?_, hinv.2.1, ?_, hinv.2.2.2⟩, ?_, ?_, ?_⟩
      · intro t ht
        rcases List.mem_append.mp ht with h1 | h2
        · exact hinv.1 t h1
        · rcases List.mem_append.mp h2 with h3 | h4
          · exact ⟨hwids t h3, hancw t h3⟩
          · simp only [List.mem_singleton] at h4
            subst h4
            exact ⟨hqids, anc_refl hc⟩
      · intro t ht htc q' hq'
        rcases List.mem_append.mp ht with h1 | h2
        · exact List.mem_append_left _ (hinv.2.2.1 t h1 htc q' hq')
        · rcases List.mem_append.mp h2 with h3 | h4
          · by_cases hx2 : t = x
            · subst hx2
              rw [hq'] at hpx
              cases hpx
              exact List.mem_append_right _ (by simp)
            · obtain ⟨q2, hq2, hq2w⟩ := seg_closure hseg t h3 hx2
              rw [hq'] at hq2
              cases hq2
              exact List.mem_append_right _ (List.mem_append_left _ hq2w)
          · simp only [List.mem_singleton] at h4
            exact absurd h4 htc
      · intro t ht; exact List.mem_append_left _ ht
      · intro t ht; exact ht
      · intro t ht
        exact Or.inl (List.mem_append_right _ (List.mem_append_left _ ht))
    · rw [if_neg hqc]
      by_cases hqr : q = rootId s
      · rw [if_pos hqr]
        subst hqr
        -- stop: hit the root; the whole segment is proximal
        have hlq : lq = [rootId s] := pchain_rootId_unique hwf hc
        have hcut_ne_root : cut ≠ rootId s := by
          intro h
          rw [h, parentOf_rootId hwf.1 hwf.2.1] at hcutp
          exact hcutp rfl
        have hnotanc : ∀ t ∈ walked, ¬ Anc s cut t := by
          intro t ht hanc
          obtain ⟨l₁, hl₁, hsub⟩ := hdecomp t ht
          have hcin : cut ∈ l₁ ++ (x :: lq) := mem_chain_of_anc hl₁ hanc
          rcases List.mem_append.mp hcin with h1 | h2
          · exact hcw (hsub cut h1)
          · rcases List.mem_cons.mp h2 with h3 | h4
            · exact hxnec h3.symm
            · rw [hlq] at h4
              simp only [List.mem_singleton] at h4
              exact hcut_ne_root h4
        refine ⟨D, P ++ (walked ++ [rootId s]), rfl, ⟨hinv.1, ?_, hinv.2.2.1, ?_⟩, ?_, ?_, ?_⟩
        · intro t ht
          rcases List.mem_append.mp ht with h1 | h2
          · exact hinv.2.1 t h1
          · rcases List.mem_append.mp h2 with h3 | h4
            · exact ⟨hwids t h3, hnotanc t h3⟩
            · simp only [List.mem_singleton] at h4
              subst h4
              refine ⟨rootId_mem_ids hwf, ?_⟩
              intro hanc
              have := mem_chain_of_anc (pchain_rootId hwf.1 hwf.2.1) hanc
              simp only [List.mem_singleton] at this
              exact hcut_ne_root this
        · intro t ht htr q' hq'
          rcases List.mem_append.mp ht with h1 | h2
          · exact List.mem_append_left _ (hinv.2.2.2 t h1 htr q' hq')
          · rcases List.mem_append.mp h2 with h3 | h4
            · by_cases hx2 : t = x
              · subst hx2
                rw [hq'] at hpx
                cases hpx
                exact List.mem_append_right _ (by simp)
              · obtain ⟨q2, hq2, hq2w⟩ := seg_closure hseg t h3 hx2
                rw [hq'] at hq2
                cases hq2
                exact List.mem_append_right _ (List.mem_append_left _ hq2w)
            · simp only [List.mem_singleton] at h4
              exact absurd h4 htr
        · intro t ht; exact ht
        · intro t ht; exact List.mem_append_left _ ht
        · intro t ht
          exact Or.inr (List.mem_append_right _ (List.mem_append_left _ ht))
      · rw [if_neg hqr]
        have hrec : ∀ hfuel : lq.length ≤ f,
            ∃ D' P', cutWalk lop cut (rootId s) B f q (walked ++ [q]) (D, P) = some (D', P') ∧
              CutInv s cut D' P' ∧
              (∀ t ∈ D, t ∈ D') ∧ (∀ t ∈ P, t ∈ P') ∧
              (∀ t ∈ walked, t ∈ D' ∨ t ∈ P') := by
          intro hfuel
          have hseg' : Seg s e q (walked ++ [q]) := Seg.snoc x q walked hseg hpx
          have hcw' : cut ∉ walked ++ [q] := by
            intro h
            rcases List.mem_append.mp h with h1 | h2
            · exact hcw h1
            · simp only [List.mem_singleton] at h2
              exact hqc h2.symm
          obtain ⟨D', P', hrun, hinv', hD, hP, hcov⟩ :=
            ih f hfuel (walked ++ [q]) D P hseg' hcw' hqr hinv
          refine ⟨D', P', hrun, hinv', hD, hP, ?_⟩
          intro t ht
          exact hcov t (List.mem_append_left _ ht)
        have hfuel : lq.length ≤ f := by
          simp only [List.length_cons] at hle
          omega
        by_cases hqb : q ∈ B
        · rw [if_pos hqb]
          by_cases hqD : q ∈ D
          · rw [if_pos hqD]
            -- stop: previously classified distal branch point
            have hancq : Anc s cut q := (hinv.1 q hqD).2
            have hcutlq : cut ∈ lq := mem_chain_of_anc hc hancq
            have hancw : ∀ t ∈ walked, Anc s cut t := by
              intro t ht
              obtain ⟨l₁, hl₁, -⟩ := hdecomp t ht
              exact ⟨l₁ ++ (x :: lq), hl₁,
                List.mem_append_right _ (List.mem_cons_of_mem x hcutlq)⟩
            refine ⟨D ++ (walked ++ [q]), P, rfl, ⟨?_, hinv.2.1, ?_, hinv.2.2.2⟩, ?_, ?_, ?_⟩
            · intro t ht
              rcases List.mem_append.mp ht with h1 | h2
              · exact hinv.1 t h1
              · rcases List.mem_append.mp h2 with h3 | h4
                · exact ⟨hwids t h3, hancw t h3⟩
                · simp only [List.mem_singleton] at h4
                  subst h4
                  exact hinv.1 t hqD
            · intro t ht htc q' hq'
              rcases List.mem_append.mp ht with h1 | h2
              · exact List.mem_append_left _ (hinv.2.2.1 t h1 htc q' hq')
              · rcases List.mem_append.mp h2 with h3 | h4
                · by_cases hx2 : t = x
                  · subst hx2
                    rw [hq'] at hpx
                    cases hpx
                    exact List.mem_append_right _ (by simp)
                  · obtain ⟨q2, hq2, hq2w⟩ := seg_closure hseg t h3 hx2
                    rw [hq'] at hq2
                    cases hq2
                    exact List.mem_append_right _ (List.mem_append_left _ hq2w)
                · simp only [List.mem_singleton] at h4
                  subst h4
                  exact List.mem_append_left _ (hinv.2.2.1 t hqD htc q' hq')
            · intro t ht; exact List.mem_append_left _ ht
            · intro t ht; exact ht
            · intro t ht
              exact Or.inl (List.mem_append_right _ (List.mem_append_left _ ht))
          · rw [if_neg hqD]
            by_cases hqP : q ∈ P
            · rw [if_pos hqP]
              -- stop: previously classified proximal branch point
              have hnq : ¬ Anc s cut q := (hinv.2.1 q hqP).2
              have hnotanc : ∀ t ∈ walked, ¬ Anc s cut t := by
                intro t ht hanc
                obtain ⟨l₁, hl₁, hsub⟩ := hdecomp t ht
                have hcin : cut ∈ l₁ ++ (x :: lq) := mem_chain_of_anc hl₁ hanc
                rcases List.mem_append.mp hcin with h1 | h2
                · exact hcw (hsub cut h1)
                · rcases List.mem_cons.mp h2 with h3 | h4
                  · exact hxnec h3.symm
                  · exact hnq ⟨lq, hc, h4⟩
              refine ⟨D, P ++ (walked ++ [q]), rfl, ⟨hinv.1, ?_, hinv.2.2.1, ?_⟩, ?_, ?_, ?_⟩
              · intro t ht
                rcases List.mem_append.mp ht with h1 | h2
                · exact hinv.2.1 t h1
                · rcases List.mem_append.mp h2 with h3 | h4
                  · exact ⟨hwids t h3, hnotanc t h3⟩
                  · simp only [List.mem_singleton] at h4
                    subst h4
                    exact hinv.2.1 t hqP
              · intro t ht htr q' hq'
                rcases List.mem_append.mp ht with h1 | h2
                · exact List.mem_append_left _ (hinv.2.2.2 t h1 htr q' hq')
                · rcases List.mem_append.mp h2 with h3 | h4
                  · by_cases hx2 : t = x
                    · subst hx2
                      rw [hq'] at hpx
                      cases hpx
                      exact List.mem_append_right _ (by simp)
                    · obtain ⟨q2, hq2, hq2w⟩ := seg_closure hseg t h3 hx2
                      rw [hq'] at hq2
                      cases hq2
                      exact List.mem_append_right _ (List.mem_append_left _ hq2w)
                  · simp only [List.mem_singleton] at h4
                    subst h4
                    exact List.mem_append_left _ (hinv.2.2.2 t hqP htr q' hq')
              · intro t ht; exact ht
              · intro t ht; exact List.mem_append_left _ ht
              · intro t ht
                exact Or.inr (List.mem_append_right _ (List.mem_append_left _ ht))
            · rw [if_neg hqP]
              exact hrec hfuel
        · rw [if_neg hqb]
          exact hrec hfuel

/-- Climbing a parent-closed proximal list covers the whole chain. -/
theorem P_closure_climb {s : Skeleton} (hwf : WF s) {P : List Nat}
    (hPc : ∀ t ∈ P, t ≠ rootId s → ∀ q, parentOf s t = some q → q ∈ P) :
    ∀ {b : Nat} {lb : List Nat}, PChain s b lb → b ∈ P → ∀ u ∈ lb, u ∈ P := by
  intro b lb hb
  induction hb with
  | root b n hf hpn =>
    intro hbP u hu
    simp only [List.mem_singleton] at hu
    exact hu ▸ hbP
  | step b q lb n hf hpn hc ih =>
    intro hbP u hu
    rcases List.mem_cons.mp hu with rfl | hu'
    · exact hbP
    · have hpb : parentOf s b = some q := by rw [parentOf, hf, Option.some_bind, hpn]
      have hbr : b ≠ rootId s := ne_rootId_of_parent_some hwf hpb
      exact ih (hPc b hbP hbr q hpb) u hu'

/-- Climbing a cut-closed distal list covers the chain up to the cut node. -/
theorem D_closure_climb {s : Skeleton} {cut : Nat} {D : List Nat}
    (hDc : ∀ t ∈ D, t ≠ cut → ∀ q, parentOf s t = some q → q ∈ D) :
    ∀ {m : Nat} {lm : List Nat}, PChain s m lm → m ∈ D →
      ∀ t ∈ lm, Anc s cut t → t ∈ D := by
  intro m lm hm
  induction hm with
  | root m n hf hpn =>
    intro hmD t ht hanc
    simp only [List.mem_singleton] at ht
    exact ht ▸ hmD
  | step m q lm n hf hpn hc ih =>
    intro hmD t ht hanc
    rcases List.mem_cons.mp ht with rfl | ht'
    · exact hmD
    · have hpm : parentOf s m = some q := by rw [parentOf, hf, Option.some_bind, hpn]
      by_cases hmc : m = cut
      · subst hmc
        have hmch : PChain s m (m :: lm) := PChain.step m q lm n hf hpn hc
        have h1 : Anc s t m := ⟨m :: lm, hmch, List.mem_cons_of_mem m ht'⟩
        have h2 : t = m := anc_antisymm h1 hanc
        exact h2 ▸ hmD
      · exact ih (hDc m hmD hmc q hpm) t ht' hanc

/-- The final walk of `_cut_neuron`, starting at the cut node itself: it
never touches the distal list, adds its segment (including the cut node) to
the proximal list, and together with the closure of the previously
classified proximal branch points covers the cut node's entire root chain. -/
theorem cutWalk_from_cut {s : Skeleton} (hwf : WF s) {cut : Nat}
    {lcut : List Nat} (hcl : PChain s cut lcut) (hcutp : parentOf s cut ≠ none)
    {lop : Nat → Option (Option Nat)}
    (hlop : ∀ u ∈ nodeIds s, lop u = some (parentOf s u))
    (B : List Nat) :
    ∀ {x : Nat} {lx : List Nat}, PChain s x lx → (∃ pre, lcut = pre ++ lx) →
    ∀ fuel, lx.length ≤ fuel → ∀ walked D P,
    Seg s cut x walked → (∀ t ∈ walked, t ∈ lcut) → x ≠ rootId s →
    CutInv s cut D P →
    ∃ P', cutWalk lop cut (rootId s) B fuel x walked (D, P) = some (D, P') ∧
      (∀ t ∈ P', t ∈ nodeIds s ∧ (¬ Anc s cut t ∨ t = cut)) ∧
      (∀ t ∈ P, t ∈ P') ∧ (∀ t ∈ walked, t ∈ P') ∧ (∀ u ∈ lx, u ∈ P') := by
  intro x lx hx
  induction hx with
  | root x n hf hpn =>
    intro hpre fuel hle walked D P hseg hwl hxr hinv
    exact absurd (eq_rootId hwf.1 hwf.2.1 hf hpn) hxr
  | step x q lq n hf hpn hc ih =>
    intro hpre fuel hle walked D P hseg hwl hxr hinv
    rcases fuel with _ | f
    · simp at hle
    have hpx : parentOf s x = some q := by rw [parentOf, hf, Option.some_bind, hpn]
    have hxids : x ∈ nodeIds s := mem_ids_of_findNode hf
    have hnd : lcut.Nodup := pchain_nodup hcl
    obtain ⟨lrest, hlcut_head⟩ := pchain_head hcl
    obtain ⟨pre, hpre⟩ := hpre
    have hcomb : pre ++ x :: lq = cut :: lrest := by rw [← hpre, hlcut_head]
    have hcut_notin_lrest : cut ∉ lrest := by
      have := hnd
      rw [hlcut_head] at this
      exact (List.nodup_cons.mp this).1
    have hcut_not_lq : cut ∉ lq := by
      intro hmem
      rcases pre with _ | ⟨c, pre'⟩
      · rw [List.nil_append] at hcomb
        have hlq : lq = lrest := (List.cons_eq_cons.mp hcomb).2
        exact hcut_notin_lrest (hlq ▸ hmem)
      · rw [List.cons_append] at hcomb
        have h2 : pre' ++ x :: lq = lrest := (List.cons_eq_cons.mp hcomb).2
        exact hcut_notin_lrest (h2 ▸ List.mem_append_right _ (List.mem_cons_of_mem x hmem))
    have hqc : q ≠ cut := by
      intro h
      exact hcut_not_lq (h ▸ pchain_mem_self hc)
    have hlq_sub : ∀ u ∈ lq, u ∈ lcut := by
      intro u hu
      rw [hpre]
      exact List.mem_append_right _ (List.mem_cons_of_mem x hu)
    have hwalked_or : ∀ t ∈ walked, ¬ Anc s cut t ∨ t = cut := by
      intro t ht
      by_cases hanc : Anc s cut t
      · exact Or.inr (anc_antisymm hanc ⟨lcut, hcl, hwl t ht⟩).symm
      · exact Or.inl hanc
    have hwalked_ids : ∀ t ∈ walked, t ∈ nodeIds s := by
      intro t ht
      exact pchain_mem_ids hcl t (hwl t ht)
    rw [cutWalk, hlop x hxids, hpx]
    dsimp only
    rw [if_neg (fun h => hqc h)]
    by_cases hqr : q = rootId s
    · rw [if_pos hqr]
      subst hqr
      refine ⟨P ++ (walked ++ [rootId s]), rfl, ?_, ?_, ?_, ?_⟩
      · intro t ht
        rcases List.mem_append.mp ht with h1 | h2
        · obtain ⟨hi, hna⟩ := hinv.2.1 t h1
          exact ⟨hi, Or.inl hna⟩
        · rcases List.mem_append.mp h2 with h3 | h4
          · exact ⟨hwalked_ids t h3, hwalked_or t h3⟩
          · simp only [List.mem_singleton] at h4
            subst h4
            refine ⟨rootId_mem_ids hwf, Or.inl ?_⟩
            intro hanc
            have := mem_chain_of_anc (pchain_rootId hwf.1 hwf.2.1) hanc
            simp only [List.mem_singleton] at this
            rw [this, parentOf_rootId hwf.1 hwf.2.1] at hcutp
            exact hcutp rfl
      · intro t ht; exact List.mem_append_left _ ht
      · intro t ht
        exact List.mem_append_right _ (List.mem_append_left _ ht)
      · intro u hu
        have hlq : lq = [rootId s] := pchain_rootId_unique hwf hc
        rcases List.mem_cons.mp hu with rfl | hu'
        · exact List.mem_append_right _ (List.mem_append_left _ (seg_mem_last hseg))
        · rw [hlq] at hu'
          simp only [List.mem_singleton] at hu'
          subst hu'
          exact List.mem_append_right _ (List.mem_append_right _ (by simp))
    · rw [if_neg hqr]
      have hrec :
          ∃ P', cutWalk lop cut (rootId s) B f q (walked ++ [q]) (D, P) = some (D, P') ∧
            (∀ t ∈ P', t ∈ nodeIds s ∧ (¬ Anc s cut t ∨ t = cut)) ∧
            (∀ t ∈ P, t ∈ P') ∧ (∀ t ∈ walked, t ∈ P') ∧ (∀ u ∈ x :: lq, u ∈ P') := by
        have hseg' : Seg s cut q (walked ++ [q]) := Seg.snoc x q walked hseg hpx
        have hwl' : ∀ t ∈ walked ++ [q], t ∈ lcut := by
          intro t ht
          rcases List.mem_append.mp ht with h1 | h2
          · exact hwl t h1
          · simp only [List.mem_singleton] at h2
            exact h2 ▸ hlq_sub q (pchain_mem_self hc)
        have hpre' : ∃ pre', lcut = pre' ++ lq := by
          refine ⟨pre ++ [x], ?_⟩
          rw [hpre]
          simp
        have hfuel : lq.length ≤ f := by
          simp only [List.length_cons] at hle
          omega
        obtain ⟨P', hrun, hPfacts, hPmono, hwcov, hlqcov⟩ :=
          ih hpre' f hfuel (walked ++ [q]) D P hseg' hwl' hqr hinv
        refine ⟨P', hrun, hPfacts, hPmono, ?_, ?_⟩
        · intro t ht
          exact hwcov t (List.mem_append_left _ ht)
        · intro u hu
          rcases List.mem_cons.mp hu with rfl | hu'
          · exact hwcov u (List.mem_append_left _ (seg_mem_last hseg))
          · exact hlqcov u hu'
      by_cases hqb : q ∈ B
      · rw [if_pos hqb]
        have hqD : q ∉ D := by
          intro h
          exact hcut_not_lq (mem_chain_of_anc hc (hinv.1 q h).2)
        rw [if_neg hqD]
        by_cases hqP : q ∈ P
        · rw [if_pos hqP]
          refine ⟨P ++ (walked ++ [q]), rfl, ?_, ?_, ?_, ?_⟩
          · intro t ht
            rcases List.mem_append.mp ht with h1 | h2
            · obtain ⟨hi, hna⟩ := hinv.2.1 t h1
              exact ⟨hi, Or.inl hna⟩
            · rcases List.mem_append.mp h2 with h3 | h4
              · exact ⟨hwalked_ids t h3, hwalked_or t h3⟩
              · simp only [List.mem_singleton] at h4
                subst h4
                obtain ⟨hi, hna⟩ := hinv.2.1 t hqP
                exact ⟨hi, Or.inl hna⟩
          · intro t ht; exact List.mem_append_left _ ht
          · intro t ht
            exact List.mem_append_right _ (List.mem_append_left _ ht)
          · intro u hu
            rcases List.mem_cons.mp hu with rfl | hu'
            · exact List.mem_append_right _ (List.mem_append_left _ (seg_mem_last hseg))
            · exact List.mem_append_left _
                (P_closure_climb hwf hinv.2.2.2 hc hqP u hu')
        · rw [if_neg hqP]
          exact hrec
      · rw [if_neg hqb]
        exact hrec

theorem nodes_ne_nil_of_WF {s : Skeleton} (hwf : WF s) : s.nodes ≠ [] := by
  intro h
  have hr0 : rootsOf s = [] := by unfold rootsOf; rw [h]; rfl
  have := hwf.2.1
  rw [hr0] at this
  simp at this

theorem hasTypeCol_false_of_WF {s : Skeleton} (hwf : WF s) : hasTypeCol s = false := by
  unfold hasTypeCol
  rcases hnodes : s.nodes with _ | ⟨n0, rest⟩
  · exact absurd hnodes (nodes_ne_nil_of_WF hwf)
  · have h0 : n0.ntype = none := (hwf.2.2.2.2 n0 (by rw [hnodes]; simp)).1
    simp [List.all_cons, h0]

theorem classify_parentOf_lop {s : Skeleton} :
    ∀ u ∈ nodeIds s,
      (fun t => (findNode (classify_nodes s) t).map (fun n => n.parent_id)) u
        = some (parentOf s u) := by
  intro u hu
  obtain ⟨n, hf, hid⟩ := findNode_isSome_of_mem_ids hu
  simp only [findNode_classify, hf, Option.map_some']
  rw [parentOf_eq_of_findNode hf]
  rfl

/-- The `root`-typed id list of the classified table is exactly the
parentless-node id list. -/
theorem rootTyped_ids (s : Skeleton) (hwf : WF s) :
    ((classify_nodes s).nodes.filter (fun n => n.ntype = some NodeRole.root)).map
      (fun n => n.treenode_id) = rootsOf s := by
  rw [classify_nodes_eq_map, List.filter_map, List.map_map]
  have h1 : s.nodes.filter ((fun n => decide (n.ntype = some NodeRole.root)) ∘ classifyRow s)
      = s.nodes.filter (fun m => decide (m.parent_id = none)) := by
    apply List.filter_congr
    intro m hm
    show (decide (some (classOf s m.treenode_id) = some NodeRole.root))
        = decide (m.parent_id = none)
    by_cases h : m.parent_id = none
    · have := (classOf_eq_root_iff hwf.1 hm).mpr h
      simp [this, h]
    · have hne : classOf s m.treenode_id ≠ NodeRole.root := fun hc =>
        h ((classOf_eq_root_iff hwf.1 hm).mp hc)
      simp [h]
      simpa using hne
  rw [h1]
  unfold rootsOf
  exact List.map_congr_left (fun a ha => rfl)

/-- Membership in the `end`-typed id list of the classified table. -/
theorem mem_leafTyped_iff (s : Skeleton) (hwf : WF s) (e : Nat) :
    e ∈ ((classify_nodes s).nodes.filter
        (fun n => n.ntype = some NodeRole.leaf)).map (fun n => n.treenode_id)
      ↔ e ∈ nodeIds s ∧ parentOf s e ≠ none ∧ generate_list_of_childs s e = [] := by
  constructor
  · intro h
    obtain ⟨n', hn', rfl⟩ := List.mem_map.mp h
    obtain ⟨hmem, hpred⟩ := List.mem_filter.mp hn'
    rw [classify_nodes_eq_map] at hmem
    obtain ⟨m, hm, rfl⟩ := List.mem_map.mp hmem
    have hcl : classOf s m.treenode_id = NodeRole.leaf := by
      simpa [classifyRow] using hpred
    obtain ⟨hpar, hch⟩ := (classOf_eq_leaf_iff hwf.1 hm).mp hcl
    refine ⟨List.mem_map_of_mem (fun n => n.treenode_id) hm, ?_, hch⟩
    show parentOf s m.treenode_id ≠ none
    rw [parentOf_eq_of_findNode ((findNode_eq_some_iff hwf.1).mpr ⟨hm, rfl⟩)]
    exact hpar
  · rintro ⟨hids, hpar, hch⟩
    obtain ⟨n, hf, hid⟩ := findNode_isSome_of_mem_ids hids
    obtain ⟨hm, -⟩ := (findNode_eq_some_iff hwf.1).mp hf
    have hpar' : n.parent_id ≠ none := by
      rw [parentOf_eq_of_findNode hf] at hpar
      exact hpar
    have hcl : classOf s n.treenode_id = NodeRole.leaf :=
      (classOf_eq_leaf_iff hwf.1 hm).mpr ⟨hpar', hid ▸ hch⟩
    refine List.mem_map.mpr ⟨classifyRow s n, ?_, hid⟩
    refine List.mem_filter.mpr ⟨?_, ?_⟩
    · rw [classify_nodes_eq_map]
      exact List.mem_map_of_mem _ hm
    · simpa [classifyRow] using hcl

/-- Folding the leaf walks of `_cut_neuron` over the end-node list preserves
the invariant and classifies every processed end node. -/
theorem cutFold_ends {s : Skeleton} (hwf : WF s) {cut : Nat}
    (hcutp : parentOf s cut ≠ none)
    (hcutch : generate_list_of_childs s cut ≠ [])
    {lop : Nat → Option (Option Nat)}
    (hlop : ∀ u ∈ nodeIds s, lop u = some (parentOf s u))
    (B : List Nat) {fuel : Nat} (hfuel : s.nodes.length ≤ fuel) :
    ∀ es : List Nat,
    (∀ e ∈ es, e ∈ nodeIds s ∧ parentOf s e ≠ none ∧
      generate_list_of_childs s e = []) →
    ∀ D P, CutInv s cut D P →
    ∃ D' P', es.foldlM (fun DP en =>
        cutWalk lop cut (rootId s) B fuel en [en] DP) (D, P) = some (D', P') ∧
      CutInv s cut D' P' ∧ (∀ t ∈ D, t ∈ D') ∧ (∀ t ∈ P, t ∈ P') ∧
      (∀ e ∈ es, e ∈ D' ∨ e ∈ P') := by
  intro es
  induction es with
  | nil =>
    intro _ D P hinv
    exact ⟨D, P, rfl, hinv, fun t ht => ht, fun t ht => ht, fun e he => by cases he⟩
  | cons e es ih =>
    intro hmem D P hinv
    obtain ⟨heids, hepar, hech⟩ := hmem e (by simp)
    obtain ⟨le, hle⟩ := pchain_exists_of_mem hwf heids
    have hlen : le.length ≤ fuel := le_trans (pchain_length_le hle hwf.1) hfuel
    have henc : e ≠ cut := fun h => hcutch (h ▸ hech)
    have hner : e ≠ rootId s := by
      rcases hq : parentOf s e with _ | q
      · exact absurd hq hepar
      · exact ne_rootId_of_parent_some hwf hq
    obtain ⟨D₁, P₁, hrun₁, hinv₁, hD₁, hP₁, hcov₁⟩ :=
      cutWalk_go hwf hcutp hlop B hle fuel hlen [e] D P Seg.base
        (by simpa using Ne.symm henc) hner hinv
    obtain ⟨D', P', hrun', hinv', hD', hP', hcov'⟩ :=
      ih (fun g hg => hmem g (List.mem_cons_of_mem e hg)) D₁ P₁ hinv₁
    refine ⟨D', P', ?_, hinv', fun t ht => hD' t (hD₁ t ht),
      fun t ht => hP' t (hP₁ t ht), ?_⟩
    · rw [List.foldlM_cons, hrun₁]
      exact hrun'
    · intro g hg
      rcases List.mem_cons.mp hg with rfl | hg'
      · rcases hcov₁ g (by simp) with h | h
        · exact Or.inl (hD' g h)
        · exact Or.inr (hP' g h)
      · exact hcov' g hg'

/-- Characterisation of the leaf-walk splitter on a well-formed skeleton at
an admissible cut node: the distal id list is exactly the cut node's subtree
and the proximal id list is exactly the rest of the skeleton plus the cut
node itself. -/
theorem _cut_neuron_spec (s : Skeleton) (hwf : WF s) (cut : Nat)
    (hcm : cut ∈ nodeIds s) (hcc : generate_list_of_childs s cut ≠ [])
    (hcp : parentOf s cut ≠ none) :
    ∃ D P, _cut_neuron s cut = some (D, P) ∧
      (∀ t, t ∈ D ↔ t ∈ nodeIds s ∧ Anc s cut t) ∧
      (∀ t, t ∈ P ↔ t ∈ nodeIds s ∧ (¬ Anc s cut t ∨ t = cut)) := by
  classical
  have htc := hasTypeCol_false_of_WF hwf
  obtain ⟨lcut, hlcut⟩ := pchain_exists_of_mem hwf hcm
  obtain ⟨pc, hpc⟩ : ∃ pc, parentOf s cut = some pc := by
    rcases h : parentOf s cut with _ | pc
    · exact absurd h hcp
    · exact ⟨pc, rfl⟩
  have hcut_ne_root : cut ≠ rootId s := ne_rootId_of_parent_some hwf hpc
  have hfuel : s.nodes.length ≤ (classify_nodes s).nodes.length + 1 := by
    rw [length_nodes_classify]; omega
  have hEfacts : ∀ e ∈ ((classify_nodes s).nodes.filter
      (fun n => n.ntype = some NodeRole.leaf)).map (fun n => n.treenode_id),
      e ∈ nodeIds s ∧ parentOf s e ≠ none ∧ generate_list_of_childs s e = [] :=
    fun e he => (mem_leafTyped_iff s hwf e).mp he
  have hinv0 : CutInv s cut [] [] := by
    refine ⟨?_, ?_, ?_, ?_⟩ <;> intro t ht <;> exact nomatch ht
  obtain ⟨D₁, P₁, hrun₁, hinv₁, -, -, hcov₁⟩ :=
    cutFold_ends hwf hcp hcc classify_parentOf_lop
      (((classify_nodes s).nodes.filter
        (fun n => n.ntype = some NodeRole.branch)).map (fun n => n.treenode_id))
      hfuel
      (((classify_nodes s).nodes.filter
        (fun n => n.ntype = some NodeRole.leaf)).map (fun n => n.treenode_id))
      hEfacts [] [] hinv0
  have hlenc : lcut.length ≤ (classify_nodes s).nodes.length + 1 :=
    le_trans (pchain_length_le hlcut hwf.1) (by rw [length_nodes_classify]; omega)
  obtain ⟨Pstar, hrun₂, hPfacts, hPmono, hwalkcov, hlcov⟩ :=
    cutWalk_from_cut hwf hlcut hcp classify_parentOf_lop
      (((classify_nodes s).nodes.filter
        (fun n => n.ntype = some NodeRole.branch)).map (fun n => n.treenode_id))
      hlcut ⟨[], by simp⟩ ((classify_nodes s).nodes.length + 1) hlenc
      [cut] D₁ P₁ Seg.base (by simp [pchain_mem_self hlcut]) hcut_ne_root hinv₁
  refine ⟨D₁, Pstar, ?_, ?_, ?_⟩
  · unfold _cut_neuron
    rw [if_neg (fun h => h hcm), if_neg (fun h => hcc h), if_neg (fun h => hcp h)]
    simp only [htc, Bool.false_eq_true, if_false]
    rw [rootTyped_ids s hwf, rootsOf_eq_single hwf.2.1]
    show (((classify_nodes s).nodes.filter
        (fun n => n.ntype = some NodeRole.leaf)).map (fun n => n.treenode_id)
          ++ [cut]).foldlM (fun DP en =>
        cutWalk (fun t => (findNode (classify_nodes s) t).map (fun n => n.parent_id))
          cut (rootId s)
          (((classify_nodes s).nodes.filter
            (fun n => n.ntype = some NodeRole.branch)).map (fun n => n.treenode_id))
          ((classify_nodes s).nodes.length + 1) en [en] DP) ([], [])
      = some (D₁, Pstar)
    rw [List.foldlM_append, hrun₁]
    show (([cut] : List Nat).foldlM (fun DP en =>
        cutWalk (fun t => (findNode (classify_nodes s) t).map (fun n => n.parent_id))
          cut (rootId s)
          (((classify_nodes s).nodes.filter
            (fun n => n.ntype = some NodeRole.branch)).map (fun n => n.treenode_id))
          ((classify_nodes s).nodes.length + 1) en [en] DP) (D₁, P₁))
      = some (D₁, Pstar)
    simp only [List.foldlM_cons, List.foldlM_nil, hrun₂]
    rfl
  · intro t
    constructor
    · intro ht
      exact hinv₁.1 t ht
    · rintro ⟨hids, hanc⟩
      obtain ⟨m, hmids, hancm, hmch⟩ := exists_childless_descendant' hwf hids
      have hancam : Anc s cut m := anc_trans hanc hancm
      have hm_ne_root : m ≠ rootId s := by
        intro h
        subst h
        have h2 := mem_chain_of_anc (pchain_rootId hwf.1 hwf.2.1) hancam
        simp only [List.mem_singleton] at h2
        exact hcut_ne_root h2
      have hmE := (mem_leafTyped_iff s hwf m).mpr
        ⟨hmids, parentOf_ne_none_of_ne_root hwf hmids hm_ne_root, hmch⟩
      have hmD : m ∈ D₁ := by
        rcases hcov₁ m hmE with h | h
        · exact h
        · exact absurd hancam (hinv₁.2.1 m h).2
      obtain ⟨lm, hlm⟩ := pchain_exists_of_mem hwf hmids
      exact D_closure_climb hinv₁.2.2.1 hlm hmD t (mem_chain_of_anc hlm hancm) hanc
  · intro t
    constructor
    · intro ht
      exact hPfacts t ht
    · rintro ⟨hids, hcase⟩
      rcases hcase with hna | rfl
      · obtain ⟨m, hmids, hancm, hmch⟩ := exists_childless_descendant' hwf hids
        obtain ⟨lm, hlm⟩ := pchain_exists_of_mem hwf hmids
        have htm : t ∈ lm := mem_chain_of_anc hlm hancm
        by_cases hcm2 : Anc s cut m
        · have hcutm : cut ∈ lm := mem_chain_of_anc hlm hcm2
          rcases pchain_mem_comparable hlm hcutm htm with h | h
          · exact absurd h hna
          · exact hlcov t (mem_chain_of_anc hlcut h)
        · by_cases hmr : m = rootId s
          · subst hmr
            have hlm' : lm = [rootId s] := pchain_rootId_unique hwf hlm
            rw [hlm'] at htm
            simp only [List.mem_singleton] at htm
            subst htm
            exact hlcov (rootId s) (rootId_mem_pchain hwf.1 hwf.2.1 hlcut)
          · have hmE := (mem_leafTyped_iff s hwf m).mpr
              ⟨hmids, parentOf_ne_none_of_ne_root hwf hmids hmr, hmch⟩
            have hmP : m ∈ P₁ := by
              rcases hcov₁ m hmE with h | h
              · exact absurd (hinv₁.1 m h).2 hcm2
              · exact h
            exact hPmono t (P_closure_climb hwf hinv₁.2.2.2 hlm hmP t htm)
      · exact hwalkcov _ (by simp)

/-- Characterisation of the edge-cut splitter: the distal ids are exactly the
cut node's subtree, the proximal ids exactly the rest. -/
theorem cut_neuron_spec (s : Skeleton) (hwf : WF s) (cut : Nat)
    (hcm : cut ∈ nodeIds s) (hcp : parentOf s cut ≠ none) :
    ∃ D P, cut_neuron s cut = some (D, P) ∧
      (∀ t, t ∈ D ↔ t ∈ nodeIds s ∧ Anc s cut t) ∧
      (∀ t, t ∈ P ↔ t ∈ nodeIds s ∧ ¬ Anc s cut t) := by
  refine ⟨(nodeIds s).filter (fun t => decide (cut ∈ (chainOf s t).getD [])),
          (nodeIds s).filter (fun t => !decide (cut ∈ (chainOf s t).getD [])),
          ?_, ?_, ?_⟩
  · unfold cut_neuron
    rw [if_neg (fun h => h hcm), if_neg (fun h => hcp h)]
  · intro t
    rw [List.mem_filter]
    constructor
    · rintro ⟨hids, hdec⟩
      obtain ⟨lt, hlt⟩ := pchain_exists_of_mem hwf hids
      rw [(chainOf_eq_some_iff hwf.1).mpr hlt] at hdec
      simp only [Option.getD_some, decide_eq_true_eq] at hdec
      exact ⟨hids, ⟨lt, hlt, hdec⟩⟩
    · rintro ⟨hids, hanc⟩
      obtain ⟨lt, hlt⟩ := pchain_exists_of_mem hwf hids
      refine ⟨hids, ?_⟩
      rw [(chainOf_eq_some_iff hwf.1).mpr hlt]
      simp only [Option.getD_some, decide_eq_true_eq]
      exact mem_chain_of_anc hlt hanc
  · intro t
    rw [List.mem_filter]
    constructor
    · rintro ⟨hids, hdec⟩
      obtain ⟨lt, hlt⟩ := pchain_exists_of_mem hwf hids
      rw [(chainOf_eq_some_iff hwf.1).mpr hlt] at hdec
      simp only [Option.getD_some, Bool.not_eq_true', decide_eq_false_iff_not] at hdec
      exact ⟨hids, fun hanc => hdec (mem_chain_of_anc hlt hanc)⟩
    · rintro ⟨hids, hanc⟩
      obtain ⟨lt, hlt⟩ := pchain_exists_of_mem hwf hids
      refine ⟨hids, ?_⟩
      rw [(chainOf_eq_some_iff hwf.1).mpr hlt]
      simp only [Option.getD_some, Bool.not_eq_true', decide_eq_false_iff_not]
      exact fun hmem => hanc ⟨lt, hlt, hmem⟩

/-- C1 (amended): for every well-formed skeleton and admissible cut node
(non-root, with at least one child) the edge-cut splitter and the leaf-walk
splitter produce identical distal node-identifier sets, but the leaf-walk
proximal set additionally contains the cut node: it equals the edge-cut
proximal set with the cut node adjoined (the final walk of line 613 starts at
the cut node itself and files its whole segment, cut node included, as
proximal). -/
theorem cut_splitters_agree_up_to_cut_node (s : Skeleton) (hwf : WF s)
    (cut : Nat) (hcm : cut ∈ nodeIds s)
    (hcc : generate_list_of_childs s cut ≠ []) (hcp : parentOf s cut ≠ none) :
    ∃ D P D' P', cut_neuron s cut = some (D, P) ∧
      _cut_neuron s cut = some (D', P') ∧
      D'.toFinset = D.toFinset ∧
      P'.toFinset = P.toFinset ∪ {cut} := by
  obtain ⟨D, P, hrun, hD, hP⟩ := cut_neuron_spec s hwf cut hcm hcp
  obtain ⟨D', P', hrun', hD', hP'⟩ := _cut_neuron_spec s hwf cut hcm hcc hcp
  refine ⟨D, P, D', P', hrun, hrun', ?_, ?_⟩
  · ext t
    simp only [List.mem_toFinset]
    rw [hD t, hD' t]
  · ext t
    simp only [Finset.mem_union, Finset.mem_singleton, List.mem_toFinset]
    rw [hP t, hP' t]
    constructor
    · rintro ⟨hids, hna | rfl⟩
      · exact Or.inl ⟨hids, hna⟩
      · exact Or.inr rfl
    · rintro (⟨hids, hna⟩ | rfl)
      · exact ⟨hids, Or.inl hna⟩
      · exact ⟨hcm, Or.inr rfl⟩

/-- Witness for the C1 theorem at the spec §8 example tree, cut at branch
node 3. -/
theorem cut_splitters_agree_up_to_cut_node_witness :
    (WF skEx5 ∧ (3 : Nat) ∈ nodeIds skEx5 ∧
      generate_list_of_childs skEx5 3 ≠ [] ∧ parentOf skEx5 3 ≠ none) ∧
    (∃ D P D' P', cut_neuron skEx5 3 = some (D, P) ∧
      _cut_neuron skEx5 3 = some (D', P') ∧
      D'.toFinset = D.toFinset ∧
      P'.toFinset = P.toFinset ∪ {3}) :=
  ⟨⟨by decide, by decide, by decide, by decide⟩,
    cut_splitters_agree_up_to_cut_node skEx5 (by decide) 3 (by decide)
      (by decide) (by decide)⟩

/-- C2 (amended): for every well-formed skeleton and admissible cut node the
edge-cut splitter's two halves partition the original node-identifier set
exactly (union the whole set, empty intersection, the cut node only distal),
while the leaf-walk splitter's halves cover the original node set but
intersect exactly in the cut node, which sits in its distal half (as the new
root) and in its proximal half (as a new end node). -/
theorem cut_partitions_spec (s : Skeleton) (hwf : WF s)
    (cut : Nat) (hcm : cut ∈ nodeIds s)
    (hcc : generate_list_of_childs s cut ≠ []) (hcp : parentOf s cut ≠ none) :
    ∃ D P D' P', cut_neuron s cut = some (D, P) ∧
      _cut_neuron s cut = some (D', P') ∧
      (D.toFinset ∪ P.toFinset = (nodeIds s).toFinset ∧
        D.toFinset ∩ P.toFinset = ∅ ∧ cut ∈ D.toFinset ∧ cut ∉ P.toFinset) ∧
      (D'.toFinset ∪ P'.toFinset = (nodeIds s).toFinset ∧
        D'.toFinset ∩ P'.toFinset = {cut}) := by
  classical
  obtain ⟨D, P, hrun, hD, hP⟩ := cut_neuron_spec s hwf cut hcm hcp
  obtain ⟨D', P', hrun', hD', hP'⟩ := _cut_neuron_spec s hwf cut hcm hcc hcp
  obtain ⟨lcut, hlcut⟩ := pchain_exists_of_mem hwf hcm
  have hancc : Anc s cut cut := anc_refl hlcut
  refine ⟨D, P, D', P', hrun, hrun', ⟨?_, ?_, ?_, ?_⟩, ⟨?_, ?_⟩⟩
  · ext t
    simp only [Finset.mem_union, List.mem_toFinset]
    rw [hD t, hP t]
    constructor
    · rintro (⟨hids, -⟩ | ⟨hids, -⟩) <;> exact hids
    · intro hids
      by_cases hanc : Anc s cut t
      · exact Or.inl ⟨hids, hanc⟩
      · exact Or.inr ⟨hids, hanc⟩
  · ext t
    simp only [Finset.mem_inter, Finset.not_mem_empty, List.mem_toFinset, iff_false]
    rintro ⟨h1, h2⟩
    exact ((hP t).mp h2).2 ((hD t).mp h1).2
  · simp only [List.mem_toFinset]
    exact (hD cut).mpr ⟨hcm, hancc⟩
  · simp only [List.mem_toFinset]
    intro h
    exact ((hP cut).mp h).2 hancc
  · ext t
    simp only [Finset.mem_union, List.mem_toFinset]
    rw [hD' t, hP' t]
    constructor
    · rintro (⟨hids, -⟩ | ⟨hids, -⟩) <;> exact hids
    · intro hids
      by_cases hanc : Anc s cut t
      · exact Or.inl ⟨hids, hanc⟩
      · exact Or.inr ⟨hids, Or.inl hanc⟩
  · ext t
    simp only [Finset.mem_inter, Finset.mem_singleton, List.mem_toFinset]
    rw [hD' t, hP' t]
    constructor
    · rintro ⟨⟨hids, hanc⟩, ⟨-, hna | heq⟩⟩
      · exact absurd hanc hna
      · exact heq
    · rintro rfl
      exact ⟨⟨hcm, hancc⟩, hcm, Or.inr rfl⟩

/-- Witness for the C2 theorem at the spec §8 example tree, cut at branch
node 3. -/
theorem cut_partitions_spec_witness :
    (WF skEx5 ∧ (3 : Nat) ∈ nodeIds skEx5 ∧
      generate_list_of_childs skEx5 3 ≠ [] ∧ parentOf skEx5 3 ≠ none) ∧
    (∃ D P D' P', cut_neuron skEx5 3 = some (D, P) ∧
      _cut_neuron skEx5 3 = some (D', P') ∧
      (D.toFinset ∪ P.toFinset = (nodeIds skEx5).toFinset ∧
        D.toFinset ∩ P.toFinset = ∅ ∧ 3 ∈ D.toFinset ∧ 3 ∉ P.toFinset) ∧
      (D'.toFinset ∪ P'.toFinset = (nodeIds skEx5).toFinset ∧
        D'.toFinset ∩ P'.toFinset = {3})) :=
  ⟨⟨by decide, by decide, by decide, by decide⟩,
    cut_partitions_spec skEx5 (by decide) 3 (by decide) (by decide) (by decide)⟩

/-! ### Rerooting twice: common-suffix combinatorics

The double-reroot analysis (claim C4) needs exact control over the
longest-common-suffix computation that `pathBetween` performs on two ancestor
chains.  The lemmas below characterise `commonSuffixLen` through list
decompositions. -/

theorem cpl_zip_nil_right (xs : List Nat) :
    ((xs.zip ([] : List Nat)).takeWhile (fun ab => ab.1 = ab.2)).length = 0 := by
  rw [List.zip_nil_right]
  rfl

theorem cpl_zip_cons_cons (a b : Nat) (xs ys : List Nat) :
    (((a :: xs).zip (b :: ys)).takeWhile (fun ab => ab.1 = ab.2)).length
      = if a = b
        then ((xs.zip ys).takeWhile (fun ab => ab.1 = ab.2)).length + 1
        else 0 := by
  rw [List.zip_cons_cons]
  by_cases h : a = b
  · simp [List.takeWhile_cons, h]
  · simp [List.takeWhile_cons, h]

/-- The longest common prefix of two lists is realised by a decomposition. -/
theorem cpl_spec :
    ∀ (xs ys : List Nat), ∃ p xs' ys', xs = p ++ xs' ∧ ys = p ++ ys' ∧
      p.length = ((xs.zip ys).takeWhile (fun ab => ab.1 = ab.2)).length := by
  intro xs
  induction xs with
  | nil => intro ys; exact ⟨[], [], ys, rfl, rfl, rfl⟩
  | cons a xs ih =>
    intro ys
    cases ys with
    | nil => exact ⟨[], a :: xs, [], rfl, rfl, (cpl_zip_nil_right (a :: xs)).symm⟩
    | cons b ys =>
      by_cases h : a = b
      · obtain ⟨p, xs', ys', h1, h2, h3⟩ := ih ys
        subst h
        refine ⟨a :: p, xs', ys', by rw [h1]; rfl, by rw [h2]; rfl, ?_⟩
        rw [cpl_zip_cons_cons, if_pos rfl, List.length_cons, h3]
      · exact ⟨[], a :: xs, b :: ys, rfl, rfl, by
          rw [cpl_zip_cons_cons, if_neg h]; rfl⟩

/-- Any common prefix is at most the longest one. -/
theorem cpl_max :
    ∀ (p xs' ys' : List Nat), p.length ≤
      (((p ++ xs').zip (p ++ ys')).takeWhile (fun ab => ab.1 = ab.2)).length := by
  intro p
  induction p with
  | nil => intro xs' ys'; exact Nat.zero_le _
  | cons a p ih =>
    intro xs' ys'
    have := cpl_zip_cons_cons a a (p ++ xs') (p ++ ys')
    simp only [List.cons_append, this, if_pos rfl, List.length_cons]
    exact Nat.succ_le_succ (ih xs' ys')

/-- The longest common suffix of two lists is realised by a decomposition. -/
theorem commonSuffixLen_spec (l1 l2 : List Nat) :
    ∃ u1 u2 c, l1 = u1 ++ c ∧ l2 = u2 ++ c ∧
      c.length = commonSuffixLen l1 l2 := by
  obtain ⟨p, xs', ys', h1, h2, h3⟩ := cpl_spec l1.reverse l2.reverse
  refine ⟨xs'.reverse, ys'.reverse, p.reverse, ?_, ?_, ?_⟩
  · have := congrArg List.reverse h1
    rw [List.reverse_reverse, List.reverse_append] at this
    exact this
  · have := congrArg List.reverse h2
    rw [List.reverse_reverse, List.reverse_append] at this
    exact this
  · rw [List.length_reverse]
    exact h3

/-- Any common suffix is at most the longest one. -/
theorem commonSuffixLen_max {l1 l2 u1 u2 c : List Nat}
    (h1 : l1 = u1 ++ c) (h2 : l2 = u2 ++ c) :
    c.length ≤ commonSuffixLen l1 l2 := by
  have := cpl_max c.reverse u1.reverse u2.reverse
  rw [← List.length_reverse c]
  subst h1; subst h2
  simpa [List.reverse_append, commonSuffixLen] using this

/-- Two suffixes of one list, the shorter is a suffix of the longer. -/
theorem suffix_of_suffix_le {l c d : List Nat} (w u : List Nat)
    (hc : l = w ++ c) (hd : l = u ++ d) (hle : d.length ≤ c.length) :
    ∃ e, c = e ++ d := by
  have hlen : w.length + c.length = u.length + d.length := by
    have := congrArg List.length hc
    rw [hd] at this
    simpa using this.symm
  have hwu : w.length ≤ u.length := by omega
  have hcdrop : c = l.drop w.length := by rw [hc, List.drop_left]
  have hddrop : d = l.drop u.length := by rw [hd, List.drop_left]
  have : d = c.drop (u.length - w.length) := by
    rw [hcdrop, List.drop_drop, hddrop]
    congr 1
    omega
  refine ⟨c.take (u.length - w.length), ?_⟩
  rw [this]
  exact (List.take_append_drop (u.length - w.length) c).symm

/-- Two suffixes of one list with equal length are equal. -/
theorem suffix_eq_of_length_eq {l c c' : List Nat} (w w' : List Nat)
    (hc : l = w ++ c) (hc' : l = w' ++ c') (hlen : c.length = c'.length) :
    c = c' := by
  have hww : w.length = w'.length := by
    have := congrArg List.length hc
    rw [hc'] at this
    simp only [List.length_append] at this
    omega
  have h1 : c = l.drop w.length := by rw [hc, List.drop_left]
  have h2 : c' = l.drop w'.length := by rw [hc', List.drop_left]
  rw [h1, h2, hww]

/-- When no element of `u1` reappears in `l2`, the common suffix exhibited by
the decompositions is the longest one. -/
theorem commonSuffixLen_eq_of_split {l1 l2 u1 u2 c : List Nat}
    (h1 : l1 = u1 ++ c) (h2 : l2 = u2 ++ c) (hno : ∀ y ∈ u1, y ∉ l2) :
    commonSuffixLen l1 l2 = c.length := by
  refine Nat.le_antisymm ?_ (commonSuffixLen_max h1 h2)
  obtain ⟨w1, w2, c', hw1, hw2, hlen⟩ := commonSuffixLen_spec l1 l2
  rw [← hlen]
  by_contra hlt
  push_neg at hlt
  obtain ⟨e, he⟩ := suffix_of_suffix_le w1 u1 hw1 h1 (Nat.le_of_lt hlt)
  have hene : e ≠ [] := by
    intro h
    rw [h, List.nil_append] at he
    rw [he] at hlt
    omega
  have heu1 : ∀ y ∈ e, y ∈ u1 := by
    have : u1 ++ c = (w1 ++ e) ++ c := by
      rw [List.append_assoc, ← he, ← hw1, h1]
    have hu1 : u1 = w1 ++ e := List.append_cancel_right this
    intro y hy
    rw [hu1]
    exact List.mem_append_right _ hy
  have hel2 : ∀ y ∈ e, y ∈ l2 := by
    intro y hy
    rw [hw2, he]
    exact List.mem_append_right _ (List.mem_append_left _ hy)
  obtain ⟨y, hy⟩ := List.exists_mem_of_ne_nil e hene
  exact hno y (heu1 y hy) (hel2 y hy)

/-! ### Rerooting twice: chain adjacency and lowest common ancestors -/

/-- Inverting one step of a chain with at least two members. -/
theorem pchain_cons_cons {s : Skeleton} {u y : Nat} {z : List Nat}
    (h : PChain s u (u :: y :: z)) :
    parentOf s u = some y ∧ PChain s y (y :: z) := by
  cases h with
  | step u p l n hf hp hc =>
    obtain ⟨l', hl'⟩ := pchain_head hc
    have hpy : y = p := by injection hl'
    subst hpy
    exact ⟨by rw [parentOf, hf, Option.some_bind, hp], hc⟩

/-- A chain is a `parent`-linked sequence. -/
theorem pchain_chain' {s : Skeleton} {t : Nat} {l : List Nat}
    (h : PChain s t l) :
    List.Chain' (fun a b => parentOf s a = some b) l := by
  induction h with
  | root => exact List.chain'_singleton _
  | step t p l n hf hp hc ih =>
    obtain ⟨l', rfl⟩ := pchain_head hc
    exact List.chain'_cons.mpr ⟨by rw [parentOf, hf, Option.some_bind, hp], ih⟩

/-- `u` is the on-chain child of `v`: it lies on the chain `ca` and `v` is its
parent.  This inverts one parent link along the chosen new-root chain. -/
def chainPred (s : Skeleton) (ca : List Nat) (v u : Nat) : Prop :=
  u ∈ ca ∧ parentOf s u = some v

/-- Along a fixed chain the on-chain child is unique. -/
theorem chainPred_unique {s : Skeleton} (hids : (nodeIds s).Nodup)
    {X v u u' : Nat} {ca : List Nat} (hca : PChain s X ca)
    (h : chainPred s ca v u) (h' : chainPred s ca v u') : u = u' := by
  obtain ⟨hu, hpu⟩ := h
  obtain ⟨hu', hpu'⟩ := h'
  obtain ⟨l₁, l₂, heq, hch⟩ := pchain_suffix hca u hu
  obtain ⟨l₁', l₂', heq', hch'⟩ := pchain_suffix hca u' hu'
  obtain ⟨lv, hlv, hlv2⟩ := pchain_parent_some hch hpu
  obtain ⟨lv', hlv', hlv2'⟩ := pchain_parent_some hch' hpu'
  have hext : lv = lv' := pchain_deterministic hlv2 hlv2'
  have hle : (u :: l₂).length = (u' :: l₂').length := by
    have h1 : l₂ = lv := by injection hlv
    have h2 : l₂' = lv' := by injection hlv'
    simp [h1, h2, hext]
  have := suffix_eq_of_length_eq l₁ l₁' heq heq' hle
  injection this

/-- Every chain ends at the root. -/
theorem pchain_concat_root {s : Skeleton} (hids : (nodeIds s).Nodup)
    (h1 : (rootsOf s).length = 1) {t : Nat} {l : List Nat}
    (h : PChain s t l) : ∃ u, l = u ++ [rootId s] := by
  obtain ⟨r, n, hlast, hf, hp⟩ := pchain_last_parentless h
  have hr : r = rootId s := eq_rootId hids h1 hf hp
  have hne : l ≠ [] := pchain_ne_nil h
  refine ⟨l.dropLast, ?_⟩
  have hgl : l.getLast hne = r := by
    rw [List.getLast?_eq_getLast l hne] at hlast
    injection hlast
  rw [← hr, ← hgl]
  exact (List.dropLast_append_getLast hne).symm

/-- A list whose head is known is a cons. -/
theorem eq_cons_of_head?_eq {l : List Nat} {a : Nat} (h : l.head? = some a) :
    l = a :: l.tail := by
  cases l with
  | nil => cases h
  | cons x t =>
    have : x = a := by simpa using h
    subst this
    rfl

/-- Lowest common ancestor of two chains: both chains share the chain of a
common member as a suffix, the part of the first chain above it avoids the
second chain entirely, and the shared chain realises the longest common
suffix. -/
theorem pchain_lca {s : Skeleton} {a b : Nat} {ca cb : List Nat}
    (hca : PChain s a ca) (hcb : PChain s b cb)
    (hshare : ∃ y, y ∈ ca ∧ y ∈ cb) :
    ∃ u1 u2 m lm, ca = u1 ++ lm ∧ cb = u2 ++ lm ∧ PChain s m lm ∧
      (∀ y ∈ u1, y ∉ cb) ∧ commonSuffixLen ca cb = lm.length := by
  induction hca with
  | root t n hf hp =>
    obtain ⟨y, hy1, hy2⟩ := hshare
    simp only [List.mem_singleton] at hy1
    subst hy1
    obtain ⟨l₁, l₂, heq, hch⟩ := pchain_suffix hcb y hy2
    have hdet : y :: l₂ = [y] := pchain_deterministic hch (PChain.root y n hf hp)
    have hl₂ : l₂ = [] := by injection hdet
    subst hl₂
    refine ⟨[], l₁, y, [y], rfl, heq, PChain.root y n hf hp, by simp, ?_⟩
    exact @commonSuffixLen_eq_of_split [y] cb [] l₁ [y] rfl heq (by simp)
  | step t p l n hf hp hc ih =>
    by_cases hmem : t ∈ cb
    · obtain ⟨l₁, l₂, heq, hch⟩ := pchain_suffix hcb t hmem
      have hdet : t :: l₂ = t :: l := pchain_deterministic hch (PChain.step t p l n hf hp hc)
      have hl₂ : l₂ = l := by injection hdet
      rw [hl₂] at heq
      refine ⟨[], l₁, t, t :: l, rfl, heq, PChain.step t p l n hf hp hc, by simp, ?_⟩
      exact @commonSuffixLen_eq_of_split (t :: l) cb [] l₁ (t :: l) rfl heq (by simp)
    · have hshare' : ∃ y, y ∈ l ∧ y ∈ cb := by
        obtain ⟨y, hy1, hy2⟩ := hshare
        rcases List.mem_cons.mp hy1 with rfl | hy1'
        · exact absurd hy2 hmem
        · exact ⟨y, hy1', hy2⟩
      obtain ⟨u1, u2, m, lm, h1, h2, h3, h4, h5⟩ := ih hshare'
      refine ⟨t :: u1, u2, m, lm, by rw [h1]; rfl, h2, h3, ?_, ?_⟩
      · intro y hy
        rcases List.mem_cons.mp hy with rfl | hy'
        · exact hmem
        · exact h4 y hy'
      · refine @commonSuffixLen_eq_of_split (t :: l) cb (t :: u1) u2 lm (by rw [h1]; rfl) h2 ?_
        intro y hy
        rcases List.mem_cons.mp hy with rfl | hy'
        · exact hmem
        · exact h4 y hy'

/-- Any node shared by the two chains lies on the common-ancestor chain of the
lowest-common-ancestor decomposition. -/
theorem lca_inter_sub {s : Skeleton} {a b : Nat} {ca cb u1 u2 lm : List Nat}
    (hca : PChain s a ca) (hcb : PChain s b cb)
    (h1 : ca = u1 ++ lm) (h2 : cb = u2 ++ lm)
    (h5 : commonSuffixLen ca cb = lm.length) :
    ∀ y, y ∈ ca → y ∈ cb → y ∈ lm := by
  intro y hy1 hy2
  obtain ⟨a₁, a₂, ha, hcha⟩ := pchain_suffix hca y hy1
  obtain ⟨b₁, b₂, hb, hchb⟩ := pchain_suffix hcb y hy2
  have hdet : y :: a₂ = y :: b₂ := pchain_deterministic hcha hchb
  have ha₂ : a₂ = b₂ := by injection hdet
  subst ha₂
  have hylen : (y :: a₂).length ≤ commonSuffixLen ca cb :=
    commonSuffixLen_max ha hb
  rw [h5] at hylen
  obtain ⟨e, he⟩ := suffix_of_suffix_le u1 a₁ h1 ha hylen
  rw [he]
  exact List.mem_append_right _ (by simp)

/-! ### Rerooting twice: dictionary folds and path pairs -/

/-- The parent-pair accumulation fold shared by the paths of one reroot
(source lines 366-367). -/
def pairsFold (L : List (Nat × Nat)) (d : List (Nat × Option Nat)) :
    List (Nat × Option Nat) :=
  L.foldl (fun d kv => dictInsert d kv.1 (some kv.2)) d

theorem pairsFold_nil (d : List (Nat × Option Nat)) : pairsFold [] d = d := rfl

theorem pairsFold_cons (kv : Nat × Nat) (L : List (Nat × Nat))
    (d : List (Nat × Option Nat)) :
    pairsFold (kv :: L) d = pairsFold L (dictInsert d kv.1 (some kv.2)) := rfl

theorem pairsFold_append (L1 L2 : List (Nat × Nat)) (d : List (Nat × Option Nat)) :
    pairsFold (L1 ++ L2) d = pairsFold L2 (pairsFold L1 d) :=
  List.foldl_append _ _ _ _

/-- `buildNewParents` is a flat pair fold followed by the new root's
overwrite. -/
theorem buildNewParents_eq_flat (paths : List (List Nat)) (nr : Nat) :
    buildNewParents paths nr
      = dictInsert (pairsFold (paths.flatMap pathPairs) []) nr none := by
  have key : ∀ (ps : List (List Nat)) (d : List (Nat × Option Nat)),
      ps.foldl (fun d p => (pathPairs p).foldl
        (fun d kv => dictInsert d kv.1 (some kv.2)) d) d
        = pairsFold (ps.flatMap pathPairs) d := by
    intro ps
    induction ps with
    | nil => intro d; rfl
    | cons p ps ih =>
      intro d
      show ps.foldl _ (pairsFold (pathPairs p) d) = _
      rw [ih, List.flatMap_cons, pairsFold_append]
  show dictInsert (paths.foldl (fun d p => (pathPairs p).foldl
    (fun d kv => dictInsert d kv.1 (some kv.2)) d) []) nr none = _
  rw [key paths []]

/-- The value a pair fold leaves at a key: untouched, or one of the folded
pairs' values at that key. -/
theorem pairsFold_get_cases (L : List (Nat × Nat)) (d : List (Nat × Option Nat))
    (t : Nat) :
    dictGet (pairsFold L d) t = dictGet d t ∨
      ∃ kv, kv ∈ L ∧ kv.1 = t ∧ dictGet (pairsFold L d) t = some (some kv.2) := by
  induction L generalizing d with
  | nil => exact Or.inl rfl
  | cons kv L ih =>
    rw [pairsFold_cons]
    rcases ih (dictInsert d kv.1 (some kv.2)) with h | ⟨kv', hm, hk, hv⟩
    · rw [h, dictGet_dictInsert]
      by_cases hkt : t = kv.1
      · exact Or.inr ⟨kv, by simp, hkt.symm, by rw [if_pos hkt]⟩
      · rw [if_neg hkt]
        exact Or.inl rfl
    · exact Or.inr ⟨kv', List.mem_cons_of_mem _ hm, hk, hv⟩

theorem dictHasKey_dictInsert {α : Type} (d : List (Nat × α)) (k k' : Nat) (v : α) :
    dictHasKey (dictInsert d k v) k' = (decide (k' = k) || dictHasKey d k') := by
  rw [dictHasKey_eq_isSome, dictHasKey_eq_isSome, dictGet_dictInsert]
  by_cases h : k' = k
  · simp [h]
  · simp [h]

/-- A pair fold keeps every key it starts with. -/
theorem pairsFold_hasKey_mono (L : List (Nat × Nat)) (d : List (Nat × Option Nat))
    (t : Nat) (h : dictHasKey d t = true) : dictHasKey (pairsFold L d) t = true := by
  induction L generalizing d with
  | nil => exact h
  | cons kv L ih =>
    rw [pairsFold_cons]
    exact ih _ (by rw [dictHasKey_dictInsert]; simp [h])

/-- A pair fold records every folded key. -/
theorem pairsFold_hasKey_of_mem (L : List (Nat × Nat)) (d : List (Nat × Option Nat))
    (t : Nat) (h : t ∈ L.map Prod.fst) : dictHasKey (pairsFold L d) t = true := by
  induction L generalizing d with
  | nil => simp at h
  | cons kv L ih =>
    rw [pairsFold_cons]
    rcases List.mem_cons.mp h with h1 | h2
    · exact pairsFold_hasKey_mono L _ t (by rw [dictHasKey_dictInsert]; simp [h1])
    · exact ih _ h2

theorem pathPairs_nil : pathPairs [] = [] := rfl

theorem pathPairs_single (a : Nat) : pathPairs [a] = [] := rfl

theorem pathPairs_cons_cons (a b : Nat) (l : List Nat) :
    pathPairs (a :: b :: l) = (b, a) :: pathPairs (b :: l) := rfl

/-- Every pair of a path relates consecutive members: the key follows its
value in the path. -/
theorem pathPairs_chain' {R : Nat → Nat → Prop} :
    ∀ {p : List Nat}, List.Chain' R p → ∀ kv ∈ pathPairs p, R kv.2 kv.1
  | [], _, kv, hkv => absurd hkv (by simp [pathPairs_nil])
  | [a], _, kv, hkv => absurd hkv (by simp [pathPairs_single])
  | a :: b :: l, h, kv, hkv => by
    rw [pathPairs_cons_cons] at hkv
    obtain ⟨hab, htl⟩ := List.chain'_cons.mp h
    rcases List.mem_cons.mp hkv with rfl | hkv'
    · exact hab
    · exact pathPairs_chain' htl kv hkv'

/-- The keys written by a path are exactly its tail. -/
theorem pathPairs_keys (p : List Nat) : (pathPairs p).map Prod.fst = p.tail := by
  unfold pathPairs
  rw [List.map_map]
  have : (Prod.fst ∘ fun uv : Nat × Nat => (uv.2, uv.1)) = Prod.snd := rfl
  rw [this]
  exact List.map_snd_zip p p.tail (by cases p <;> simp)

/-- `Option`-valued `mapM` succeeds exactly when every application does, and
the results are positionally related. -/
theorem mapM_option_some_of_forall {α β : Type} (f : α → Option β) :
    ∀ (L : List α), (∀ a ∈ L, (f a).isSome) →
      ∃ bs, L.mapM f = some bs ∧ List.Forall₂ (fun a b => f a = some b) L bs := by
  intro L
  induction L with
  | nil => intro _; exact ⟨[], by rw [List.mapM_nil]; rfl, List.Forall₂.nil⟩
  | cons a L ih =>
    intro h
    have ha := h a (by simp)
    rcases hfa : f a with _ | b
    · rw [hfa] at ha; simp at ha
    · obtain ⟨bs, hbs, hfo⟩ := ih (fun x hx => h x (by simp [hx]))
      refine ⟨b :: bs, ?_, List.Forall₂.cons hfa hfo⟩
      rw [List.mapM_cons, hfa, hbs]
      rfl

theorem mapM_option_forall₂_of_some {α β : Type} (f : α → Option β) :
    ∀ (L : List α) (bs : List β), L.mapM f = some bs →
      List.Forall₂ (fun a b => f a = some b) L bs := by
  intro L
  induction L with
  | nil =>
    intro bs h
    rw [List.mapM_nil] at h
    cases h
    exact List.Forall₂.nil
  | cons a L ih =>
    intro bs h
    rw [List.mapM_cons] at h
    rcases hfa : f a with _ | b
    · rw [hfa] at h; cases h
    · rw [hfa] at h
      rcases hL : L.mapM f with _ | bs'
      · rw [hL] at h; cases h
      · rw [hL] at h
        cases h
        exact List.Forall₂.cons hfa (ih bs' hL)

theorem forall₂_mem_left {α β : Type} {R : α → β → Prop} :
    ∀ {L : List α} {bs : List β}, List.Forall₂ R L bs → ∀ a ∈ L, ∃ b ∈ bs, R a b := by
  intro L bs h
  induction h with
  | nil => intro a ha; simp at ha
  | cons hR htl ih =>
    intro a ha
    rcases List.mem_cons.mp ha with rfl | ha'
    · exact ⟨_, by simp, hR⟩
    · obtain ⟨b, hb, hRb⟩ := ih a ha'
      exact ⟨b, List.mem_cons_of_mem _ hb, hRb⟩

theorem forall₂_mem_right {α β : Type} {R : α → β → Prop} :
    ∀ {L : List α} {bs : List β}, List.Forall₂ R L bs → ∀ b ∈ bs, ∃ a ∈ L, R a b := by
  intro L bs h
  induction h with
  | nil => intro b hb; simp at hb
  | cons hR htl ih =>
    intro b hb
    rcases List.mem_cons.mp hb with rfl | hb'
    · exact ⟨_, by simp, hR⟩
    · obtain ⟨a, ha, hRa⟩ := ih b hb'
      exact ⟨a, List.mem_cons_of_mem _ ha, hRa⟩

/-- Strengthening a chain relation using membership of the endpoints. -/
theorem chain'_imp_mem {α : Type} {R Q : α → α → Prop} :
    ∀ {l : List α}, List.Chain' R l →
      (∀ a ∈ l, ∀ b ∈ l, R a b → Q a b) → List.Chain' Q l
  | [], _, _ => List.chain'_nil
  | [a], _, _ => List.chain'_singleton a
  | a :: b :: l, h, himp => by
    obtain ⟨hab, htl⟩ := List.chain'_cons.mp h
    refine List.chain'_cons.mpr ⟨himp a (by simp) b (by simp) hab, ?_⟩
    exact chain'_imp_mem htl (fun x hx y hy hR =>
      himp x (List.mem_cons_of_mem _ hx) y (List.mem_cons_of_mem _ hy) hR)

/-! ### Rerooting twice: structure of one shortest path -/

/-- The orientation `reroot_neuron` gives one traversed edge.  Along a path
out of the new root `X` (whose chain is `ca`), the node `v` that follows `u`
is assigned `u` as its new parent: when `v` still lies on `ca` (an ancestor
of `X`) the path was climbing and `u` is `v`'s on-chain child; otherwise the
path was descending and `u` is `v`'s own original parent. -/
def rerootStep (s : Skeleton) (ca : List Nat) (u v : Nat) : Prop :=
  (v ∈ ca ∧ chainPred s ca v u) ∨ (v ∉ ca ∧ parentOf s v = some u)

theorem mem_of_getLast?_eq {l : List Nat} {a : Nat} (h : l.getLast? = some a) :
    a ∈ l := by
  have hx : a ∈ l.getLast? := Option.mem_def.mpr h
  obtain ⟨hne, heq⟩ := List.mem_getLast?_eq_getLast hx
  rw [heq]
  exact List.getLast_mem hne

/-- Structure of the shortest path from the new root `X` to a node `b`: it
climbs `X`'s chain to the lowest common ancestor and then descends `b`'s
chain, every edge is oriented by `rerootStep`, and the path starts at `X`. -/
theorem reroot_path_spec {s : Skeleton} (hids : (nodeIds s).Nodup)
    {X b : Nat} {ca cb : List Nat} (hca : PChain s X ca) (hcb : PChain s b cb)
    (hshare : ∃ y, y ∈ ca ∧ y ∈ cb) :
    ∃ p u1 u2 m lm, pathBetween s X b = some p ∧
      p = u1 ++ m :: u2.reverse ∧ ca = u1 ++ lm ∧ cb = u2 ++ lm ∧
      PChain s m lm ∧ p.head? = some X ∧
      List.Chain' (rerootStep s ca) p ∧
      (∀ y, y ∈ ca → y ∈ cb → y ∈ lm) := by
  obtain ⟨u1, u2, m, lm, h1, h2, h3, h4, h5⟩ := pchain_lca hca hcb hshare
  obtain ⟨lm₂, hlm⟩ := pchain_head h3
  have hchX : chainOf s X = some ca := (chainOf_eq_some_iff hids).mpr hca
  have hchb : chainOf s b = some cb := (chainOf_eq_some_iff hids).mpr hcb
  have hlen_ca : ca.length = u1.length + lm.length := by rw [h1]; simp
  have hlen_cb : cb.length = u2.length + lm.length := by rw [h2]; simp
  have htake1 : ca.take (ca.length - commonSuffixLen ca cb) = u1 := by
    rw [h5, hlen_ca]
    have harith : u1.length + lm.length - lm.length = u1.length := by omega
    rw [harith, h1]
    exact List.take_left u1 lm
  have htake2 : cb.take (cb.length - commonSuffixLen ca cb + 1) = u2 ++ [m] := by
    rw [h5, hlen_cb]
    have harith : u2.length + lm.length - lm.length + 1 = u2.length + 1 := by omega
    rw [harith, h2, List.take_append 1, hlm]
    rfl
  have hpath : pathBetween s X b = some (u1 ++ m :: u2.reverse) := by
    unfold pathBetween
    rw [hchX, hchb]
    dsimp only
    rw [htake1, htake2, List.reverse_append]
    rfl
  have hhead : (u1 ++ m :: u2.reverse).head? = some X := by
    obtain ⟨ca', hca'⟩ := pchain_head hca
    cases u1 with
    | nil =>
      rw [h1, hlm] at hca'
      simp only [List.nil_append] at hca'
      have hmx : m = X := by injection hca'
      simp [hmx]
    | cons a u1' =>
      rw [h1] at hca'
      have hax : a = X := by injection hca'
      simp [hax]
  have hadjca := pchain_chain' hca
  have hadjcb := pchain_chain' hcb
  have hca_split : ca = (u1 ++ [m]) ++ lm₂ := by rw [h1, hlm]; simp
  have hcb_split : cb = (u2 ++ [m]) ++ lm₂ := by rw [h2, hlm]; simp
  have hchainA : List.Chain' (fun a b => parentOf s a = some b) (u1 ++ [m]) := by
    rw [hca_split] at hadjca
    exact (List.chain'_append.mp hadjca).1
  have hchainB : List.Chain' (fun a b => parentOf s a = some b) (u2 ++ [m]) := by
    rw [hcb_split] at hadjcb
    exact (List.chain'_append.mp hadjcb).1
  have hsubA : ∀ y ∈ u1 ++ [m], y ∈ ca := by
    intro y hy
    rw [hca_split]
    exact List.mem_append_left _ hy
  have hinter := lca_inter_sub hca hcb h1 h2 h5
  have hu2ca : ∀ y ∈ u2, y ∉ ca := by
    intro y hy hyca
    have hycb : y ∈ cb := by rw [h2]; exact List.mem_append_left _ hy
    have hylm : y ∈ lm := hinter y hyca hycb
    have hnd : cb.Nodup := pchain_nodup hcb
    rw [h2] at hnd
    exact List.disjoint_of_nodup_append hnd hy hylm
  rcases List.chain'_append.mp hchainA with ⟨hA1, -, hAj⟩
  rcases List.chain'_append.mp hchainB with ⟨hB1, -, hBj⟩
  have hQ2 : List.Chain' (rerootStep s ca) (m :: u2.reverse) := by
    have heq2 : m :: u2.reverse = (u2 ++ [m]).reverse := by
      rw [List.reverse_append]
      rfl
    rw [heq2, List.chain'_reverse]
    refine List.chain'_append.mpr ⟨?_, List.chain'_singleton m, ?_⟩
    · refine chain'_imp_mem hB1 ?_
      intro a ha bb hb hR
      show rerootStep s ca bb a
      exact Or.inr ⟨hu2ca a ha, hR⟩
    · intro x hx y hy
      have hym : m = y := by simpa using hy
      subst hym
      have hxu2 : x ∈ u2 := mem_of_getLast?_eq (Option.mem_def.mp hx)
      show rerootStep s ca m x
      exact Or.inr ⟨hu2ca x hxu2, hBj x hx m (by simp)⟩
  have hQ : List.Chain' (rerootStep s ca) (u1 ++ m :: u2.reverse) := by
    refine List.chain'_append.mpr ⟨?_, hQ2, ?_⟩
    · refine chain'_imp_mem hA1 ?_
      intro a ha bb hb hR
      exact Or.inl ⟨hsubA bb (List.mem_append_left _ hb),
        hsubA a (List.mem_append_left _ ha), hR⟩
    · intro x hx y hy
      have hym : m = y := by simpa using hy
      subst hym
      have hxu1 : x ∈ u1 := mem_of_getLast?_eq (Option.mem_def.mp hx)
      exact Or.inl ⟨hsubA m (by simp),
        hsubA x (List.mem_append_left _ hxu1), hAj x hx m (by simp)⟩
  exact ⟨u1 ++ m :: u2.reverse, u1, u2, m, lm, hpath, rfl, h1, h2, h3, hhead,
    hQ, hinter⟩

/-! ### Rerooting twice: the first reroot -/

theorem pathBetween_classify (s : Skeleton) (a b : Nat) :
    pathBetween (classify_nodes s) a b = pathBetween s a b := by
  unfold pathBetween
  rw [chainOf_classify, chainOf_classify]

theorem pathBetween_isSome_of_chains {s : Skeleton} {a b : Nat}
    {ca cb : List Nat} (ha : chainOf s a = some ca) (hb : chainOf s b = some cb) :
    (pathBetween s a b).isSome = true := by
  unfold pathBetween
  rw [ha, hb]
  rfl

theorem parentOf_parent_update (s0 : Skeleton) (g : Node → Option Nat) (t : Nat) :
    parentOf { s0 with nodes := s0.nodes.map (fun n => { n with parent_id := g n }) } t
      = (findNode s0 t).bind g := by
  unfold parentOf
  rw [findNode_mk_update, findNode_map_parent_update]
  have hfold : s0.nodes.find? (fun n => n.treenode_id = t) = findNode s0 t := rfl
  rw [hfold]
  rcases hf : findNode s0 t with _ | n <;> rfl

theorem nodeIds_parent_update (s0 : Skeleton) (g : Node → Option Nat) :
    nodeIds { s0 with nodes := s0.nodes.map (fun n => { n with parent_id := g n }) }
      = nodeIds s0 := by
  rw [nodeIds_mk_update, List.map_map]
  rfl

theorem leafIds_parent_update (s0 : Skeleton) (g : Node → Option Nat) :
    ((s0.nodes.map (fun n => { n with parent_id := g n })).filter
        (fun n => n.ntype = some NodeRole.leaf)).map (fun n => n.treenode_id)
      = (s0.nodes.filter (fun n => n.ntype = some NodeRole.leaf)).map
          (fun n => n.treenode_id) := by
  rw [List.filter_map, List.map_map]
  rfl

theorem childs_nodup {s : Skeleton} (hids : (nodeIds s).Nodup) (p : Nat) :
    (generate_list_of_childs s p).Nodup := by
  unfold generate_list_of_childs
  have hsub : List.Sublist ((s.nodes.filter (fun n => n.parent_id = some p)).map
      (fun n => n.treenode_id)) (s.nodes.map (fun n => n.treenode_id)) :=
    List.Sublist.map _ (List.filter_sublist _)
  exact List.Nodup.sublist hsub hids

/-- A root with two or more children has one off any fixed ancestor chain. -/
theorem exists_root_child_off_chain {s : Skeleton} (hwf : WF s) {X : Nat}
    {ca : List Nat} (hca : PChain s X ca)
    (hr2 : 2 ≤ (generate_list_of_childs s (rootId s)).length) :
    ∃ e, e ∈ generate_list_of_childs s (rootId s) ∧ e ∉ ca := by
  have hnd : (generate_list_of_childs s (rootId s)).Nodup := childs_nodup hwf.1 _
  rcases hL : generate_list_of_childs s (rootId s) with _ | ⟨c1, L'⟩
  · rw [hL] at hr2; simp at hr2
  · rcases L' with _ | ⟨c2, L''⟩
    · rw [hL] at hr2; simp at hr2
    · rw [hL] at hnd
      have hc12 : c1 ≠ c2 := by
        have := (List.nodup_cons.mp hnd).1
        intro h
        exact this (h ▸ List.mem_cons_self c2 L'')
      by_cases h1 : c1 ∈ ca
      · by_cases h2 : c2 ∈ ca
        · exfalso
          have hp1 : parentOf s c1 = some (rootId s) :=
            (mem_childs_iff hwf.1).mp (by rw [hL]; simp)
          have hp2 : parentOf s c2 = some (rootId s) :=
            (mem_childs_iff hwf.1).mp (by rw [hL]; simp)
          exact hc12 (chainPred_unique hwf.1 hca ⟨h1, hp1⟩ ⟨h2, hp2⟩)
        · exact ⟨c2, by simp, h2⟩
      · exact ⟨c1, by simp, h1⟩

/-- Every oriented pair written by a first-reroot path is a correctly
oriented edge. -/
theorem reroot_pairs_sound {s : Skeleton} (hwf : WF s) {X : Nat} {ca : List Nat}
    (hca : PChain s X ca) {leaf_nodes : List Nat} {ps : List (List Nat)}
    (hleafids : ∀ e ∈ leaf_nodes, e ∈ nodeIds s)
    (hfo : List.Forall₂ (fun a b => pathBetween s X a = some b) leaf_nodes ps) :
    ∀ p ∈ ps, ∀ kv ∈ pathPairs p, rerootStep s ca kv.2 kv.1 := by
  intro p hp kv hkv
  obtain ⟨e, he, hpe⟩ := forall₂_mem_right hfo p hp
  obtain ⟨ce, hce⟩ := pchain_exists_of_mem hwf (hleafids e he)
  have hshare : ∃ y, y ∈ ca ∧ y ∈ ce :=
    ⟨rootId s, rootId_mem_pchain hwf.1 hwf.2.1 hca,
      rootId_mem_pchain hwf.1 hwf.2.1 hce⟩
  obtain ⟨p', u1, u2, m, lm, hpath, hpeq, h1, h2, h3, hhead, hQ, hinter⟩ :=
    reroot_path_spec hwf.1 hca hce hshare
  rw [hpe] at hpath
  have hpp : p = p' := by injection hpath
  exact pathPairs_chain' hQ kv (hpp ▸ hkv)

theorem reroot_cover_end {ps : List (List Nat)} {p : List Nat} {t X : Nat}
    (hp_ps : p ∈ ps) (htp : t ∈ p) (hhead : p.head? = some X) (htX : t ≠ X) :
    ∃ q, q ∈ ps.filter (fun q => 1 < q.length) ∧ t ∈ q.tail := by
  have hptail : p = X :: p.tail := eq_cons_of_head?_eq hhead
  have httail : t ∈ p.tail := by
    rcases List.mem_cons.mp (hptail ▸ htp) with h | h
    · exact absurd h htX
    · exact h
  refine ⟨p, List.mem_filter.mpr ⟨hp_ps, ?_⟩, httail⟩
  have hne : p.tail ≠ [] := List.ne_nil_of_mem httail
  have hpos := List.length_pos.mpr hne
  rw [hptail]
  simp only [List.length_cons, decide_eq_true_eq]
  omega

/-- Every node other than the new root lies, as a key, on some kept path:
off-chain nodes via a leaf below them, on-chain nodes via a leaf below a root
child that avoids the chain (this is where the root needs a second child). -/
theorem reroot_cover {s : Skeleton} (hwf : WF s) {X : Nat} {ca : List Nat}
    (hca : PChain s X ca)
    (hr2 : 2 ≤ (generate_list_of_childs s (rootId s)).length)
    {leaf_nodes : List Nat} {ps : List (List Nat)}
    (hleaf : ∀ e, e ∈ leaf_nodes ↔ e ∈ nodeIds s ∧ parentOf s e ≠ none ∧
      generate_list_of_childs s e = [])
    (hfo : List.Forall₂ (fun a b => pathBetween s X a = some b) leaf_nodes ps)
    {t : Nat} (ht : t ∈ nodeIds s) (htX : t ≠ X) :
    ∃ p, p ∈ ps.filter (fun p => 1 < p.length) ∧ t ∈ p.tail := by
  by_cases htca : t ∈ ca
  · -- on-chain: use a leaf below a root child off the chain
    obtain ⟨e', he'ch, he'ca⟩ := exists_root_child_off_chain hwf hca hr2
    have hpe' : parentOf s e' = some (rootId s) := (mem_childs_iff hwf.1).mp he'ch
    have he'ids : e' ∈ nodeIds s := by
      unfold parentOf at hpe'
      rcases hf : findNode s e' with _ | n
      · rw [hf] at hpe'; cases hpe'
      · exact mem_ids_of_findNode hf
    obtain ⟨e, heids, hance, hech⟩ := exists_childless_descendant' hwf he'ids
    have hrch : generate_list_of_childs s (rootId s) ≠ [] := by
      intro h; rw [h] at hr2; simp at hr2
    have herne : e ≠ rootId s := by
      intro h; rw [h] at hech; exact hrch hech
    have hepar : parentOf s e ≠ none := parentOf_ne_none_of_ne_root hwf heids herne
    have hel : e ∈ leaf_nodes := (hleaf e).mpr ⟨heids, hepar, hech⟩
    obtain ⟨p, hp_ps, hpe⟩ := forall₂_mem_left hfo e hel
    obtain ⟨ce, hce⟩ := pchain_exists_of_mem hwf heids
    have hshare : ∃ y, y ∈ ca ∧ y ∈ ce :=
      ⟨rootId s, rootId_mem_pchain hwf.1 hwf.2.1 hca,
        rootId_mem_pchain hwf.1 hwf.2.1 hce⟩
    obtain ⟨p', u1, u2, m, lm, hpath, hpeq, h1, h2, h3, hhead, hQ, hinter⟩ :=
      reroot_path_spec hwf.1 hca hce hshare
    rw [hpe] at hpath
    have hpp : p = p' := by injection hpath
    subst hpp
    have hrca : rootId s ∈ ca := rootId_mem_pchain hwf.1 hwf.2.1 hca
    have hrce : rootId s ∈ ce := rootId_mem_pchain hwf.1 hwf.2.1 hce
    have hrlm : rootId s ∈ lm := hinter _ hrca hrce
    have he'ce : e' ∈ ce := mem_chain_of_anc hce hance
    have hce' : PChain s e' [e', rootId s] :=
      pchain_child hpe' (pchain_rootId hwf.1 hwf.2.1)
    obtain ⟨w, w2, hwsplit, hch2⟩ := pchain_suffix hce e' he'ce
    have hdet : e' :: w2 = [e', rootId s] := pchain_deterministic hch2 hce'
    have hw2 : w2 = [rootId s] := by injection hdet
    rw [hw2] at hwsplit
    have hsplit2 : ce = w ++ [e', rootId s] := hwsplit
    have hlm1 : lm.length ≤ 1 := by
      by_contra hgt
      push_neg at hgt
      obtain ⟨d, hd⟩ := suffix_of_suffix_le u2 w h2 hsplit2 (by simp; omega)
      have he'lm : e' ∈ lm := by
        rw [hd]
        exact List.mem_append_right _ (by simp)
      have : e' ∈ ca := by
        rw [h1]
        exact List.mem_append_right _ he'lm
      exact he'ca this
    obtain ⟨lm₂, hlm⟩ := pchain_head h3
    have hlm2nil : lm₂ = [] := by
      rw [hlm] at hlm1
      simp only [List.length_cons] at hlm1
      exact List.length_eq_zero.mp (by omega)
    have hmr : m = rootId s := by
      rw [hlm, hlm2nil] at hrlm
      have h' : rootId s = m := by simpa using hrlm
      exact h'.symm
    have htp : t ∈ p := by
      rw [hpeq]
      have htca' := htca
      rw [h1, hlm, hlm2nil] at htca'
      rcases List.mem_append.mp htca' with h | h
      · exact List.mem_append_left _ h
      · have : t = m := by simpa using h
        rw [this]
        exact List.mem_append_right _ (by simp)
    exact reroot_cover_end hp_ps htp hhead htX
  · -- off-chain: use a leaf below the node itself
    obtain ⟨e, heids, hance, hech⟩ := exists_childless_descendant' hwf ht
    have hrch : generate_list_of_childs s (rootId s) ≠ [] := by
      intro h; rw [h] at hr2; simp at hr2
    have herne : e ≠ rootId s := by
      intro h; rw [h] at hech; exact hrch hech
    have hepar : parentOf s e ≠ none := parentOf_ne_none_of_ne_root hwf heids herne
    have hel : e ∈ leaf_nodes := (hleaf e).mpr ⟨heids, hepar, hech⟩
    obtain ⟨p, hp_ps, hpe⟩ := forall₂_mem_left hfo e hel
    obtain ⟨ce, hce⟩ := pchain_exists_of_mem hwf heids
    have hshare : ∃ y, y ∈ ca ∧ y ∈ ce :=
      ⟨rootId s, rootId_mem_pchain hwf.1 hwf.2.1 hca,
        rootId_mem_pchain hwf.1 hwf.2.1 hce⟩
    obtain ⟨p', u1, u2, m, lm, hpath, hpeq, h1, h2, h3, hhead, hQ, hinter⟩ :=
      reroot_path_spec hwf.1 hca hce hshare
    rw [hpe] at hpath
    have hpp : p = p' := by injection hpath
    subst hpp
    have htce : t ∈ ce := mem_chain_of_anc hce hance
    have htu2 : t ∈ u2 := by
      rw [h2] at htce
      rcases List.mem_append.mp htce with h | h
      · exact h
      · exact absurd (by rw [h1]; exact List.mem_append_right _ h) htca
    have htp : t ∈ p := by
      rw [hpeq]
      exact List.mem_append_right _
        (List.mem_cons_of_mem _ (List.mem_reverse.mpr htu2))
    exact reroot_cover_end hp_ps htp hhead htX

/-- The outcome of a successful first reroot: same ids, stale `classify`
types, the new root parentless, every other node reparented along a correctly
oriented edge, and the `end`-typed id list still describing the original
leaves. -/
structure RerootOut (s : Skeleton) (X : Nat) (ca : List Nat) (s1 : Skeleton) : Prop where
  ids_eq : nodeIds s1 = nodeIds s
  ntype_eq : ∀ n ∈ s1.nodes, n.ntype = some (classOf s n.treenode_id)
  parent_root : parentOf s1 X = none
  parent_step : ∀ t ∈ nodeIds s, t ≠ X →
    ∃ u, parentOf s1 t = some u ∧ rerootStep s ca u t
  leaves_iff : ∀ e, e ∈ (s1.nodes.filter
      (fun n => n.ntype = some NodeRole.leaf)).map (fun n => n.treenode_id) ↔
    e ∈ nodeIds s ∧ parentOf s e ≠ none ∧ generate_list_of_childs s e = []

/-- Rerooting a well-formed skeleton whose root has at least two children to a
non-root node succeeds, and the result is characterised by `RerootOut`. -/
theorem reroot_first_spec (s : Skeleton) (hwf : WF s) (X : Nat) (ca : List Nat)
    (hca : PChain s X ca) (hXr : X ≠ rootId s)
    (hr2 : 2 ≤ (generate_list_of_childs s (rootId s)).length) :
    ∃ s1, reroot_neuron s X = some s1 ∧ RerootOut s X ca s1 := by
  have hX : X ∈ nodeIds s := pchain_mem_ids hca X (pchain_mem_self hca)
  obtain ⟨nX, hfX, hidX⟩ := findNode_isSome_of_mem_ids hX
  have hpX : ¬ nX.parent_id = none := by
    have h := parentOf_ne_none_of_ne_root hwf hX hXr
    rwa [parentOf_eq_of_findNode hfX] at h
  have htc : hasTypeCol s = false := hasTypeCol_false_of_WF hwf
  have hleafiff : ∀ e, e ∈ ((classify_nodes s).nodes.filter
      (fun n => n.ntype = some NodeRole.leaf)).map (fun n => n.treenode_id) ↔
      e ∈ nodeIds s ∧ parentOf s e ≠ none ∧ generate_list_of_childs s e = [] :=
    fun e => mem_leafTyped_iff s hwf e
  have hchX : chainOf s X = some ca := (chainOf_eq_some_iff hwf.1).mpr hca
  have hall_some : ∀ e ∈ ((classify_nodes s).nodes.filter
      (fun n => n.ntype = some NodeRole.leaf)).map (fun n => n.treenode_id),
      ((fun ln => pathBetween (classify_nodes s) X ln) e).isSome = true := by
    intro e he
    obtain ⟨heids, -, -⟩ := (hleafiff e).mp he
    obtain ⟨ce, hce⟩ := pchain_exists_of_mem hwf heids
    have hchE : chainOf s e = some ce := (chainOf_eq_some_iff hwf.1).mpr hce
    show (pathBetween (classify_nodes s) X e).isSome = true
    rw [pathBetween_classify]
    exact pathBetween_isSome_of_chains hchX hchE
  obtain ⟨ps, hps, hfo0⟩ := mapM_option_some_of_forall
    (fun ln => pathBetween (classify_nodes s) X ln)
    (((classify_nodes s).nodes.filter
      (fun n => n.ntype = some NodeRole.leaf)).map (fun n => n.treenode_id))
    hall_some
  have hfo : List.Forall₂ (fun a b => pathBetween s X a = some b)
      (((classify_nodes s).nodes.filter
        (fun n => n.ntype = some NodeRole.leaf)).map (fun n => n.treenode_id))
      ps := by
    refine List.Forall₂.imp ?_ hfo0
    intro a b hab
    rwa [pathBetween_classify] at hab
  have hleafids : ∀ e ∈ ((classify_nodes s).nodes.filter
      (fun n => n.ntype = some NodeRole.leaf)).map (fun n => n.treenode_id),
      e ∈ nodeIds s := fun e he => ((hleafiff e).mp he).1
  have hkey : ∀ t ∈ nodeIds s, dictHasKey
      (buildNewParents (ps.filter (fun p => 1 < p.length)) X) t = true := by
    intro t ht
    rw [buildNewParents_eq_flat, dictHasKey_dictInsert]
    by_cases htX : t = X
    · simp [htX]
    · obtain ⟨p, hpfil, httl⟩ := reroot_cover hwf hca hr2 hleafiff hfo ht htX
      have hmem : t ∈ ((ps.filter (fun p => 1 < p.length)).flatMap pathPairs).map
          Prod.fst := by
        rw [← pathPairs_keys] at httl
        obtain ⟨kv, hkv, hkvt⟩ := List.mem_map.mp httl
        exact List.mem_map.mpr ⟨kv, List.mem_flatMap.mpr ⟨p, hpfil, hkv⟩, hkvt⟩
      rw [pairsFold_hasKey_of_mem _ _ _ hmem]
      simp
  have hall : ((classify_nodes s).nodes.all (fun n => dictHasKey
      (buildNewParents (ps.filter (fun p => 1 < p.length)) X) n.treenode_id))
        = true := by
    rw [List.all_eq_true]
    intro n hn
    refine hkey n.treenode_id ?_
    have hmem : n.treenode_id ∈ nodeIds (classify_nodes s) :=
      List.mem_map_of_mem _ hn
    rwa [nodeIds_classify] at hmem
  refine ⟨{ classify_nodes s with nodes := (classify_nodes s).nodes.map (fun n =>
    { n with parent_id := (dictGet (buildNewParents
        (ps.filter (fun p => 1 < p.length)) X) n.treenode_id).join }) }, ?_, ?_⟩
  · unfold reroot_neuron
    rw [hfX]
    dsimp only
    rw [if_neg hpX]
    simp only [htc, Bool.false_eq_true, if_false]
    rw [hps]
    dsimp only
    simp only [hall, if_true]
  · refine ⟨?_, ?_, ?_, ?_, ?_⟩
    · rw [nodeIds_parent_update, nodeIds_classify]
    · intro n hn
      obtain ⟨n1, hn1, rfl⟩ := List.mem_map.mp hn
      rw [classify_nodes_eq_map] at hn1
      obtain ⟨n0, hn0, rfl⟩ := List.mem_map.mp hn1
      rfl
    · rw [parentOf_parent_update, findNode_classify, hfX]
      show (dictGet (buildNewParents (ps.filter (fun p => 1 < p.length)) X)
        (classifyRow s nX).treenode_id).join = none
      have hid' : (classifyRow s nX).treenode_id = X := hidX
      rw [hid', buildNewParents_eq_flat, dictGet_dictInsert, if_pos rfl]
      rfl
    · intro t ht htX
      obtain ⟨nt, hft, hidt⟩ := findNode_isSome_of_mem_ids ht
      have hjoin : parentOf { classify_nodes s with
          nodes := (classify_nodes s).nodes.map (fun n =>
            { n with parent_id := (dictGet (buildNewParents
              (ps.filter (fun p => 1 < p.length)) X) n.treenode_id).join }) } t
          = (dictGet (buildNewParents
              (ps.filter (fun p => 1 < p.length)) X) t).join := by
        rw [parentOf_parent_update, findNode_classify, hft]
        show (dictGet (buildNewParents (ps.filter (fun p => 1 < p.length)) X)
          (classifyRow s nt).treenode_id).join = _
        have hid' : (classifyRow s nt).treenode_id = t := hidt
        rw [hid']
      rcases pairsFold_get_cases
          ((ps.filter (fun p => 1 < p.length)).flatMap pathPairs) [] t with
        hnone | ⟨kv, hkvmem, hkvt, hval⟩
      · exfalso
        have hk := hkey t ht
        rw [buildNewParents_eq_flat, dictHasKey_dictInsert] at hk
        have hk2 : dictHasKey (pairsFold
            ((ps.filter (fun p => 1 < p.length)).flatMap pathPairs) []) t = true := by
          simpa [htX] using hk
        rw [dictHasKey_eq_isSome, hnone] at hk2
        simp [dictGet] at hk2
      · obtain ⟨p, hpfil, hkvp⟩ := List.mem_flatMap.mp hkvmem
        have hpps : p ∈ ps := (List.mem_filter.mp hpfil).1
        have hsound := reroot_pairs_sound hwf hca hleafids hfo p hpps kv hkvp
        rw [hkvt] at hsound
        refine ⟨kv.2, ?_, hsound⟩
        rw [hjoin, buildNewParents_eq_flat, dictGet_dictInsert, if_neg htX, hval]
        rfl
    · intro e
      show e ∈ (((classify_nodes s).nodes.map (fun n =>
          { n with parent_id := (dictGet (buildNewParents
            (ps.filter (fun p => 1 < p.length)) X) n.treenode_id).join })).filter
          (fun n => n.ntype = some NodeRole.leaf)).map (fun n => n.treenode_id) ↔ _
      rw [leafIds_parent_update]
      exact hleafiff e

/-! ### Rerooting twice: chains of the rerooted skeleton -/

theorem chain'_middle {α : Type} {R : α → α → Prop} {l w z : List α} {a b : α}
    (h : List.Chain' R l) (hsplit : l = w ++ a :: b :: z) : R a b := by
  rw [hsplit] at h
  have h2 := (List.chain'_append.mp h).2.1
  exact (List.chain'_cons.mp h2).1

/-- After the first reroot, an on-chain node's new parent is its on-chain
child. -/
theorem reroot_parent_on_chain {s : Skeleton} (hwf : WF s) {X : Nat}
    {ca : List Nat} (hca : PChain s X ca) {s1 : Skeleton}
    (ho : RerootOut s X ca s1) {u t : Nat}
    (hu : u ∈ ca) (hpu : parentOf s u = some t) :
    parentOf s1 t = some u := by
  obtain ⟨l₁, l₂, hsplit, hchu⟩ := pchain_suffix hca u hu
  obtain ⟨lt, hlt, hcht⟩ := pchain_parent_some hchu hpu
  have hl₂ : l₂ = lt := by injection hlt
  subst hl₂
  have htl₂ : t ∈ l₂ := pchain_mem_self hcht
  have htca : t ∈ ca := by
    rw [hsplit]
    exact List.mem_append_right _ (List.mem_cons_of_mem _ htl₂)
  have htX : t ≠ X := by
    intro h
    subst h
    have hdet : l₂ = ca := pchain_deterministic hcht hca
    have hlen := congrArg List.length hsplit
    rw [hdet] at hlen
    simp only [List.length_append, List.length_cons] at hlen
    omega
  obtain ⟨u', hpu', hstep⟩ := ho.parent_step t (pchain_mem_ids hca t htca) htX
  rcases hstep with ⟨-, hcp⟩ | ⟨htnot, -⟩
  · rw [chainPred_unique hwf.1 hca hcp ⟨hu, hpu⟩] at hpu'
    exact hpu'
  · exact absurd htca htnot

/-- After the first reroot, an off-chain node keeps its parent. -/
theorem reroot_parent_off_chain {s : Skeleton} {X : Nat}
    {ca : List Nat} (hca : PChain s X ca) {s1 : Skeleton}
    (ho : RerootOut s X ca s1) {t : Nat}
    (ht : t ∈ nodeIds s) (htca : t ∉ ca) :
    parentOf s1 t = parentOf s t := by
  have htX : t ≠ X := fun h => htca (h ▸ pchain_mem_self hca)
  obtain ⟨u', hpu', hstep⟩ := ho.parent_step t ht htX
  rcases hstep with ⟨htc, -⟩ | ⟨-, hp⟩
  · exact absurd htc htca
  · rw [hpu', hp]

/-- In the rerooted skeleton the old chain is walked backwards: every member
of `ca` reaches the new root `X` through the reversed prefix. -/
theorem reroot_chain_on_ca {s : Skeleton} (hwf : WF s) {X : Nat} {ca : List Nat}
    (hca : PChain s X ca) {s1 : Skeleton} (ho : RerootOut s X ca s1) :
    ∀ w y z, ca = w ++ y :: z → PChain s1 y (y :: w.reverse) := by
  intro w
  induction w using List.reverseRecOn with
  | nil =>
    intro y z hsplit
    obtain ⟨ca', hhd⟩ := pchain_head hca
    have hyX : y = X := by
      have h := hsplit.symm.trans hhd
      injection h
    subst hyX
    have hyids : y ∈ nodeIds s1 := by
      rw [ho.ids_eq]
      exact pchain_mem_ids hca y (pchain_mem_self hca)
    obtain ⟨n1, hf1, hid1⟩ := findNode_isSome_of_mem_ids hyids
    have hp1 : n1.parent_id = none := by
      have h := ho.parent_root
      rwa [parentOf, hf1, Option.some_bind] at h
    exact PChain.root y n1 hf1 hp1
  | append_singleton w u ih =>
    intro y z hsplit
    have hsplit' : ca = w ++ u :: (y :: z) := by rw [hsplit]; simp
    have hchu : PChain s1 u (u :: w.reverse) := ih u (y :: z) hsplit'
    have hadj : parentOf s u = some y :=
      @chain'_middle Nat (fun p q => parentOf s p = some q) ca w z u y
        (pchain_chain' hca) hsplit'
    have huca : u ∈ ca := by
      rw [hsplit']
      exact List.mem_append_right _ (by simp)
    have hpy : parentOf s1 y = some u :=
      reroot_parent_on_chain hwf hca ho huca hadj
    have hgoal : PChain s1 y (y :: (u :: w.reverse)) := pchain_child hpy hchu
    have hrev : (w ++ [u]).reverse = u :: w.reverse := by simp
    rw [hrev]
    exact hgoal

/-- Off-chain prefixes of old chains survive the reroot: a chain that leaves
`ca` only at its common suffix keeps its upper part in the rerooted skeleton,
continuing with any chain of the junction node. -/
theorem reroot_chain_extend {s : Skeleton} {X : Nat} {ca : List Nat}
    (hca : PChain s X ca) {s1 : Skeleton} (ho : RerootOut s X ca s1) :
    ∀ (u2 : List Nat) (t : Nat) (lm : List Nat) (m : Nat) (Q : List Nat),
      PChain s t (u2 ++ lm) → (∀ y ∈ u2, y ∉ ca) → lm.head? = some m →
      PChain s1 m Q → PChain s1 t (u2 ++ Q) := by
  intro u2
  induction u2 with
  | nil =>
    intro t lm m Q hch hno hhd hQ
    obtain ⟨l', hl'⟩ := pchain_head hch
    have hlm : lm = t :: l' := hl'
    have hmt : m = t := by
      rw [hlm] at hhd
      simpa using hhd.symm
    subst hmt
    exact hQ
  | cons a u2' ih =>
    intro t lm m Q hch hno hhd hQ
    obtain ⟨l', hl'⟩ := pchain_head hch
    have hta : t = a := by
      have h : a :: (u2' ++ lm) = t :: l' := hl'
      injection h with h1 h2
      exact h1.symm
    subst hta
    rcases hul : u2' ++ lm with _ | ⟨b, rest⟩
    · exfalso
      have : lm = [] := (List.append_eq_nil.mp hul).2
      rw [this] at hhd
      cases hhd
    · have hch2 : PChain s t (t :: b :: rest) := by
        have h := hch
        rw [List.cons_append, hul] at h
        exact h
      obtain ⟨hpt, hchb⟩ := pchain_cons_cons hch2
      have hbch : PChain s b (u2' ++ lm) := by rw [hul]; exact hchb
      have hihb : PChain s1 b (u2' ++ Q) :=
        ih b lm m Q hbch (fun y hy => hno y (List.mem_cons_of_mem _ hy)) hhd hQ
      have htids : t ∈ nodeIds s :=
        pchain_mem_ids hch t (by simp)
      have htca : t ∉ ca := hno t (by simp)
      have hpt1 : parentOf s1 t = some b := by
        rw [reroot_parent_off_chain hca ho htids htca]
        exact hpt
      exact pchain_child hpt1 hihb

/-- In the rerooted skeleton, the shortest path from the old root to any
original node is that node's original ancestor chain, reversed. -/
theorem reroot_second_path {s : Skeleton} (hwf : WF s) {X : Nat} {ca : List Nat}
    (hca : PChain s X ca) {s1 : Skeleton} (ho : RerootOut s X ca s1)
    {e : Nat} {ce : List Nat} (hce : PChain s e ce) :
    pathBetween s1 (rootId s) e = some ce.reverse := by
  have hids1 : (nodeIds s1).Nodup := by rw [ho.ids_eq]; exact hwf.1
  have hshare : ∃ y, y ∈ ce ∧ y ∈ ca :=
    ⟨rootId s, rootId_mem_pchain hwf.1 hwf.2.1 hce,
      rootId_mem_pchain hwf.1 hwf.2.1 hca⟩
  obtain ⟨w, w', m, lm, hce_eq, hca_eq, hlmch, hwno, hcsl⟩ :=
    pchain_lca hce hca hshare
  obtain ⟨lm₀, hlm⟩ := pchain_head hlmch
  have hca_eq' : ca = w' ++ m :: lm₀ := by rw [hca_eq, hlm]
  have hchm1 : PChain s1 m (m :: w'.reverse) :=
    reroot_chain_on_ca hwf hca ho w' m lm₀ hca_eq'
  have hce_lm : PChain s e (w ++ lm) := by rw [← hce_eq]; exact hce
  have hch_e1 : PChain s1 e (w ++ (m :: w'.reverse)) :=
    reroot_chain_extend hca ho w e lm m (m :: w'.reverse) hce_lm hwno
      (by rw [hlm]; rfl) hchm1
  obtain ⟨u', hca_split⟩ := pchain_concat_root hwf.1 hwf.2.1 hca
  have hchr1' : PChain s1 (rootId s) (rootId s :: u'.reverse) :=
    reroot_chain_on_ca hwf hca ho u' (rootId s) [] hca_split
  have hcar : ca.reverse = rootId s :: u'.reverse := by rw [hca_split]; simp
  have hchr1 : PChain s1 (rootId s) ca.reverse := by rw [hcar]; exact hchr1'
  have hchOf_r : chainOf s1 (rootId s) = some ca.reverse :=
    (chainOf_eq_some_iff hids1).mpr hchr1
  have hchOf_e : chainOf s1 e = some (w ++ (m :: w'.reverse)) :=
    (chainOf_eq_some_iff hids1).mpr hch_e1
  have hcar_dec : ca.reverse = lm₀.reverse ++ (m :: w'.reverse) := by
    rw [hca_eq']
    simp
  have hnolm : ∀ y ∈ lm₀.reverse, y ∉ w ++ (m :: w'.reverse) := by
    intro y hy hmem
    have hylm₀ : y ∈ lm₀ := List.mem_reverse.mp hy
    have hylm : y ∈ lm := by rw [hlm]; exact List.mem_cons_of_mem _ hylm₀
    have hyca : y ∈ ca := by rw [hca_eq]; exact List.mem_append_right _ hylm
    rcases List.mem_append.mp hmem with hyw | hymw
    · exact hwno y hyw hyca
    · rcases List.mem_cons.mp hymw with rfl | hyw'
      · have hnd := pchain_nodup hlmch
        rw [hlm] at hnd
        exact (List.nodup_cons.mp hnd).1 hylm₀
      · have hyw'' : y ∈ w' := List.mem_reverse.mp hyw'
        have hndca := pchain_nodup hca
        rw [hca_eq] at hndca
        exact List.disjoint_of_nodup_append hndca hyw'' hylm
  have hk : commonSuffixLen ca.reverse (w ++ (m :: w'.reverse))
      = (m :: w'.reverse).length :=
    @commonSuffixLen_eq_of_split (ca.reverse) (w ++ (m :: w'.reverse))
      (lm₀.reverse) w (m :: w'.reverse) hcar_dec rfl hnolm
  unfold pathBetween
  rw [hchOf_r, hchOf_e]
  dsimp only
  rw [hk]
  have hlen1 : ca.reverse.length = lm₀.reverse.length + (m :: w'.reverse).length := by
    rw [hcar_dec]
    simp
  have htake1 : ca.reverse.take (ca.reverse.length - (m :: w'.reverse).length)
      = lm₀.reverse := by
    rw [hlen1]
    have harith : lm₀.reverse.length + (m :: w'.reverse).length
        - (m :: w'.reverse).length = lm₀.reverse.length := by omega
    rw [harith, hcar_dec]
    exact List.take_left _ _
  have htake2 : (w ++ (m :: w'.reverse)).take
      ((w ++ (m :: w'.reverse)).length - (m :: w'.reverse).length + 1)
        = w ++ [m] := by
    have hlen2 : (w ++ (m :: w'.reverse)).length
        = w.length + (m :: w'.reverse).length := by simp
    rw [hlen2]
    have harith : w.length + (m :: w'.reverse).length
        - (m :: w'.reverse).length + 1 = w.length + 1 := by omega
    rw [harith, List.take_append 1]
    rfl
  rw [htake1, htake2]
  congr 1
  rw [hce_eq, hlm]
  simp [List.reverse_append, List.append_assoc]

/-- C4 (amended): for every well-formed single-neuron skeleton whose root has
at least two children and every non-root node `X`, rerooting to `X` and then
rerooting the result back to the original root succeeds and reproduces the
original parent identifier of every node (the claim as stated fails when the
root has a single child: the first reroot then raises `KeyError`, because the
old root is typed `root`, not `end`, and so lies on no leaf path). -/
theorem reroot_reroot_restores_parents (s : Skeleton) (hwf : WF s) (X : Nat)
    (hX : X ∈ nodeIds s) (hXr : X ≠ rootId s)
    (hr2 : 2 ≤ (generate_list_of_childs s (rootId s)).length) :
    ∃ s1 s2, reroot_neuron s X = some s1 ∧
      reroot_neuron s1 (rootId s) = some s2 ∧
      nodeIds s2 = nodeIds s ∧
      ∀ t ∈ nodeIds s, parentOf s2 t = parentOf s t := by
  obtain ⟨ca, hca⟩ := pchain_exists_of_mem hwf hX
  obtain ⟨s1, hr1, ho⟩ := reroot_first_spec s hwf X ca hca hXr hr2
  have hrids : rootId s ∈ nodeIds s := rootId_mem_ids hwf
  have hrids1 : rootId s ∈ nodeIds s1 := by rw [ho.ids_eq]; exact hrids
  obtain ⟨nr, hfr, hidr⟩ := findNode_isSome_of_mem_ids hrids1
  have hrX : rootId s ≠ X := fun h => hXr h.symm
  obtain ⟨ur, hpur, -⟩ := ho.parent_step (rootId s) hrids hrX
  have hpnr : ¬ nr.parent_id = none := by
    unfold parentOf at hpur
    rw [hfr, Option.some_bind] at hpur
    rw [hpur]
    simp
  have htc1 : hasTypeCol s1 = true := by
    unfold hasTypeCol
    rw [List.all_eq_true]
    intro n hn
    rw [ho.ntype_eq n hn]
    rfl
  have hall_some : ∀ e ∈ (s1.nodes.filter
      (fun n => n.ntype = some NodeRole.leaf)).map (fun n => n.treenode_id),
      ((fun ln => pathBetween s1 (rootId s) ln) e).isSome = true := by
    intro e he
    obtain ⟨heids, -, -⟩ := (ho.leaves_iff e).mp he
    obtain ⟨ce, hce⟩ := pchain_exists_of_mem hwf heids
    show (pathBetween s1 (rootId s) e).isSome = true
    rw [reroot_second_path hwf hca ho hce]
    rfl
  obtain ⟨ps, hps, hfo⟩ := mapM_option_some_of_forall
    (fun ln => pathBetween s1 (rootId s) ln)
    ((s1.nodes.filter (fun n => n.ntype = some NodeRole.leaf)).map
      (fun n => n.treenode_id)) hall_some
  have hshape : ∀ p ∈ ps, ∃ ce, (∃ e, PChain s e ce) ∧ p = ce.reverse := by
    intro p hp
    obtain ⟨e, heL, hpe⟩ := forall₂_mem_right hfo p hp
    obtain ⟨heids, -, -⟩ := (ho.leaves_iff e).mp heL
    obtain ⟨ce, hce⟩ := pchain_exists_of_mem hwf heids
    have h2 := reroot_second_path hwf hca ho hce
    rw [hpe] at h2
    have hpe2 : p = ce.reverse := by injection h2
    exact ⟨ce, ⟨e, hce⟩, hpe2⟩
  have hsound : ∀ p ∈ ps, ∀ kv ∈ pathPairs p, parentOf s kv.1 = some kv.2 := by
    intro p hp kv hkv
    obtain ⟨ce, ⟨e, hce⟩, rfl⟩ := hshape p hp
    have hch : List.Chain' (fun u v => parentOf s v = some u) ce.reverse :=
      List.chain'_reverse.mpr (pchain_chain' hce)
    exact pathPairs_chain' hch kv hkv
  have hkey : ∀ t ∈ nodeIds s, dictHasKey
      (buildNewParents (ps.filter (fun p => 1 < p.length)) (rootId s)) t = true := by
    intro t ht
    rw [buildNewParents_eq_flat, dictHasKey_dictInsert]
    by_cases htr : t = rootId s
    · simp [htr]
    · obtain ⟨e, heids, hance, hech⟩ := exists_childless_descendant' hwf ht
      have hrch : generate_list_of_childs s (rootId s) ≠ [] := by
        intro h; rw [h] at hr2; simp at hr2
      have herne : e ≠ rootId s := fun h => hrch (h ▸ hech)
      have hepar : parentOf s e ≠ none := parentOf_ne_none_of_ne_root hwf heids herne
      have heL : e ∈ (s1.nodes.filter (fun n => n.ntype = some NodeRole.leaf)).map
          (fun n => n.treenode_id) := (ho.leaves_iff e).mpr ⟨heids, hepar, hech⟩
      obtain ⟨p, hp_ps, hpe⟩ := forall₂_mem_left hfo e heL
      obtain ⟨ce, hce⟩ := pchain_exists_of_mem hwf heids
      have h2 := reroot_second_path hwf hca ho hce
      rw [hpe] at h2
      have hpce : p = ce.reverse := by injection h2
      have htce : t ∈ ce := mem_chain_of_anc hce hance
      have htp : t ∈ p := by rw [hpce]; exact List.mem_reverse.mpr htce
      have hhead : p.head? = some (rootId s) := by
        obtain ⟨uc, hsplit⟩ := pchain_concat_root hwf.1 hwf.2.1 hce
        rw [hpce, hsplit]
        simp
      obtain ⟨q, hqfil, hqtail⟩ := reroot_cover_end hp_ps htp hhead htr
      have hmem : t ∈ ((ps.filter (fun p => 1 < p.length)).flatMap pathPairs).map
          Prod.fst := by
        rw [← pathPairs_keys] at hqtail
        obtain ⟨kv, hkv, hkvt⟩ := List.mem_map.mp hqtail
        exact List.mem_map.mpr ⟨kv, List.mem_flatMap.mpr ⟨q, hqfil, hkv⟩, hkvt⟩
      rw [pairsFold_hasKey_of_mem _ _ _ hmem]
      simp
  have hall : (s1.nodes.all (fun n => dictHasKey
      (buildNewParents (ps.filter (fun p => 1 < p.length)) (rootId s))
        n.treenode_id)) = true := by
    rw [List.all_eq_true]
    intro n hn
    refine hkey n.treenode_id ?_
    have hmem : n.treenode_id ∈ nodeIds s1 := List.mem_map_of_mem _ hn
    rwa [ho.ids_eq] at hmem
  refine ⟨s1, { s1 with nodes := s1.nodes.map (fun n =>
    { n with parent_id := (dictGet (buildNewParents
        (ps.filter (fun p => 1 < p.length)) (rootId s)) n.treenode_id).join }) },
    hr1, ?_, ?_, ?_⟩
  · unfold reroot_neuron
    rw [hfr]
    dsimp only
    rw [if_neg hpnr]
    simp only [htc1, if_true]
    rw [hps]
    dsimp only
    simp only [hall, if_true]
  · rw [nodeIds_parent_update, ho.ids_eq]
  · intro t ht
    have hts1 : t ∈ nodeIds s1 := by rw [ho.ids_eq]; exact ht
    obtain ⟨nt, hft, hidt⟩ := findNode_isSome_of_mem_ids hts1
    have hjoin : parentOf { s1 with nodes := s1.nodes.map (fun n =>
        { n with parent_id := (dictGet (buildNewParents
          (ps.filter (fun p => 1 < p.length)) (rootId s)) n.treenode_id).join }) } t
        = (dictGet (buildNewParents
            (ps.filter (fun p => 1 < p.length)) (rootId s)) t).join := by
      rw [parentOf_parent_update, hft]
      show (dictGet (buildNewParents (ps.filter (fun p => 1 < p.length))
        (rootId s)) nt.treenode_id).join = _
      rw [hidt]
    by_cases htr : t = rootId s
    · subst htr
      rw [hjoin, buildNewParents_eq_flat, dictGet_dictInsert, if_pos rfl]
      rw [parentOf_rootId hwf.1 hwf.2.1]
      rfl
    · rcases pairsFold_get_cases
          ((ps.filter (fun p => 1 < p.length)).flatMap pathPairs) [] t with
        hnone | ⟨kv, hkvmem, hkvt, hval⟩
      · exfalso
        have hk := hkey t ht
        rw [buildNewParents_eq_flat, dictHasKey_dictInsert] at hk
        have hk2 : dictHasKey (pairsFold
            ((ps.filter (fun p => 1 < p.length)).flatMap pathPairs) []) t
              = true := by
          simpa [htr] using hk
        rw [dictHasKey_eq_isSome, hnone] at hk2
        simp [dictGet] at hk2
      · obtain ⟨p, hpfil, hkvp⟩ := List.mem_flatMap.mp hkvmem
        have hpps : p ∈ ps := (List.mem_filter.mp hpfil).1
        have hs := hsound p hpps kv hkvp
        rw [hkvt] at hs
        rw [hjoin, buildNewParents_eq_flat, dictGet_dictInsert, if_neg htr, hval]
        rw [hs]
        rfl

/-- A two-node chain: root 1 with single child 2. -/
def skCh2 : Skeleton :=
  { neuron_name := "chain2", skeleton_id := 21,
    nodes := [mkNode 1 none 0 0 0, mkNode 2 (some 1) 10 0 0],
    connectors := [], tags := [] }

/-- A five-node tree whose root has two children: 1 is the root, 2 and 3 its
children, 4 and 5 the children of 2. -/
def skT : Skeleton :=
  { neuron_name := "twochild", skeleton_id := 22,
    nodes := [mkNode 1 none 0 0 0, mkNode 2 (some 1) 10 0 0,
      mkNode 3 (some 1) 0 10 0, mkNode 4 (some 2) 20 0 0,
      mkNode 5 (some 2) 10 10 0],
    connectors := [], tags := [] }

/-- Counterexample to C4 as stated: on the well-formed two-node chain,
rerooting to the non-root node 2 crashes (`KeyError`: the old root 1 is typed
`root`, not `end`, so it lies on no leaf path and the parent-column rebuild of
line 371 cannot find it), hence the double reroot cannot reproduce anything. -/
theorem reroot_reroot_counterexample :
    WF skCh2 ∧ 2 ∈ nodeIds skCh2 ∧ 2 ≠ rootId skCh2 ∧
      reroot_neuron skCh2 2 = none ∧
      (reroot_neuron skCh2 2).bind (fun s1 => reroot_neuron s1 (rootId skCh2))
        = none := by
  refine ⟨by decide, by decide, by decide, by decide, by decide⟩

/-- Witness for the C4 theorem: on the five-node tree with a two-child root,
rerooting to node 4 and back restores every parent link. -/
theorem reroot_reroot_restores_parents_witness :
    (WF skT ∧ 4 ∈ nodeIds skT ∧ 4 ≠ rootId skT ∧
      2 ≤ (generate_list_of_childs skT (rootId skT)).length) ∧
    (∃ s1 s2, reroot_neuron skT 4 = some s1 ∧
      reroot_neuron s1 (rootId skT) = some s2 ∧
      nodeIds s2 = nodeIds skT ∧
      ∀ t ∈ nodeIds skT, parentOf s2 t = parentOf skT t) :=
  ⟨⟨by decide, by decide, by decide, by decide⟩,
    reroot_reroot_restores_parents skT (by decide) 4 (by decide) (by decide)
      (by decide)⟩
